import Mathlib

/-!
Shallow embedding of the `immutable` Go collections library
(persistent List, Queue, and the batch builders), together with proofs
about the embedded operations.

Conventions used throughout the embedding:
* Go `int` indices and sizes are modelled as `Nat`; every value that the
  library stores in these fields is non-negative along the modelled paths,
  and a negative-index panic is subsumed by the `Nat` bound checks.
* Go bit operations on indices are modelled arithmetically:
  `(i >> (d*listNodeBits)) & listNodeMask` is `i / 32 ^ d % 32`
  (`listNodeBits = 5`, so `1 << (d*5) = 32 ^ d`), and
  `1 << (depth*listNodeBits)` is `32 ^ depth`.
* A Go panic (out-of-bounds index, nil dereference, failed type assertion,
  failed `assert`) is modelled by returning `none` from an `Option` result.
* Go's zero value for the element type is `default` from an `Inhabited`
  instance.
* The `mutable` flag only selects between in-place update and
  clone-then-update in Go; both produce the same logical value, and the
  embedding keeps the flag and transcribes both branches.
-/

namespace ImmutableGo

/-- `listNodeBits` from `list.go`. -/
def listNodeBits : Nat := 5

/-- `listNodeSize = 1 << listNodeBits` from `list.go`. -/
def listNodeSize : Nat := 32

/-- `listSliceThreshold` from `list.go`: lists of at most this size may use
the slice representation. -/
def listSliceThreshold : Nat := 32

/-- `digit d i` models Go's `(i >> (d*listNodeBits)) & listNodeMask`:
the base-32 digit of `i` at position `d`. -/
def digit (d i : Nat) : Nat := i / 32 ^ d % 32

/-- The node variants of `list.go`: `nil` interface values, `listSliceNode`,
`listLeafNode` (32 value slots plus an occupancy bitmap) and
`listBranchNode` (depth and 32 child slots).  Fixed 32-slot arrays are
modelled as functions from `Nat`; every Go access site masks its index
below 32. -/
inductive ListNode (T : Type) where
  | nilNode : ListNode T
  | sliceNode (elements : List T) : ListNode T
  | leafNode (children : Nat → T) (occupied : Nat) : ListNode T
  | branchNode (d : Nat) (children : Nat → ListNode T) : ListNode T

namespace ListNode

/-- `depth()` of `list.go`: 0 for leaves and slice nodes, the stored `d`
for branches.  (Go would nil-panic on a nil node; the library never calls
`depth` on nil and the embedding returns 0 there.) -/
def depth {T : Type} : ListNode T → Nat
  | .branchNode d _ => d
  | _ => 0

/-- Whether the node is the nil interface value. -/
def isNil {T : Type} : ListNode T → Bool
  | .nilNode => true
  | _ => false

/-- Whether the node is a `listSliceNode`. -/
def isSlice {T : Type} : ListNode T → Bool
  | .sliceNode _ => true
  | _ => false

/-- `get` of `list.go` nodes.  `none` models a Go panic (nil dereference or
slice index out of bounds). -/
def get {T : Type} : ListNode T → Nat → Option T
  | .nilNode, _ => none
  | .sliceNode elements, index => elements[index]?
  | .leafNode children _, index => some (children (index % 32))
  | .branchNode d children, index => (children (digit d index)).get index

/-- `newListNode` of `list.go`: a fresh leaf for depth zero, otherwise a
fresh branch. -/
def newNode (T : Type) [Inhabited T] (depth : Nat) : ListNode T :=
  if depth = 0 then .leafNode (fun _ => default) 0 else .branchNode depth (fun _ => .nilNode)

/-- The leaf case of `set`: update the masked slot and light its occupancy
bit. -/
def leafSet {T : Type} (children : Nat → T) (occupied : Nat) (index : Nat) (v : T) :
    ListNode T :=
  .leafNode (fun j => if j = index % 32 then v else children j)
    (occupied ||| (1 <<< (index % 32)))

/-- `newListNode(d).set(index, v, mutable)` unfolded: `set` on a fresh node
builds the single path for `index` (every slot off the path stays nil).
`setFresh_eq_setGo_newNode` below certifies this against `setGo`. -/
def setFresh {T : Type} [Inhabited T] (d index : Nat) (v : T) (mutb : Bool) : ListNode T :=
  match d with
  | 0 => leafSet (fun _ => default) 0 index v
  | d + 1 =>
      .branchNode (d + 1) (fun j =>
        if j = digit (d + 1) index then setFresh d index v mutb else .nilNode)

/-- `set` of `list.go` nodes.  In Go the `mutable` flag picks in-place
update or clone-then-update; both yield this value.  A nil child slot is
replaced by `newListNode(d-1)` before recursing, which is `setFresh` here.
(Go would nil-panic when called on nil; the library never does, and the
embedding returns nil there.) -/
def setGo {T : Type} [Inhabited T] : ListNode T → Nat → T → Bool → ListNode T
  | .nilNode, _, _, _ => .nilNode
  | .sliceNode elements, index, v, _mutb => .sliceNode (elements.set index v)
  | .leafNode children occupied, index, v, _mutb => leafSet children occupied index v
  | .branchNode d children, index, v, mutb =>
      let idx := digit d index
      .branchNode d (fun j =>
        if j = idx then
          (if (children idx).isNil then setFresh (d - 1) index v mutb
           else (children idx).setGo index v mutb)
        else children j)

/-- `setFresh` agrees with `setGo` applied to a freshly built node, so the
unfolding in `setGo`'s nil-child case is faithful to
`newListNode[T](n.depth() - 1)` followed by `child.set`. -/
theorem setFresh_eq_setGo_newNode {T : Type} [Inhabited T] (d index : Nat) (v : T)
    (mutb : Bool) : setFresh d index v mutb = (newNode T d).setGo index v mutb := by
  cases d with
  | zero => rfl
  | succ d => rfl

end ListNode

/-- `bits.TrailingZeros32` restricted to the low 32 bits (the occupancy
bitmap is a `uint32`): the least set bit position, 32 if none. -/
def tz32 (occ : Nat) : Nat :=
  (((List.range 32).filter (fun k => occ / 2 ^ k % 2 = 1)).head?).getD 32

/-- `bits.LeadingZeros32` on a `uint32` value. -/
def lz32 (occ : Nat) : Nat :=
  if occ % 2 ^ 32 = 0 then 32 else 31 - Nat.log2 (occ % 2 ^ 32)

namespace ListNode

/-- `containsBefore` of `list.go` nodes: is there a live slot strictly
before `index` (along the path digits)? -/
def containsBefore {T : Type} : ListNode T → Nat → Bool
  | .nilNode, _ => false
  | .sliceNode _, _ => true
  | .leafNode _ occupied, index => tz32 occupied < index % 32
  | .branchNode d children, index =>
      let idx := digit d index
      if (List.range idx).any (fun i => !(children i).isNil) then true
      else !(children idx).isNil && (children idx).containsBefore index

/-- `containsAfter` of `list.go` nodes: is there a live slot strictly after
`index`?  The leaf case compares `31 - LeadingZeros32(occupied)` (which is
`-1` for an empty bitmap) against the slot index, over `Int` as in Go. -/
def containsAfter {T : Type} : ListNode T → Nat → Bool
  | .nilNode, _ => false
  | .sliceNode _, _ => true
  | .leafNode _ occupied, index =>
      decide ((31 - (lz32 occupied : Int)) > ((index % 32 : Nat) : Int))
  | .branchNode d children, index =>
      let idx := digit d index
      if (List.range 32).any (fun i => decide (idx + 1 ≤ i) && !(children i).isNil) then true
      else !(children idx).isNil && (children idx).containsAfter index

/-- `deleteBefore` of `list.go` nodes.  The mutable branch zeroes the slots
before the path digit in place; the immutable branch allocates a fresh node
and copies the slots from the digit on (Go `copy(other.children[idx:][:],
n.children[idx:][:])` touches indices `idx ≤ j < 32`). -/
def deleteBefore {T : Type} [Inhabited T] : ListNode T → Nat → Bool → ListNode T
  | .nilNode, _, _ => .nilNode
  | .sliceNode elements, _, _ => .sliceNode elements
  | .leafNode children occupied, index, mutb =>
      if !(ListNode.leafNode children occupied).containsBefore index then
        .leafNode children occupied
      else
        let idx := index % 32
        let ch : Nat → T :=
          if mutb then fun j => if j < idx then default else children j
          else fun j => if idx ≤ j ∧ j < 32 then children j else default
        .leafNode ch (occupied &&& ((2 ^ 32 - 1) ^^^ ((1 <<< idx) - 1)))
  | .branchNode d children, index, mutb =>
      if !(ListNode.branchNode d children).containsBefore index then
        .branchNode d children
      else
        let idx := digit d index
        let newChild :=
          if (children idx).isNil then ListNode.nilNode
          else (children idx).deleteBefore index mutb
        .branchNode d (fun j =>
          if j = idx then newChild
          else if mutb then (if j < idx then .nilNode else children j)
          else (if idx ≤ j ∧ j < 32 then children j else .nilNode))

/-- `deleteAfter` of `list.go` nodes.  The mutable branch zeroes the slots
after the path digit in place; the immutable branch allocates a fresh node
and copies slots `0 ≤ j ≤ idx`. -/
def deleteAfter {T : Type} [Inhabited T] : ListNode T → Nat → Bool → ListNode T
  | .nilNode, _, _ => .nilNode
  | .sliceNode elements, _, _ => .sliceNode elements
  | .leafNode children occupied, index, mutb =>
      if !(ListNode.leafNode children occupied).containsAfter index then
        .leafNode children occupied
      else
        let idx := index % 32
        let ch : Nat → T :=
          if mutb then fun j => if idx + 1 ≤ j ∧ j < 32 then default else children j
          else fun j => if j ≤ idx then children j else default
        .leafNode ch (occupied &&& ((1 <<< (idx + 1)) - 1))
  | .branchNode d children, index, mutb =>
      if !(ListNode.branchNode d children).containsAfter index then
        .branchNode d children
      else
        let idx := digit d index
        let newChild :=
          if (children idx).isNil then ListNode.nilNode
          else (children idx).deleteAfter index mutb
        .branchNode d (fun j =>
          if j = idx then newChild
          else if mutb then (if idx + 1 ≤ j ∧ j < 32 then .nilNode else children j)
          else (if j ≤ idx then children j else .nilNode))

end ListNode

/-- Partition a list into consecutive chunks of at most 32 elements, as the
`for i := 0; i < n; i += listNodeSize` loops of `toTrie` do. -/
def chunks32 {α : Type} : List α → List (List α)
  | [] => []
  | x :: xs => (x :: xs).take 32 :: chunks32 ((x :: xs).drop 32)
termination_by l => l.length
decreasing_by simp; omega

theorem chunks32_length {α : Type} (l : List α) :
    (chunks32 l).length = (l.length + 31) / 32 := by
  have key : ∀ n (l : List α), l.length ≤ n → (chunks32 l).length = (l.length + 31) / 32 := by
    intro n
    induction n with
    | zero =>
      intro l hl
      have : l = [] := List.length_eq_zero.mp (by omega)
      subst this
      simp [chunks32]
    | succ n ih =>
      intro l hl
      cases l with
      | nil => simp [chunks32]
      | cons x xs =>
        rw [chunks32]
        have hdrop : ((x :: xs).drop 32).length = xs.length + 1 - 32 := by simp
        have := ih ((x :: xs).drop 32) (by rw [hdrop]; simp at hl; omega)
        simp only [List.length_cons]
        rw [this, hdrop]
        by_cases hle : xs.length + 1 ≤ 32
        · have h1 : xs.length + 1 - 32 = 0 := by omega
          rw [h1]
          have hlow : 1 ≤ (xs.length + 1 + 31) / 32 :=
            (Nat.le_div_iff_mul_le (by omega)).mpr (by omega)
          have hhigh : (xs.length + 1 + 31) / 32 < 2 :=
            (Nat.div_lt_iff_lt_mul (by omega)).mpr (by omega)
          omega
        · have h32 : xs.length + 1 - 32 + 31 + 32 = xs.length + 1 + 31 := by omega
          calc (xs.length + 1 - 32 + 31) / 32 + 1
              = (xs.length + 1 - 32 + 31 + 32) / 32 := (Nat.add_div_right _ (by omega)).symm
            _ = (xs.length + 1 + 31) / 32 := by rw [h32]
  exact key l.length l le_rfl

/-- One layer-building pass of `toTrie`: wrap the node list into branch
nodes of fan-out 32 at the given depth, repeating until one node remains.
Mirrors the `for len(nodes) > 1` loop. -/
def buildLayers {T : Type} (nodes : List (ListNode T)) (depth : Nat) : ListNode T :=
  if h : nodes.length ≤ 1 then nodes.headD .nilNode
  else
    buildLayers
      ((chunks32 nodes).map fun chunk =>
        ListNode.branchNode depth (fun j => chunk.getD j .nilNode))
      (depth + 1)
termination_by nodes.length
decreasing_by
  simp only [not_le] at h
  have hlen : ((chunks32 nodes).map fun chunk =>
      ListNode.branchNode depth (fun j => chunk.getD j ListNode.nilNode)).length
      = (nodes.length + 31) / 32 := by
    rw [List.length_map, chunks32_length]
  rw [hlen]
  rw [Nat.div_lt_iff_lt_mul (by omega)]
  omega

/-- `toTrie` of `list.go`: convert a slice node's elements into a trie.
Leaves hold 32-element chunks with a full occupancy prefix
(`(1 << len(chunk)) - 1`), then branch layers of fan-out 32 are built until
a single root remains.  The Go `mutable` parameter is unused by the source
body. -/
def sliceToTrie {T : Type} [Inhabited T] (elements : List T) (_mutb : Bool) : ListNode T :=
  if elements.length = 0 then .leafNode (fun _ => default) 0
  else
    let leaves := (chunks32 elements).map fun chunk =>
      ListNode.leafNode (fun j => chunk.getD j default) (2 ^ chunk.length - 1)
    buildLayers leaves 1

/-- The `List[T]` struct of `list.go`: root node, origin offset and logical
size. -/
structure GoList (T : Type) where
  root : ListNode T
  origin : Nat
  size : Nat

namespace GoList

/-- `List.cap` of `list.go`: `1 << (root.depth() * listNodeBits)`,
i.e. `32 ^ depth`. -/
def cap {T : Type} (l : GoList T) : Nat := 32 ^ l.root.depth

/-- `List.Len` of `list.go`. -/
def len {T : Type} (l : GoList T) : Nat := l.size

/-- `List.Get` of `list.go`: bounds-checked (panic modelled as `none`),
then either a direct slice read or a trie walk at `origin + index`. -/
def get {T : Type} (l : GoList T) (index : Nat) : Option T :=
  if index ≥ l.size then none
  else
    match l.root with
    | .sliceNode elements => elements[index]?
    | root => root.get (l.origin + index)

/-- `List.set` of `list.go`.  The immutable path clones the struct; with
value semantics both paths build the same record. -/
def setGo {T : Type} [Inhabited T] (l : GoList T) (index : Nat) (v : T) (mutb : Bool) :
    Option (GoList T) :=
  if index ≥ l.size then none
  else
    match l.root with
    | .sliceNode elements => some { l with root := (ListNode.sliceNode elements).setGo index v mutb }
    | root => some { l with root := root.setGo (l.origin + index) v mutb }

/-- The trie branch of `List.append` in `list.go`: expand with a new top
branch (current root at child 0) when `origin + size ≥ cap()`, then grow
the size and set slot `origin + size` (that is, `origin + newsize - 1`). -/
def appendTrie {T : Type} [Inhabited T] (l : GoList T) (v : T) (mutb : Bool) : GoList T :=
  let l :=
    if l.size + l.origin ≥ l.cap then
      { l with root :=
          ListNode.branchNode (l.root.depth + 1) (fun j => if j = 0 then l.root else .nilNode) }
    else l
  { l with size := l.size + 1, root := l.root.setGo (l.origin + l.size) v mutb }

/-- `List.append` of `list.go`.  A slice root below the threshold stays a
slice (one fresh buffer of length `size+1`: Go `make` + `copy` +
tail write); at the threshold the slice is converted by `toTrie` and the
append re-runs on the converted list, which then takes the trie branch
(`appendTrie`). -/
def appendGo {T : Type} [Inhabited T] (l : GoList T) (v : T) (mutb : Bool) : GoList T :=
  match l.root with
  | .sliceNode elements =>
      if l.size < listSliceThreshold then
        { l with
          root := ListNode.sliceNode
            ((List.range (l.size + 1)).map fun j =>
              if j = l.size then v else elements.getD j default),
          size := l.size + 1 }
      else
        appendTrie { root := sliceToTrie elements true, origin := 0, size := l.size } v mutb
  | _ => appendTrie l v mutb

/-- The trie branch of `List.prepend` in `list.go`: when `origin == 0`,
push a new top branch with the current root at child 31 and advance the
origin by `31 << (newRoot.depth() * listNodeBits)`; then grow the size,
move the origin back one and set the new first slot. -/
def prependTrie {T : Type} [Inhabited T] (l : GoList T) (v : T) (mutb : Bool) : GoList T :=
  let l :=
    if l.origin = 0 then
      let newRoot := ListNode.branchNode (l.root.depth + 1) (fun j => if j = 31 then l.root else ListNode.nilNode)
      { l with root := newRoot, origin := l.origin + 31 * 32 ^ newRoot.depth }
    else l
  { l with size := l.size + 1, origin := l.origin - 1, root := l.root.setGo (l.origin - 1) v mutb }

/-- `List.prepend` of `list.go`: the slice mirror image of `appendGo`. -/
def prependGo {T : Type} [Inhabited T] (l : GoList T) (v : T) (mutb : Bool) : GoList T :=
  match l.root with
  | .sliceNode elements =>
      if l.size < listSliceThreshold then
        { l with
          root := ListNode.sliceNode
            ((List.range (l.size + 1)).map fun j =>
              if j = 0 then v else elements.getD (j - 1) default),
          size := l.size + 1 }
      else
        prependTrie { root := sliceToTrie elements true, origin := 0, size := l.size } v mutb
  | _ => prependTrie l v mutb

end GoList

/-- The `for other.root.depth() > 1` contraction loop of `List.slice`:
while the window's first and last index share the top-level child, replace
the root with that child and subtract `i << (depth * listNodeBits)` from
the origin.  When `origin + size = 0` Go computes the digit of the `int`
`-1`, which is 31 at every level (arithmetic shift of a negative value);
that case is transcribed explicitly since the embedding uses `Nat`. -/
def contract {T : Type} : ListNode T → Nat → Nat → ListNode T × Nat
  | .branchNode d children, origin, size =>
      if d > 1 then
        let i := digit d origin
        let j := if origin + size = 0 then 31 else digit d (origin + size - 1)
        if i = j then contract (children i) (origin - i * 32 ^ d) size
        else (.branchNode d children, origin)
      else (.branchNode d children, origin)
  | root, origin, _ => (root, origin)

namespace GoList

/-- `List.slice` of `list.go`: bounds checks (panics as `none`), the
whole-range identity shortcut, the slice-node copy path, and the trie path
(update origin/size, contract, then `deleteBefore`/`deleteAfter` around the
window). -/
def sliceGo {T : Type} [Inhabited T] (l : GoList T) (start finish : Nat) (mutb : Bool) :
    Option (GoList T) :=
  if start > l.size then none
  else if finish > l.size then none
  else if start > finish then none
  else if start = 0 ∧ finish = l.size then some l
  else
    match l.root with
    | .sliceNode elements =>
        some { root := ListNode.sliceNode
                 ((List.range (finish - start)).map fun j => elements.getD (start + j) default),
               origin := 0, size := finish - start }
    | root =>
        let o1 := l.origin + start
        let s1 := finish - start
        let (r2, o2) := contract root o1 s1
        let r3 := r2.deleteBefore o2 mutb
        -- Go calls `deleteAfter(other.origin + other.size - 1)`.  When
        -- `origin + size = 0` the `int` argument is `-1`, whose masked digit
        -- is 31 at every level; `containsAfter` is then false on every node
        -- (nothing lies after slot 31, and the leaf comparison
        -- `31 - LeadingZeros32(occupied) > 31` never holds), so
        -- `deleteAfter(-1)` returns its receiver unchanged and is
        -- transcribed as the identity in that case.
        let r4 := if o2 + s1 = 0 then r3 else r3.deleteAfter (o2 + s1 - 1) mutb
        some { root := r4, origin := o2, size := s1 }

end GoList

/-- `NewList` of `list.go`: more than `listSliceThreshold` values start
from an empty leaf-rooted trie and append each value in mutable mode;
otherwise a copy of the values backs a slice node. -/
def newList {T : Type} [Inhabited T] (values : List T) : GoList T :=
  if values.length > listSliceThreshold then
    values.foldl (fun l v => l.appendGo v true)
      { root := .leafNode (fun _ => default) 0, origin := 0, size := 0 }
  else
    { root := .sliceNode values, origin := 0, size := values.length }

/-! ### List iterator

`ListIterator` of `list.go`: a list, the current logical index, a 32-slot
stack of (node, child index) pairs and a stack depth.  The stack array is
modelled as a function from `Nat`; Go indexes it only at `0 ≤ d < 32`
(indexing past the array, like the unbounded descent loop on a malformed
tree, is a panic/divergence and is modelled by running out of fuel). -/

structure ListIter (T : Type) where
  list : GoList T
  index : Nat
  stack : Nat → ListNode T × Nat
  depth : Nat

namespace ListIter

/-- `Done` of `list.go`: `index < 0 || index >= len` (a `Nat` index cannot
be negative; `Prev`, the only source of negative indices, is not part of
the modelled operations). -/
def done {T : Type} (itr : ListIter T) : Bool := itr.index ≥ itr.list.size

/-- The lowercase `seek` loop of `list.go`: starting at the current stack
depth, record the path digit of `origin + index` at each level and descend
through branch children until a leaf is reached.  A slice root returns
immediately.  `none` models divergence/stack overflow on a malformed tree
(a nil or slice node below the root makes Go's type switch match nothing
and loop forever). -/
def seekLow {T : Type} : Nat → ListIter T → Option (ListIter T)
  | 0, _ => none
  | fuel + 1, itr =>
      if itr.list.root.isSlice then some itr
      else
        let nd := (itr.stack itr.depth).1
        let newIdx := digit nd.depth (itr.list.origin + itr.index)
        let stack2 := fun k => if k = itr.depth then (nd, newIdx) else itr.stack k
        match nd with
        | .branchNode _ children =>
            seekLow fuel { itr with stack := fun k =>
                                      if k = itr.depth + 1 then (children newIdx, 0) else stack2 k,
                                    depth := itr.depth + 1 }
        | .leafNode _ _ => some { itr with stack := stack2 }
        | _ => none

/-- `Seek` of `list.go`: bounds check (panic as `none`), reset the stack to
the root at depth 0, then run the lowercase `seek`. -/
def seek {T : Type} (itr : ListIter T) (index : Nat) : Option (ListIter T) :=
  if index ≥ itr.list.size then none
  else
    seekLow 33 { itr with index := index,
                          stack := fun k => if k = 0 then (itr.list.root, 0) else itr.stack k,
                          depth := 0 }

/-- `First` of `list.go`: seek index 0 unless the list is empty. -/
def first {T : Type} (itr : ListIter T) : Option (ListIter T) :=
  if itr.list.size ≠ 0 then itr.seek 0 else some itr

/-- The `for ; itr.depth > 0 && itr.stack[itr.depth].index >= listNodeSize-1;
itr.depth--` pop loop of `Next`. -/
def popSat {T : Type} (stack : Nat → ListNode T × Nat) : Nat → Nat
  | 0 => 0
  | d + 1 => if (stack (d + 1)).2 ≥ 31 then popSat stack d else d + 1

/-- `Next` of `list.go`: when done, Go returns `(-1, zero value)` and
leaves the iterator unchanged; a slice root reads the element directly;
otherwise the leaf slot at the top of the stack is read, the index
advances, saturated stack levels are popped and the stack re-seeks the new
index from the surviving depth.  `none` models a Go panic (slice index out
of range, stack slot out of range, or a non-leaf node at the top of the
stack failing the `.(*listLeafNode[T])` assertion). -/
def next {T : Type} [Inhabited T] (itr : ListIter T) : Option (ListIter T × T) :=
  if itr.done then some (itr, default)
  else
    match itr.list.root with
    | .sliceNode elements =>
        match elements[itr.index]? with
        | none => none
        | some v => some ({ itr with index := itr.index + 1 }, v)
    | _ =>
        match itr.stack itr.depth with
        | (.leafNode children _, idx) =>
            if idx ≥ 32 then none
            else
              let v := children idx
              let itr2 := { itr with index := itr.index + 1 }
              if itr2.done then some (itr2, v)
              else
                let d2 := popSat itr2.stack itr2.depth
                (seekLow 33 { itr2 with depth := d2 }).map (fun it => (it, v))
        | _ => none

end ListIter

/-- `List.Iterator()` of `list.go` before `First`: zero-valued stack
(`nil` nodes, index 0), index 0, depth 0. -/
def mkIter {T : Type} (l : GoList T) : ListIter T :=
  { list := l, index := 0, stack := fun _ => (.nilNode, 0), depth := 0 }

/-- The `for !itr.Done() { _, v := itr.Next() … }` collection loop: the
values yielded in order.  Fuel bounds the iteration (each `Next` advances
the index by one, so `size` steps suffice); exhausting it on an unfinished
iterator is `none`. -/
def iterDrain {T : Type} [Inhabited T] : Nat → ListIter T → Option (List T)
  | 0, itr => if itr.done then some [] else none
  | fuel + 1, itr =>
      if itr.done then some []
      else do
        let (itr2, v) ← itr.next
        let rest ← iterDrain fuel itr2
        pure (v :: rest)

/-- `reverseList` of `queue.go`: collect the values front-to-back through
the iterator into a buffer filled from the back (that is, the reverse of
the iteration order) and build a fresh list from it. -/
def reverseListGo {T : Type} [Inhabited T] (l : GoList T) : Option (GoList T) :=
  if l.size = 0 then some (newList [])
  else do
    let itr ← (mkIter l).first
    let vs ← iterDrain l.size itr
    pure (newList vs.reverse)

/-- The `equal(v, value)` scan of `ContainsFunc`'s iterator loop. -/
def containsLoop {T : Type} [Inhabited T] (eq : T → T → Bool) (value : T) :
    Nat → ListIter T → Option Bool
  | 0, itr => if itr.done then some false else none
  | fuel + 1, itr =>
      if itr.done then some false
      else do
        let (itr2, v) ← itr.next
        if eq v value then pure true else containsLoop eq value fuel itr2

/-- `List.ContainsFunc` of `list.go`: an empty list returns `false` at
once; only then is `assert(equal != nil, …)` evaluated (`assert` lives
outside `list.go`; per the spec a failed assertion is a programming error
that terminates the caller, modelled as `none`); then a slice root is
scanned directly and a trie root through the iterator. -/
def containsFuncGo {T : Type} [Inhabited T] (l : GoList T) (value : T)
    (equal : Option (T → T → Bool)) : Option Bool :=
  if l.size = 0 then some false
  else
    match equal with
    | none => none
    | some eq =>
        match l.root with
        | .sliceNode elements => some (elements.any fun x => eq x value)
        | _ => do
            let itr ← (mkIter l).first
            containsLoop eq value l.size itr

/-- The descent path of index `x` through a trie: step `k+1` follows the
child at `x`'s digit for the stored depth of the step-`k` node.  (A
non-branch node is a fixed point; the walk below uses it only up to the
leaf.)  Specification device for the iterator's stack. -/
def pathNode {T : Type} (root : ListNode T) (x : Nat) : Nat → ListNode T
  | 0 => root
  | k + 1 =>
      match pathNode root x k with
      | .branchNode d children => children (digit d x)
      | n => n

/-- A fully seeked iterator for logical index `i`: the stack records the
descent path of `origin + i` with the digit of each level, and the
iterator rests at the leaf depth. -/
def Seeked {T : Type} [Inhabited T] (l : GoList T) (i : Nat) (itr : ListIter T) : Prop :=
  itr.list = l ∧ itr.index = i ∧ itr.depth = l.root.depth ∧
  (∀ k, k ≤ l.root.depth →
    (itr.stack k).1 = pathNode l.root (l.origin + i) k ∧
    (itr.stack k).2 = digit (l.root.depth - k) (l.origin + i))

/-- The stack update of one `seek` step: record the current node and the
digit of the sought address at the current depth. -/
def seekStack2 {T : Type} (itr : ListIter T) : Nat → ListNode T × Nat :=
  fun k => if k = itr.depth
    then ((itr.stack itr.depth).1,
      digit (itr.stack itr.depth).1.depth (itr.list.origin + itr.index))
    else itr.stack k

/-- One branch-descent step of `seek`: push the chosen child with slot 0
and move one level down. -/
def seekDescend {T : Type} (itr : ListIter T) (children : Nat → ListNode T) : ListIter T :=
  { itr with
    stack := fun k => if k = itr.depth + 1
      then (children (digit (itr.stack itr.depth).1.depth (itr.list.origin + itr.index)), 0)
      else seekStack2 itr k,
    depth := itr.depth + 1 }

/-! ### Queue

`queue.go`: the Okasaki two-list queue.  `*Queue` and `*List` pointers may
be nil in Go (`Dequeue` returns a nil next queue, methods accept nil
receivers), so queue references are `Option (GoQueue T)` and the
front/back fields `Option (GoList T)`.  An `Option` result models a Go
panic as elsewhere. -/

structure GoQueue (T : Type) where
  front : Option (GoList T)
  back : Option (GoList T)
  size : Nat

/-- `NewQueue` of `queue.go`. -/
def newQueue {T : Type} [Inhabited T] (values : List T) : GoQueue T :=
  if values.length = 0 then ⟨some (newList []), some (newList []), 0⟩
  else ⟨some (newList values), some (newList []), values.length⟩

/-- `Queue.Len` of `queue.go` (0 for a nil queue). -/
def queueLen {T : Type} (q : Option (GoQueue T)) : Nat :=
  match q with
  | none => 0
  | some q => q.size

/-- The guard `q.front != nil && q.front.Len() > 0` used throughout
`queue.go`. -/
def frontNonempty {T : Type} (q : GoQueue T) : Bool :=
  match q.front with
  | some f => decide (f.size > 0)
  | none => false

/-- The guard `q.back != nil && q.back.Len() > 0` from `queue.go`
(`normalize` tests its negation `q.back == nil || q.back.Len() == 0`). -/
def backNonempty {T : Type} (q : GoQueue T) : Bool :=
  match q.back with
  | some b => decide (b.size > 0)
  | none => false

/-- `Queue.normalize` of `queue.go`: when the queue is non-empty but the
front is, replace the front with the reversed back and clear the back.
The outer `Option` is panic propagation from `reverseList`'s iterator. -/
def qNormalize {T : Type} [Inhabited T] (q : Option (GoQueue T)) :
    Option (Option (GoQueue T)) :=
  match q with
  | none => some none
  | some q =>
      if q.size = 0 then some (some q)
      else if frontNonempty q then some (some q)
      else if !backNonempty q then some (some q)
      else
        match q.back with
        | some b => (reverseListGo b).map fun f => some ⟨some f, some (newList []), q.size⟩
        | none => some (some q)

/-- `Queue.Enqueue` of `queue.go`: a fresh queue for a nil receiver,
otherwise the value is prepended onto `back` (immutably).  `none` models
the nil-dereference panic of `q.back.Prepend` on a nil back list. -/
def qEnqueue {T : Type} [Inhabited T] (q : Option (GoQueue T)) (v : T) :
    Option (GoQueue T) :=
  match q with
  | none => some ⟨some (newList []), some (newList [v]), 1⟩
  | some q =>
      match q.back with
      | some b => some ⟨q.front, some (b.prependGo v false), q.size + 1⟩
      | none => none

/-- `Queue.Dequeue` of `queue.go`: `(nil, zero, false)` on an empty or nil
queue; pop the head of the front when the front is non-empty (then
normalize); otherwise normalize first (reversing the back) and pop.  The
outer `Option` is panic propagation; the inner `Option (GoQueue T)` is the
possibly-nil `next` pointer. -/
def qDequeue {T : Type} [Inhabited T] (q : Option (GoQueue T)) :
    Option (Option (GoQueue T) × T × Bool) :=
  match q with
  | none => some (none, default, false)
  | some q =>
      if q.size = 0 then some (none, default, false)
      else if frontNonempty q then
        match q.front with
        | none => none
        | some f => do
            let v ← f.get 0
            let nf ← f.sliceGo 1 f.size false
            let nq ← qNormalize (some ⟨some nf, q.back, q.size - 1⟩)
            pure (nq, v, true)
      else if backNonempty q then do
        let nrm ← qNormalize (some q)
        match nrm with
        | none => none
        | some nq =>
            match nq.front with
            | none => none
            | some nf => do
                let v ← nf.get 0
                let nf2 ← nf.sliceGo 1 nf.size false
                pure (some ⟨some nf2, nq.back, q.size - 1⟩, v, true)
      else some (none, default, false)

/-! ### Map and the batch map builder

The Map core (`map.go`) is not among the provided sources; only its batch
builder (`BatchMapBuilder.Flush` and friends) is.  The pieces of the Map
that the builder touches are therefore modelled from the spec, each marked
`Modelled from the spec:`; the builder code itself is transcribed from the
source. -/

/-- The `Hasher[K]` interface: `Hash(key) uint32` and `Equal(a, b) bool`. -/
structure HasherF (K : Type) where
  hash : K → Nat
  equal : K → K → Bool

/-- `mapEntry` as used by the builders: a key/value pair. -/
structure MapEntry (K V : Type) where
  key : K
  value : V

/-- Modelled from the spec: `maxArrayMapSize` (missing with `map.go`).
"Array representation holds ≤ 8 entries"; the README likewise gives 8. -/
def maxArrayMapSize : Nat := 8

/-- Modelled from the spec: the Map node shapes (missing with `map.go`).
`mapArrayNode` is the flat ≤ 8-entry vector the builder installs;
all HAMT shapes (value, bitmap-indexed, hash-array, collision) are
abstracted into a single entry-list constructor, which none of the proved
statements exercise. -/
inductive MapNode (K V : Type) where
  | mapArrayNode (entries : List (MapEntry K V))
  | hamtNode (entries : List (MapEntry K V))

/-- Modelled from the spec: the `Map[K, V]` collection value (missing with
`map.go`): root node (nil when empty), size, hasher. -/
structure GoMap (K V : Type) where
  root : Option (MapNode K V)
  size : Nat
  hasher : Option (HasherF K)

/-- Modelled from the spec: `NewMap(hasher)` returns an empty map carrying
the given hasher (missing with `map.go`). -/
def newMap {K V : Type} (hasher : Option (HasherF K)) : GoMap K V :=
  { root := none, size := 0, hasher := hasher }

/-- Modelled from the spec: `NewHasher(key)` picks the built-in hasher for
the key kind (missing with `map.go`).  Its equality is the key type's
equality; its hash is irrelevant to the proved statements. -/
def newHasher {K : Type} [DecidableEq K] (_key : K) : HasherF K :=
  { hash := fun _ => 0, equal := fun a b => decide (a = b) }

/-- The key comparison the builder uses: `b.m.hasher.Equal(a, b)` when a
hasher is set, Go `any(a) == any(b)` (the comparable type's equality)
otherwise. -/
def keyEq {K : Type} [DecidableEq K] (hasher : Option (HasherF K)) (a b : K) : Bool :=
  match hasher with
  | some h => h.equal a b
  | none => decide (a = b)

/-- Modelled from the spec: `Map.Len` (missing with `map.go`). -/
def mapLen {K V : Type} (m : GoMap K V) : Nat := m.size

/-- Modelled from the spec: `Map.Get` (missing with `map.go`).  On an
array node, "`get` linearly scans with hasher equality"; the abstracted
HAMT constructor scans likewise.  Returns the value and the present
flag. -/
def mapGet {K V : Type} [DecidableEq K] (m : GoMap K V) (k : K) : Option V × Bool :=
  match m.root with
  | none => (none, false)
  | some (.mapArrayNode entries) =>
      match entries.find? (fun e => keyEq m.hasher e.key k) with
      | some e => (some e.value, true)
      | none => (none, false)
  | some (.hamtNode entries) =>
      match entries.find? (fun e => keyEq m.hasher e.key k) with
      | some e => (some e.value, true)
      | none => (none, false)

/-- Modelled from the spec: the mutable `Map.set` path (missing with
`map.go`): replace the entry with an equal key, otherwise insert it;
an array node that would exceed `maxArrayMapSize` promotes to the HAMT
(abstracted).  Only the builder's fallback branches, which no proved
statement exercises, call this. -/
def mapSetMut {K V : Type} [DecidableEq K] (m : GoMap K V) (k : K) (v : V) : GoMap K V :=
  let entries :=
    match m.root with
    | none => []
    | some (.mapArrayNode es) => es
    | some (.hamtNode es) => es
  let present := entries.any (fun e => keyEq m.hasher e.key k)
  let entries2 :=
    if present then entries.map (fun e => if keyEq m.hasher e.key k then ⟨e.key, v⟩ else e)
    else entries ++ [⟨k, v⟩]
  let size2 := if present then m.size else m.size + 1
  let root2 :=
    match m.root with
    | some (.hamtNode _) => MapNode.hamtNode entries2
    | _ => if entries2.length ≤ maxArrayMapSize then .mapArrayNode entries2 else .hamtNode entries2
  { m with root := some root2, size := size2 }

/-- `BatchMapBuilder` of the builders source file: the map under
construction, the batch size and the entry buffer. -/
structure BatchMapBuilder (K V : Type) where
  m : GoMap K V
  batchSize : Nat
  buffer : List (MapEntry K V)

/-- `NewBatchMapBuilder(hasher, batchSize)` (non-positive batch sizes
become 32; `Nat` models the non-negative ones). -/
def newBatchMapBuilder {K V : Type} (hasher : Option (HasherF K)) (batchSize : Nat) :
    BatchMapBuilder K V :=
  { m := newMap hasher, batchSize := if batchSize = 0 then 32 else batchSize, buffer := [] }

/-- The tiny-buffer dedup loop of `Flush`'s empty-root fast path: scan the
buffer from the last entry to the first, keep an entry whose key is not in
the accumulator yet (hasher equality, or Go `==` without a hasher), then
reverse the accumulator. -/
def dedupTiny {K V : Type} [DecidableEq K] (hasher : Option (HasherF K))
    (buffer : List (MapEntry K V)) : List (MapEntry K V) :=
  (buffer.reverse.foldl
    (fun dedup e => if dedup.any (fun e2 => keyEq hasher e2.key e.key) then dedup
                    else dedup ++ [e]) []).reverse

/-- The map-based dedup loop of `Flush`'s empty-root fast path (buffers
beyond `maxArrayMapSize`): same backwards scan with a `map[K]struct{}`
seen-set (Go map keys compare with `==`), then reverse. -/
def dedupLarge {K V : Type} [DecidableEq K] (buffer : List (MapEntry K V)) :
    List (MapEntry K V) :=
  ((buffer.reverse.foldl
    (fun (p : List K × List (MapEntry K V)) e =>
      if p.1.contains e.key then p else (e.key :: p.1, p.2 ++ [e])) ([], [])).2).reverse

/-- The `last` staging of `Flush`'s array-root branch, tiny-buffer side:
identical backwards scan with hasher equality plus reverse. -/
def lastStageTiny {K V : Type} [DecidableEq K] (hasher : Option (HasherF K))
    (buffer : List (MapEntry K V)) : List (MapEntry K V) :=
  (buffer.reverse.foldl
    (fun last e => if last.any (fun le => keyEq hasher le.key e.key) then last
                   else last ++ [e]) []).reverse

/-- The `last` staging of `Flush`'s array-root branch, large-buffer side:
a FORWARD scan keeping the first occurrence of each key (Go `seenNew` map,
`==` on keys), with no reversal. -/
def lastStageLarge {K V : Type} [DecidableEq K] (buffer : List (MapEntry K V)) :
    List (MapEntry K V) :=
  (buffer.foldl
    (fun (p : List K × List (MapEntry K V)) e =>
      if p.1.contains e.key then p else (e.key :: p.1, p.2 ++ [e])) ([], [])).2

/-- `BatchMapBuilder.Flush`.  Empty buffer: no-op.  Empty root: dedup the
buffer backwards (last occurrence wins), set a hasher from the first
retained key if none, and install the result as an array node.  Array
root: stage `last`, override matching existing entries, append genuinely
new keys, and keep the array node if the total stays within
`maxArrayMapSize`, else re-apply the buffer via the mutable set path.
Other roots: per-entry mutable set. -/
def bmbFlush {K V : Type} [DecidableEq K] (b : BatchMapBuilder K V) : BatchMapBuilder K V :=
  if b.buffer.length = 0 then b
  else
    match b.m.root with
    | none =>
        let dedup :=
          if b.buffer.length ≤ maxArrayMapSize then dedupTiny b.m.hasher b.buffer
          else dedupLarge b.buffer
        let hasher2 :=
          match b.m.hasher, dedup with
          | none, e :: _ => some (newHasher e.key)
          | h, _ => h
        { b with buffer := [],
                 m := { root := some (.mapArrayNode dedup), size := dedup.length,
                        hasher := hasher2 } }
    | some (.mapArrayNode entries) =>
        let last :=
          if b.buffer.length ≤ maxArrayMapSize then lastStageTiny b.m.hasher b.buffer
          else lastStageLarge b.buffer
        let newEntries := entries.map (fun e =>
          match last.find? (fun le => keyEq b.m.hasher e.key le.key) with
          | some le => MapEntry.mk e.key le.value
          | none => e)
        let toAppend := last.filter (fun le => !(entries.any (fun e => e.key == le.key)))
        let newCount := newEntries.length + toAppend.length
        if newCount ≤ maxArrayMapSize then
          { b with buffer := [],
                   m := { b.m with root := some (.mapArrayNode (newEntries ++ toAppend)),
                                   size := newCount } }
        else
          { b with buffer := [],
                   m := b.buffer.foldl (fun m e => mapSetMut m e.key e.value) b.m }
    | some (.hamtNode _) =>
        { b with buffer := [],
                 m := b.buffer.foldl (fun m e => mapSetMut m e.key e.value) b.m }

/-- `BatchMapBuilder.Set`: push onto the buffer, flush at capacity. -/
def bmbSet {K V : Type} [DecidableEq K] (b : BatchMapBuilder K V) (k : K) (v : V) :
    BatchMapBuilder K V :=
  let b := { b with buffer := b.buffer ++ [⟨k, v⟩] }
  if b.buffer.length ≥ b.batchSize then bmbFlush b else b

/-- Last-write-wins deduplication keeping the retained entries in the
order of their last occurrence: an entry is kept iff its key does not
occur again later in the buffer.  This is the order the empty-root dedup
of `Flush` (a backwards scan followed by a reverse) actually produces. -/
def lastWins {K V : Type} [DecidableEq K] : List (MapEntry K V) → List (MapEntry K V)
  | [] => []
  | e :: rest =>
      if e.key ∈ rest.map MapEntry.key then lastWins rest
      else e :: lastWins rest

/-- The ordering the spec's words claim: the distinct keys in order of
first appearance. -/
def firstSeenKeys {K : Type} [DecidableEq K] (ks : List K) : List K :=
  ks.foldl (fun acc k => if k ∈ acc then acc else acc ++ [k]) []

/-- The state of the backwards dedup scans of `Flush`: keep an entry whose
key was not seen yet, threading the seen-key set. -/
def keepFirsts {K V : Type} [DecidableEq K] (seen : List K) :
    List (MapEntry K V) → List (MapEntry K V)
  | [] => []
  | e :: rest =>
      if e.key ∈ seen then keepFirsts seen rest
      else e :: keepFirsts (e.key :: seen) rest

/-! ### Batch list builder -/

/-- `BatchListBuilder` of the builders source file.  The `list` pointer is
nil after `List()` publishes. -/
structure BatchListBuilder (T : Type) where
  list : Option (GoList T)
  batchSize : Nat
  buffer : List T

/-- `NewBatchListBuilder(batchSize)` (non-positive batch sizes become 32;
`Nat` models the non-negative ones). -/
def newBatchListBuilder (T : Type) [Inhabited T] (batchSize : Nat) : BatchListBuilder T :=
  { list := some (newList []), batchSize := if batchSize = 0 then 32 else batchSize,
    buffer := [] }

/-- `BatchListBuilder.Flush`.  Empty buffer: no-op (before any dereference
of the list pointer; a published builder then panics, `none`).  A
slice-backed list is extended in one allocation of length
`size + len(buffer)` — the old elements are copied first and the buffer
copied over positions `size ≤ j` (as the two overlapping Go `copy` calls
leave it); there is no threshold check.  Otherwise each buffered value is
appended through the mutable trie path. -/
def blbFlush {T : Type} [Inhabited T] (b : BatchListBuilder T) : Option (BatchListBuilder T) :=
  if b.buffer.length = 0 then some b
  else
    match b.list with
    | none => none
    | some l =>
        match l.root with
        | .sliceNode elements =>
            let newLen := l.size + b.buffer.length
            some { b with buffer := [],
                          list := some { l with
                            root := ListNode.sliceNode ((List.range newLen).map fun j =>
                              if l.size ≤ j then b.buffer.getD (j - l.size) default
                              else if j < elements.length then elements.getD j default
                              else default),
                            size := newLen } }
        | _ =>
            some { b with buffer := [],
                          list := some (b.buffer.foldl (fun l v => l.appendGo v true) l) }

/-- `BatchListBuilder.Append`: push onto the buffer, flush at capacity. -/
def blbAppend {T : Type} [Inhabited T] (b : BatchListBuilder T) (v : T) :
    Option (BatchListBuilder T) :=
  let b := { b with buffer := b.buffer ++ [v] }
  if b.buffer.length ≥ b.batchSize then blbFlush b else some b

/-- `BatchListBuilder.AppendSlice`: append each value. -/
def blbAppendSlice {T : Type} [Inhabited T] (b : BatchListBuilder T) (values : List T) :
    Option (BatchListBuilder T) :=
  values.foldlM (fun b v => blbAppend b v) b

/-- `BatchListBuilder.List`: flush, hand the list over (nil afterwards in
the builder). -/
def blbListGo {T : Type} [Inhabited T] (b : BatchListBuilder T) :
    Option (Option (GoList T)) :=
  (blbFlush b).map (·.list)

/-! ### Reachable lists

Lists obtainable through the public immutable `List` API: `NewList`, `Set`,
`Append`, `Prepend`, `Slice` (all with the mutable flag false; `Set` and
`Slice` must not panic to produce a value).  The Boolean records whether
the value's history ever converted a slice root to the trie: `NewList`
starts it at `length > 32` (the constructor then builds a trie directly),
and an `Append`/`Prepend` that hits a slice root at `size ≥ 32` sets
it. -/
inductive ReachH {T : Type} [Inhabited T] : GoList T → Bool → Prop where
  | newR (values : List T) : ReachH (newList values) (decide (values.length > 32))
  | setR {l : GoList T} {c : Bool} {l2 : GoList T} (i : Nat) (v : T) :
      ReachH l c → l.setGo i v false = some l2 → ReachH l2 c
  | appendR {l : GoList T} {c : Bool} (v : T) :
      ReachH l c → ReachH (l.appendGo v false) (c || (l.root.isSlice && decide (l.size ≥ 32)))
  | prependR {l : GoList T} {c : Bool} (v : T) :
      ReachH l c → ReachH (l.prependGo v false) (c || (l.root.isSlice && decide (l.size ≥ 32)))
  | sliceR {l : GoList T} {c : Bool} {l2 : GoList T} (a b : Nat) :
      ReachH l c → l.sliceGo a b false = some l2 → ReachH l2 c

/-! ### Store-based model of `list.go`/`queue.go`

A second transcription of the same source, with the heap explicit, for the
statements about aliasing: nodes and `List` structs live in address-indexed
stores, node children are addresses, and each operation threads the store,
allocating (`allocN`/`allocL`) where Go allocates and writing
(`writeN`/`writeL`) where Go assigns through a pointer.  Go's two-step
"clone the struct, then update the clone's fields" is transcribed as a
single allocation of the final record (the intermediate field writes hit
the fresh clone only).  Recursion over addresses uses fuel (one unit per
tree level); running out models Go's divergence or stack overflow on a
malformed heap and cannot happen on the well-formed stores the theorems
take. -/

/-- Node data in the store: `listSliceNode`, `listLeafNode`, or
`listBranchNode` whose 32 child slots hold addresses (`none` is a nil
pointer). -/
inductive NodeD (T : Type) where
  | sliceD (elements : List T)
  | leafD (children : Nat → T) (occupied : Nat)
  | branchD (d : Nat) (children : Nat → Option Nat)

/-- `depth()` on stored node data. -/
def NodeD.depthD {T : Type} : NodeD T → Nat
  | .branchD d _ => d
  | _ => 0

/-- A `List[T]` struct in the store: root node address, origin, size. -/
structure ListR where
  root : Nat
  origin : Nat
  size : Nat

/-- The heap: all allocated nodes and all allocated `List` structs,
addressed by position. -/
structure Store (T : Type) where
  nodes : List (NodeD T)
  lists : List ListR

/-- Allocate a node at a fresh address. -/
def allocN {T : Type} (st : Store T) (nd : NodeD T) : Store T × Nat :=
  ({ st with nodes := st.nodes ++ [nd] }, st.nodes.length)

/-- Write the node at an existing address. -/
def writeN {T : Type} (st : Store T) (a : Nat) (nd : NodeD T) : Store T :=
  { st with nodes := st.nodes.set a nd }

/-- Allocate a `List` struct at a fresh address. -/
def allocL {T : Type} (st : Store T) (l : ListR) : Store T × Nat :=
  ({ st with lists := st.lists ++ [l] }, st.lists.length)

/-- Write the `List` struct at an existing address. -/
def writeL {T : Type} (st : Store T) (r : Nat) (l : ListR) : Store T :=
  { st with lists := st.lists.set r l }

/-- `get` on stored nodes (read-only).  `none` models a panic (nil child,
dangling address) or divergence (fuel). -/
def nodeGetS {T : Type} : Nat → Store T → Nat → Nat → Option T
  | 0, _, _, _ => none
  | fuel + 1, st, a, index =>
      match st.nodes[a]? with
      | none => none
      | some (.sliceD elements) => elements[index]?
      | some (.leafD children _) => some (children (index % 32))
      | some (.branchD d children) =>
          match children (digit d index) with
          | none => none
          | some c => nodeGetS fuel st c index

/-- `newListNode` in the store: allocate a fresh empty leaf or branch. -/
def newNodeS {T : Type} [Inhabited T] (st : Store T) (depth : Nat) : Store T × Nat :=
  if depth = 0 then allocN st (.leafD (fun _ => default) 0)
  else allocN st (.branchD depth (fun _ => none))

/-- `set` on stored nodes.  Mutable mode writes the node in place (Go
`other = n`); immutable mode allocates the updated copy (Go
`tmp := *n; other = &tmp`, snapshotting the children before the recursive
call, whose result is then assigned into slot `idx`). -/
def nodeSetS {T : Type} [Inhabited T] :
    Nat → Store T → Nat → Nat → T → Bool → Option (Store T × Nat)
  | 0, _, _, _, _, _ => none
  | fuel + 1, st, a, index, v, mutb =>
      match st.nodes[a]? with
      | none => none
      | some (.sliceD elements) =>
          if index ≥ elements.length then none
          else
            let nd := NodeD.sliceD (elements.set index v)
            if mutb then some (writeN st a nd, a) else some (allocN st nd)
      | some (.leafD children occupied) =>
          let nd := NodeD.leafD (fun j => if j = index % 32 then v else children j)
                      (occupied ||| (1 <<< (index % 32)))
          if mutb then some (writeN st a nd, a) else some (allocN st nd)
      | some (.branchD d children) =>
          let idx := digit d index
          let (st1, childAddr) :=
            match children idx with
            | some c => (st, c)
            | none => newNodeS st (d - 1)
          match nodeSetS fuel st1 childAddr index v mutb with
          | none => none
          | some (st2, newChild) =>
              if mutb then
                match st2.nodes[a]? with
                | some (.branchD d2 ch2) =>
                    some (writeN st2 a
                      (.branchD d2 (fun j => if j = idx then some newChild else ch2 j)), a)
                | _ => none
              else
                some (allocN st2
                  (.branchD d (fun j => if j = idx then some newChild else children j)))

/-- `containsBefore` on stored nodes (read-only). -/
def containsBeforeS {T : Type} : Nat → Store T → Nat → Nat → Option Bool
  | 0, _, _, _ => none
  | fuel + 1, st, a, index =>
      match st.nodes[a]? with
      | none => none
      | some (.sliceD _) => some true
      | some (.leafD _ occupied) => some (decide (tz32 occupied < index % 32))
      | some (.branchD d children) =>
          let idx := digit d index
          if (List.range idx).any (fun i => (children i).isSome) then some true
          else
            match children idx with
            | none => some false
            | some c => containsBeforeS fuel st c index

/-- `containsAfter` on stored nodes (read-only). -/
def containsAfterS {T : Type} : Nat → Store T → Nat → Nat → Option Bool
  | 0, _, _, _ => none
  | fuel + 1, st, a, index =>
      match st.nodes[a]? with
      | none => none
      | some (.sliceD _) => some true
      | some (.leafD _ occupied) =>
          some (decide ((31 - (lz32 occupied : Int)) > ((index % 32 : Nat) : Int)))
      | some (.branchD d children) =>
          let idx := digit d index
          if (List.range 32).any (fun i => decide (idx + 1 ≤ i) && (children i).isSome)
          then some true
          else
            match children idx with
            | none => some false
            | some c => containsAfterS fuel st c index

/-- `deleteBefore` on stored nodes: the mutable branch writes the node in
place (clearing slots below the digit, then assigning the recursion's
result into the digit slot); the immutable branch allocates the copy. -/
def deleteBeforeS {T : Type} [Inhabited T] :
    Nat → Store T → Nat → Nat → Bool → Option (Store T × Nat)
  | 0, _, _, _, _ => none
  | fuel + 1, st, a, index, mutb =>
      match containsBeforeS (fuel + 1) st a index with
      | none => none
      | some false => some (st, a)
      | some true =>
          match st.nodes[a]? with
          | none => none
          | some (.sliceD _) => some (st, a)
          | some (.leafD children occupied) =>
              let idx := index % 32
              let occ2 := occupied &&& ((2 ^ 32 - 1) ^^^ ((1 <<< idx) - 1))
              if mutb then
                some (writeN st a
                  (.leafD (fun j => if j < idx then default else children j) occ2), a)
              else
                some (allocN st
                  (.leafD (fun j => if idx ≤ j ∧ j < 32 then children j else default) occ2))
          | some (.branchD d children) =>
              let idx := digit d index
              match children idx with
              | none =>
                  if mutb then
                    some (writeN st a
                      (.branchD d (fun j => if j < idx then none else children j)), a)
                  else
                    some (allocN st
                      (.branchD d (fun j => if idx ≤ j ∧ j < 32 then children j else none)))
              | some c =>
                  if mutb then
                    let st1 := writeN st a
                      (.branchD d (fun j => if j < idx then none else children j))
                    match deleteBeforeS fuel st1 c index mutb with
                    | none => none
                    | some (st2, nc) =>
                        match st2.nodes[a]? with
                        | some (.branchD d2 ch2) =>
                            some (writeN st2 a
                              (.branchD d2 (fun j => if j = idx then some nc else ch2 j)), a)
                        | _ => none
                  else
                    match deleteBeforeS fuel st c index mutb with
                    | none => none
                    | some (st2, nc) =>
                        some (allocN st2 (.branchD d (fun j =>
                          if j = idx then some nc
                          else if idx ≤ j ∧ j < 32 then children j else none)))

/-- `deleteAfter` on stored nodes (mirror image of `deleteBeforeS`). -/
def deleteAfterS {T : Type} [Inhabited T] :
    Nat → Store T → Nat → Nat → Bool → Option (Store T × Nat)
  | 0, _, _, _, _ => none
  | fuel + 1, st, a, index, mutb =>
      match containsAfterS (fuel + 1) st a index with
      | none => none
      | some false => some (st, a)
      | some true =>
          match st.nodes[a]? with
          | none => none
          | some (.sliceD _) => some (st, a)
          | some (.leafD children occupied) =>
              let idx := index % 32
              let occ2 := occupied &&& ((1 <<< (idx + 1)) - 1)
              if mutb then
                some (writeN st a
                  (.leafD (fun j => if idx + 1 ≤ j ∧ j < 32 then default else children j) occ2),
                  a)
              else
                some (allocN st
                  (.leafD (fun j => if j ≤ idx then children j else default) occ2))
          | some (.branchD d children) =>
              let idx := digit d index
              match children idx with
              | none =>
                  if mutb then
                    some (writeN st a
                      (.branchD d (fun j => if idx + 1 ≤ j ∧ j < 32 then none else children j)),
                      a)
                  else
                    some (allocN st
                      (.branchD d (fun j => if j ≤ idx then children j else none)))
              | some c =>
                  if mutb then
                    let st1 := writeN st a
                      (.branchD d (fun j => if idx + 1 ≤ j ∧ j < 32 then none else children j))
                    match deleteAfterS fuel st1 c index mutb with
                    | none => none
                    | some (st2, nc) =>
                        match st2.nodes[a]? with
                        | some (.branchD d2 ch2) =>
                            some (writeN st2 a
                              (.branchD d2 (fun j => if j = idx then some nc else ch2 j)), a)
                        | _ => none
                  else
                    match deleteAfterS fuel st c index mutb with
                    | none => none
                    | some (st2, nc) =>
                        some (allocN st2 (.branchD d (fun j =>
                          if j = idx then some nc
                          else if j ≤ idx then children j else none)))

/-- Allocate a list of nodes in order, returning their addresses. -/
def allocAll {T : Type} (st : Store T) (nds : List (NodeD T)) : Store T × List Nat :=
  nds.foldl (fun (p : Store T × List Nat) nd =>
    let (st2, a) := allocN p.1 nd
    (st2, p.2 ++ [a])) (st, [])

theorem allocAll_snd_length {T : Type} (nds : List (NodeD T)) (st : Store T) :
    (allocAll st nds).2.length = nds.length := by
  suffices h : ∀ (st : Store T) (acc : List Nat),
      (nds.foldl (fun (p : Store T × List Nat) nd =>
        let (st2, a) := allocN p.1 nd
        (st2, p.2 ++ [a])) (st, acc)).2.length = acc.length + nds.length by
    simpa [allocAll] using h st []
  induction nds with
  | nil => intro st acc; simp
  | cons x xs ih =>
      intro st acc
      simp only [List.foldl_cons]
      rw [ih]
      simp
      omega

/-- The layer loop of `toTrie` in the store: allocate branch nodes of
fan-out 32 over the previous layer's addresses until one remains. -/
def buildLayersS {T : Type} (st : Store T) (nodes : List Nat) (depth : Nat) : Store T × Nat :=
  if h : nodes.length ≤ 1 then (st, nodes.headD 0)
  else
    let ps := allocAll st ((chunks32 nodes).map fun chunk =>
      NodeD.branchD depth (fun j => if j < chunk.length then some (chunk.getD j 0) else none))
    buildLayersS ps.1 ps.2 (depth + 1)
termination_by nodes.length
decreasing_by
  simp only [not_le] at h
  rw [allocAll_snd_length, List.length_map, chunks32_length,
    Nat.div_lt_iff_lt_mul (by omega)]
  omega

/-- `toTrie` in the store: allocate the 32-chunk leaves, then the branch
layers. -/
def sliceToTrieS {T : Type} [Inhabited T] (st : Store T) (elements : List T) :
    Store T × Nat :=
  if elements.length = 0 then allocN st (.leafD (fun _ => default) 0)
  else
    let leafData := (chunks32 elements).map fun chunk =>
      NodeD.leafD (fun j => chunk.getD j default) (2 ^ chunk.length - 1)
    let (st1, leaves) := allocAll st leafData
    buildLayersS st1 leaves 1

/-- `List.Get` in the store (read-only). -/
def listGetS {T : Type} (st : Store T) (lref : Nat) (index : Nat) : Option T :=
  match st.lists[lref]? with
  | none => none
  | some l =>
      if index ≥ l.size then none
      else
        match st.nodes[l.root]? with
        | none => none
        | some (.sliceD elements) => elements[index]?
        | some nd => nodeGetS (nd.depthD + 1) st l.root (l.origin + index)

/-- `List.set` in the store: panic check, node set at the slice index or at
`origin + index`, then either write the struct in place (mutable) or
allocate the clone. -/
def listSetS {T : Type} [Inhabited T] (st : Store T) (lref : Nat) (index : Nat) (v : T)
    (mutb : Bool) : Option (Store T × Nat) :=
  match st.lists[lref]? with
  | none => none
  | some l =>
      if index ≥ l.size then none
      else
        match st.nodes[l.root]? with
        | none => none
        | some nd =>
            let target := match nd with
              | .sliceD _ => index
              | _ => l.origin + index
            match nodeSetS (nd.depthD + 1) st l.root target v mutb with
            | none => none
            | some (st2, newRoot) =>
                if mutb then some (writeL st2 lref { l with root := newRoot }, lref)
                else some (allocL st2 { l with root := newRoot })

/-- The trie branch of `List.append` in the store, operating on the struct
at `lref`: expand when `origin + size ≥ cap()` (allocating the new top
branch), set slot `origin + size`, and write back (mutable) or clone
(immutable). -/
def listAppendTrieS {T : Type} [Inhabited T] (st : Store T) (lref : Nat) (v : T)
    (mutb : Bool) : Option (Store T × Nat) :=
  match st.lists[lref]? with
  | none => none
  | some l =>
      match st.nodes[l.root]? with
      | none => none
      | some nd =>
          let expand := l.size + l.origin ≥ 32 ^ nd.depthD
          let (st1, root1) :=
            if expand then
              allocN st (.branchD (nd.depthD + 1) (fun j => if j = 0 then some l.root else none))
            else (st, l.root)
          let d1 := if expand then nd.depthD + 1 else nd.depthD
          match nodeSetS (d1 + 1) st1 root1 (l.origin + l.size) v mutb with
          | none => none
          | some (st2, newRoot) =>
              let final : ListR := { root := newRoot, origin := l.origin, size := l.size + 1 }
              if mutb then some (writeL st2 lref final, lref)
              else some (allocL st2 final)

/-- `List.append` in the store: slice roots below the threshold get a fresh
buffer (and the struct written or cloned); at the threshold the elements
are converted by `toTrie` into fresh nodes, a fresh temp struct is
allocated, and the trie append runs on it; trie roots run the trie append
directly. -/
def listAppendS {T : Type} [Inhabited T] (st : Store T) (lref : Nat) (v : T) (mutb : Bool) :
    Option (Store T × Nat) :=
  match st.lists[lref]? with
  | none => none
  | some l =>
      match st.nodes[l.root]? with
      | none => none
      | some (.sliceD elements) =>
          if l.size < listSliceThreshold then
            let newElements := (List.range (l.size + 1)).map fun j =>
              if j = l.size then v else elements.getD j default
            let (st1, newRoot) := allocN st (.sliceD newElements)
            let final : ListR := { l with root := newRoot, size := l.size + 1 }
            if mutb then some (writeL st1 lref final, lref)
            else some (allocL st1 final)
          else
            let (st1, trieRoot) := sliceToTrieS st elements
            let (st2, tmpRef) := allocL st1 { root := trieRoot, origin := 0, size := l.size }
            listAppendTrieS st2 tmpRef v mutb
      | some _ => listAppendTrieS st lref v mutb

/-- The trie branch of `List.prepend` in the store. -/
def listPrependTrieS {T : Type} [Inhabited T] (st : Store T) (lref : Nat) (v : T)
    (mutb : Bool) : Option (Store T × Nat) :=
  match st.lists[lref]? with
  | none => none
  | some l =>
      match st.nodes[l.root]? with
      | none => none
      | some nd =>
          let expand := l.origin = 0
          let (st1, root1) :=
            if expand then
              allocN st (.branchD (nd.depthD + 1) (fun j => if j = 31 then some l.root else none))
            else (st, l.root)
          let d1 := if expand then nd.depthD + 1 else nd.depthD
          let origin1 := if expand then l.origin + 31 * 32 ^ (nd.depthD + 1) else l.origin
          match nodeSetS (d1 + 1) st1 root1 (origin1 - 1) v mutb with
          | none => none
          | some (st2, newRoot) =>
              let final : ListR := { root := newRoot, origin := origin1 - 1, size := l.size + 1 }
              if mutb then some (writeL st2 lref final, lref)
              else some (allocL st2 final)

/-- `List.prepend` in the store. -/
def listPrependS {T : Type} [Inhabited T] (st : Store T) (lref : Nat) (v : T) (mutb : Bool) :
    Option (Store T × Nat) :=
  match st.lists[lref]? with
  | none => none
  | some l =>
      match st.nodes[l.root]? with
      | none => none
      | some (.sliceD elements) =>
          if l.size < listSliceThreshold then
            let newElements := (List.range (l.size + 1)).map fun j =>
              if j = 0 then v else elements.getD (j - 1) default
            let (st1, newRoot) := allocN st (.sliceD newElements)
            let final : ListR := { l with root := newRoot, size := l.size + 1 }
            if mutb then some (writeL st1 lref final, lref)
            else some (allocL st1 final)
          else
            let (st1, trieRoot) := sliceToTrieS st elements
            let (st2, tmpRef) := allocL st1 { root := trieRoot, origin := 0, size := l.size }
            listPrependTrieS st2 tmpRef v mutb
      | some _ => listPrependTrieS st lref v mutb

/-- The contraction loop of `List.slice` in the store (read-only): returns
the contracted root address and origin.  A nil child selected for
contraction is Go's nil-dereference panic on the next loop test. -/
def contractS {T : Type} : Nat → Store T → Nat → Nat → Nat → Option (Nat × Nat)
  | 0, _, _, _, _ => none
  | fuel + 1, st, a, origin, size =>
      match st.nodes[a]? with
      | none => none
      | some (.branchD d children) =>
          if d > 1 then
            let i := digit d origin
            let j := if origin + size = 0 then 31 else digit d (origin + size - 1)
            if i = j then
              match children i with
              | none => none
              | some c => contractS fuel st c (origin - i * 32 ^ d) size
            else some (a, origin)
          else some (a, origin)
      | some _ => some (a, origin)

/-- `List.slice` in the store: bounds checks, the whole-range identity
shortcut (returning the same struct address with the store untouched), the
slice-node copy path, and the trie path (contract, `deleteBefore`,
`deleteAfter`, then write back or clone the struct). -/
def listSliceS {T : Type} [Inhabited T] (st : Store T) (lref : Nat) (start finish : Nat)
    (mutb : Bool) : Option (Store T × Nat) :=
  match st.lists[lref]? with
  | none => none
  | some l =>
      if start > l.size then none
      else if finish > l.size then none
      else if start > finish then none
      else if start = 0 ∧ finish = l.size then some (st, lref)
      else
        match st.nodes[l.root]? with
        | none => none
        | some (.sliceD elements) =>
            let (st1, newRoot) := allocN st (.sliceD ((List.range (finish - start)).map
              fun j => elements.getD (start + j) default))
            some (allocL st1 { root := newRoot, origin := 0, size := finish - start })
        | some nd =>
            let o1 := l.origin + start
            let s1 := finish - start
            match contractS (nd.depthD + 1) st l.root o1 s1 with
            | none => none
            | some (r2, o2) =>
                match st.nodes[r2]? with
                | none => none
                | some nd2 =>
                    match deleteBeforeS (nd2.depthD + 1) st r2 o2 mutb with
                    | none => none
                    | some (st3, r3) =>
                        let after :=
                          if o2 + s1 = 0 then some (st3, r3)
                          else deleteAfterS (nd2.depthD + 1) st3 r3 (o2 + s1 - 1) mutb
                        match after with
                        | none => none
                        | some (st4, r4) =>
                            let final : ListR := { root := r4, origin := o2, size := s1 }
                            if mutb then some (writeL st4 lref final, lref)
                            else some (allocL st4 final)

/-- `NewList` in the store: a slice node for at most 32 values; otherwise a
fresh empty leaf-rooted struct grown by mutable appends (all writes hit the
freshly allocated struct and nodes only). -/
def newListS {T : Type} [Inhabited T] (st : Store T) (values : List T) :
    Option (Store T × Nat) :=
  if values.length > listSliceThreshold then
    let (st1, rootA) := allocN st (.leafD (fun _ => default) 0)
    let (st2, lref) := allocL st1 { root := rootA, origin := 0, size := 0 }
    values.foldlM (fun (p : Store T × Nat) v => listAppendS p.1 p.2 v true) (st2, lref)
  else
    let (st1, rootA) := allocN st (.sliceD values)
    some (allocL st1 { root := rootA, origin := 0, size := values.length })

/-- The list iterator in the store (read-only): list struct address,
index, stack of (node address, child index), depth.  A `none` node address
in the stack is Go's nil interface. -/
structure IterS where
  lref : Nat
  index : Nat
  stack : Nat → Option Nat × Nat
  depth : Nat

/-- `Done` in the store. -/
def iterDoneS {T : Type} (st : Store T) (it : IterS) : Bool :=
  match st.lists[it.lref]? with
  | none => true
  | some l => it.index ≥ l.size

/-- The lowercase `seek` loop in the store (read-only). -/
def seekLowS {T : Type} : Nat → Store T → IterS → Option IterS
  | 0, _, _ => none
  | fuel + 1, st, it =>
      match st.lists[it.lref]? with
      | none => none
      | some l =>
          match st.nodes[l.root]? with
          | none => none
          | some (.sliceD _) => some it
          | some _ =>
              match (it.stack it.depth).1 with
              | none => none
              | some na =>
                  match st.nodes[na]? with
                  | none => none
                  | some nd =>
                      let newIdx := digit nd.depthD (l.origin + it.index)
                      let stack2 := fun k =>
                        if k = it.depth then (some na, newIdx) else it.stack k
                      match nd with
                      | .branchD _ children =>
                          seekLowS fuel st { it with
                            stack := fun k => if k = it.depth + 1 then (children newIdx, 0)
                                              else stack2 k,
                            depth := it.depth + 1 }
                      | .leafD _ _ => some { it with stack := stack2 }
                      | _ => none

/-- `Seek` in the store. -/
def seekS {T : Type} (st : Store T) (it : IterS) (index : Nat) : Option IterS :=
  match st.lists[it.lref]? with
  | none => none
  | some l =>
      if index ≥ l.size then none
      else
        seekLowS 33 st { it with index := index,
                                 stack := fun k => if k = 0 then (some l.root, 0) else it.stack k,
                                 depth := 0 }

/-- `First` in the store. -/
def iterFirstS {T : Type} (st : Store T) (it : IterS) : Option IterS :=
  match st.lists[it.lref]? with
  | none => none
  | some l => if l.size ≠ 0 then seekS st it 0 else some it

/-- The saturated-level pop loop of `Next` in the store. -/
def popSatS (stack : Nat → Option Nat × Nat) : Nat → Nat
  | 0 => 0
  | d + 1 => if (stack (d + 1)).2 ≥ 31 then popSatS stack d else d + 1

/-- `Next` in the store (read-only; the iterator value is returned, the
store is untouched). -/
def nextS {T : Type} [Inhabited T] (st : Store T) (it : IterS) : Option (IterS × T) :=
  if iterDoneS st it then some (it, default)
  else
    match st.lists[it.lref]? with
    | none => none
    | some l =>
        match st.nodes[l.root]? with
        | none => none
        | some (.sliceD elements) =>
            match elements[it.index]? with
            | none => none
            | some v => some ({ it with index := it.index + 1 }, v)
        | some _ =>
            match (it.stack it.depth).1 with
            | none => none
            | some na =>
                match st.nodes[na]? with
                | some (.leafD children _) =>
                    let idx := (it.stack it.depth).2
                    if idx ≥ 32 then none
                    else
                      let v := children idx
                      let it2 := { it with index := it.index + 1 }
                      if iterDoneS st it2 then some (it2, v)
                      else
                        let d2 := popSatS it2.stack it2.depth
                        (seekLowS 33 st { it2 with depth := d2 }).map (fun x => (x, v))
                | _ => none

/-- The iterator collection loop in the store (read-only). -/
def iterDrainS {T : Type} [Inhabited T] : Nat → Store T → IterS → Option (List T)
  | 0, st, it => if iterDoneS st it then some [] else none
  | fuel + 1, st, it =>
      if iterDoneS st it then some []
      else
        match nextS st it with
        | none => none
        | some (it2, v) =>
            match iterDrainS fuel st it2 with
            | none => none
            | some rest => some (v :: rest)

/-- `reverseList` in the store: read the values through the iterator, then
build a fresh list from their reverse. -/
def reverseListS {T : Type} [Inhabited T] (st : Store T) (lref : Nat) :
    Option (Store T × Nat) :=
  match st.lists[lref]? with
  | none => none
  | some l =>
      if l.size = 0 then newListS st []
      else
        match iterFirstS st { lref := lref, index := 0, stack := fun _ => (none, 0), depth := 0 } with
        | none => none
        | some it =>
            match iterDrainS l.size st it with
            | none => none
            | some vs => newListS st vs.reverse

/-- A `Queue[T]` struct: front and back `*List` (addresses, nil possible)
and the size.  Queue structs are never mutated by the source (every
operation builds a new one), so they are plain values here; a nil `*Queue`
is `none` one level up. -/
structure QueueR where
  front : Option Nat
  back : Option Nat
  size : Nat

/-- The `q.front != nil && q.front.Len() > 0` guard in the store. -/
def frontNonemptyS {T : Type} (st : Store T) (q : QueueR) : Bool :=
  match q.front with
  | none => false
  | some f =>
      match st.lists[f]? with
      | none => false
      | some l => decide (l.size > 0)

/-- The `q.back != nil && q.back.Len() > 0` guard in the store.  (Go
`List.Len` on a nil pointer would panic; the guards test the pointer
first.  A dangling address stands for no list at all and reads as 0.) -/
def backNonemptyS {T : Type} (st : Store T) (q : QueueR) : Bool :=
  match q.back with
  | none => false
  | some b =>
      match st.lists[b]? with
      | none => false
      | some l => decide (l.size > 0)

/-- `Queue.normalize` in the store. -/
def qNormalizeS {T : Type} [Inhabited T] (st : Store T) (q : Option QueueR) :
    Option (Store T × Option QueueR) :=
  match q with
  | none => some (st, none)
  | some q =>
      if q.size = 0 then some (st, some q)
      else if frontNonemptyS st q then some (st, some q)
      else if !backNonemptyS st q then some (st, some q)
      else
        match q.back with
        | some b =>
            match reverseListS st b with
            | none => none
            | some (st1, f) =>
                match newListS st1 [] with
                | none => none
                | some (st2, nb) => some (st2, some ⟨some f, some nb, q.size⟩)
        | none => some (st, some q)

/-- `Queue.Enqueue` in the store: always immutable (`Prepend` on the back
list). -/
def qEnqueueS {T : Type} [Inhabited T] (st : Store T) (q : Option QueueR) (v : T) :
    Option (Store T × QueueR) :=
  match q with
  | none =>
      match newListS st [] with
      | none => none
      | some (st1, f) =>
          match newListS st1 [v] with
          | none => none
          | some (st2, b) => some (st2, ⟨some f, some b, 1⟩)
  | some q =>
      match q.back with
      | none => none
      | some b =>
          match listPrependS st b v false with
          | none => none
          | some (st1, nb) => some (st1, ⟨q.front, some nb, q.size + 1⟩)

/-- `Queue.Dequeue` in the store. -/
def qDequeueS {T : Type} [Inhabited T] (st : Store T) (q : Option QueueR) :
    Option (Store T × Option QueueR × T × Bool) :=
  match q with
  | none => some (st, none, default, false)
  | some q =>
      if q.size = 0 then some (st, none, default, false)
      else if frontNonemptyS st q then
        match q.front with
        | none => none
        | some f =>
            match listGetS st f 0 with
            | none => none
            | some v =>
                match st.lists[f]? with
                | none => none
                | some fl =>
                    match listSliceS st f 1 fl.size false with
                    | none => none
                    | some (st1, nf) =>
                        match qNormalizeS st1 (some ⟨some nf, q.back, q.size - 1⟩) with
                        | none => none
                        | some (st2, nq) => some (st2, nq, v, true)
      else if backNonemptyS st q then
        match qNormalizeS st (some q) with
        | none => none
        | some (st1, nrm) =>
            match nrm with
            | none => none
            | some nq =>
                match nq.front with
                | none => none
                | some nf =>
                    match listGetS st1 nf 0 with
                    | none => none
                    | some v =>
                        match st1.lists[nf]? with
                        | none => none
                        | some nfl =>
                            match listSliceS st1 nf 1 nfl.size false with
                            | none => none
                            | some (st2, nf2) =>
                                some (st2, some ⟨some nf2, nq.back, q.size - 1⟩, v, true)
      else some (st, none, default, false)

/-! ### Store well-formedness, extension, observations -/

/-- Every child address stored in a node points into the store. -/
def nodeInRange {T : Type} (len : Nat) : NodeD T → Bool
  | .branchD _ children =>
      (List.range 32).all fun i =>
        match children i with
        | some c => decide (c < len)
        | none => true
  | _ => true

/-- A closed store: all node children and all struct roots are in range.
Published collections live in closed stores (every pointer they hold was
produced by an allocation). -/
def ClosedS {T : Type} (st : Store T) : Prop :=
  (∀ a, a < st.nodes.length →
    nodeInRange st.nodes.length (st.nodes.getD a (.sliceD [])) = true) ∧
  (∀ r, r < st.lists.length → (st.lists.getD r ⟨0, 0, 0⟩).root < st.nodes.length)

/-- Store extension: every existing node and struct cell is unchanged (new
cells may have been allocated after them).  An operation whose result
store extends its input store has written through no pointer that existed
before it ran — in particular through none reachable from any previously
published collection. -/
def ExtendsS {T : Type} (st st2 : Store T) : Prop :=
  st.nodes.length ≤ st2.nodes.length ∧
  (∀ a, a < st.nodes.length → st2.nodes[a]? = st.nodes[a]?) ∧
  st.lists.length ≤ st2.lists.length ∧
  (∀ r, r < st.lists.length → st2.lists[r]? = st.lists[r]?)

/-- The public observations of a list: its length and the value at every
index (`none` beyond the length). -/
def listObs {T : Type} (st : Store T) (lref : Nat) : Nat × List (Option T) :=
  match st.lists[lref]? with
  | none => (0, [])
  | some l => (l.size, (List.range l.size).map fun i => listGetS st lref i)

/-- The value sequence of one side of a queue (empty for a nil pointer). -/
def sideObs {T : Type} (st : Store T) (side : Option Nat) : List (Option T) :=
  match side with
  | none => []
  | some lref => (listObs st lref).2

/-- The public observations of a queue: its length and its dequeue order —
the front list front-to-back followed by the back list back-to-front,
which is the sequence `Dequeue` pops and the queue iterator visits. -/
def queueObs {T : Type} (st : Store T) (q : Option QueueR) : Nat × List (Option T) :=
  match q with
  | none => (0, [])
  | some q => (q.size, sideObs st q.front ++ (sideObs st q.back).reverse)

/-! ## Arithmetic facts about base-32 digits -/

theorem pow32_pos (d : Nat) : 0 < 32 ^ d := Nat.pos_pow_of_pos d (by omega)

theorem digit_lt (d i : Nat) : digit d i < 32 := Nat.mod_lt _ (by omega)

theorem mod_pow_mod (d i : Nat) : i % 32 ^ (d + 1) % 32 ^ d = i % 32 ^ d :=
  Nat.mod_mod_of_dvd i (pow_dvd_pow 32 (by omega))

theorem mod_decomp (d i : Nat) : i % 32 ^ (d + 1) = i % 32 ^ d + 32 ^ d * digit d i := by
  rw [pow_succ, Nat.mod_mul]
  rfl

theorem digit_mod_pow (d i : Nat) : digit d (i % 32 ^ (d + 1)) = digit d i := by
  unfold digit
  rw [pow_succ, Nat.mod_mul_right_div_self]
  omega

theorem digit_eq_div {d i : Nat} (h : i < 32 ^ (d + 1)) : digit d i = i / 32 ^ d := by
  unfold digit
  rw [Nat.mod_eq_of_lt]
  rw [Nat.div_lt_iff_lt_mul (pow32_pos d)]
  calc i < 32 ^ (d + 1) := h
    _ ≤ 32 * 32 ^ d := by rw [pow_succ]; omega

/-! ## Well-formed trie nodes

`WFd d n`: `n` is a valid subtree expected at depth `d` — nil, a leaf at
depth 0, or a branch node whose stored depth is the expected one with
every child valid at the next depth down.  Slice nodes never occur inside
tries. -/

inductive WFd {T : Type} : Nat → ListNode T → Prop where
  | nilW (d : Nat) : WFd d .nilNode
  | leafW (children : Nat → T) (occupied : Nat) : WFd 0 (.leafNode children occupied)
  | branchW (d : Nat) (children : Nat → ListNode T) (hd : 1 ≤ d)
      (hch : ∀ i, i < 32 → WFd (d - 1) (children i)) : WFd d (.branchNode d children)

theorem WFd.depth_eq {T : Type} {d : Nat} {n : ListNode T} (h : WFd d n)
    (hn : n.isNil = false) : n.depth = d := by
  cases h with
  | nilW => simp [ListNode.isNil] at hn
  | leafW => rfl
  | branchW => rfl

theorem WFd.not_slice {T : Type} {d : Nat} {n : ListNode T} (h : WFd d n) :
    n.isSlice = false := by
  cases h <;> rfl

/-- `get` at a well-formed node of depth `d` depends only on the index
modulo `32 ^ (d+1)`: every digit the walk reads is below that bound. -/
theorem get_mod {T : Type} {d : Nat} {n : ListNode T} (h : WFd d n) (i : Nat) :
    n.get i = n.get (i % 32 ^ (d + 1)) := by
  induction h generalizing i with
  | nilW => rfl
  | leafW children occupied => simp [ListNode.get, mod_pow_mod 0 i]
  | branchW d children hd hch ih =>
      show (children (digit d i)).get i = (children (digit d (i % 32 ^ (d + 1)))).get _
      rw [digit_mod_pow]
      have hlt := digit_lt d i
      have h1 := ih (digit d i) hlt i
      have h2 := ih (digit d i) hlt (i % 32 ^ (d + 1))
      have hd1 : d - 1 + 1 = d := by omega
      rw [hd1] at h1 h2
      rw [h1, h2, mod_pow_mod]

theorem setFresh_wf {T : Type} [Inhabited T] (d i : Nat) (v : T) (mb : Bool) :
    WFd d (ListNode.setFresh d i v mb) := by
  induction d with
  | zero => exact WFd.leafW _ _
  | succ d ih =>
      refine WFd.branchW _ _ (by omega) fun j hj => ?_
      by_cases hje : j = digit (d + 1) i
      · simp only [ListNode.setFresh, hje, if_pos]
        simpa using ih
      · simp only [ListNode.setFresh, hje, if_neg, if_false]
        exact WFd.nilW _

theorem setFresh_get_same {T : Type} [Inhabited T] (d i : Nat) (v : T) (mb : Bool) :
    (ListNode.setFresh d i v mb).get i = some v := by
  induction d with
  | zero => simp [ListNode.setFresh, ListNode.leafSet, ListNode.get]
  | succ d ih => simp [ListNode.setFresh, ListNode.get, ih]

theorem setGo_wf {T : Type} [Inhabited T] {d : Nat} {n : ListNode T} (h : WFd d n)
    (i : Nat) (v : T) (mb : Bool) : WFd d (n.setGo i v mb) := by
  induction h generalizing i with
  | nilW => exact WFd.nilW _
  | leafW children occupied => exact WFd.leafW _ _
  | branchW d children hd hch ih =>
      refine WFd.branchW _ _ hd fun j hj => ?_
      show WFd (d - 1) (if j = digit d i then _ else children j)
      by_cases hje : j = digit d i
      · rw [if_pos hje]
        by_cases hnil : (children (digit d i)).isNil
        · rw [if_pos hnil]
          exact setFresh_wf _ _ _ _
        · rw [if_neg hnil]
          exact ih (digit d i) (digit_lt d i) i
      · rw [if_neg hje]
        exact hch j hj

theorem setGo_get_same {T : Type} [Inhabited T] {d : Nat} {n : ListNode T} (h : WFd d n)
    (hn : n.isNil = false) (i : Nat) (v : T) (mb : Bool) :
    (n.setGo i v mb).get i = some v := by
  induction h generalizing i with
  | nilW => simp [ListNode.isNil] at hn
  | leafW children occupied => simp [ListNode.setGo, ListNode.leafSet, ListNode.get]
  | branchW d children hd hch ih =>
      show (if digit d i = digit d i then _ else children (digit d i)).get i = some v
      rw [if_pos rfl]
      by_cases hnil : (children (digit d i)).isNil
      · rw [if_pos hnil]
        exact setFresh_get_same _ _ _ _
      · rw [if_neg hnil]
        exact ih (digit d i) (digit_lt d i) (by simpa using hnil) i

theorem setGo_get_other {T : Type} [Inhabited T] {d : Nat} {n : ListNode T} (h : WFd d n)
    {i i2 : Nat} (hne : i % 32 ^ (d + 1) ≠ i2 % 32 ^ (d + 1))
    (hsome : (n.get i2).isSome) (v : T) (mb : Bool) :
    (n.setGo i v mb).get i2 = n.get i2 := by
  induction h generalizing i i2 with
  | nilW => simp [ListNode.get] at hsome
  | leafW children occupied =>
      have : i % 32 ≠ i2 % 32 := by simpa using hne
      simp only [ListNode.setGo, ListNode.leafSet, ListNode.get]
      rw [if_neg]
      omega
  | branchW d children hd hch ih =>
      show (if digit d i2 = digit d i then _ else children (digit d i2)).get i2
        = (children (digit d i2)).get i2
      by_cases hde : digit d i2 = digit d i
      · rw [if_pos hde]
        have hsome2 : ((children (digit d i2)).get i2).isSome := hsome
        rw [hde] at hsome2
        have hnil : (children (digit d i)).isNil = false := by
          cases hcn : children (digit d i) with
          | nilNode => rw [hcn] at hsome2; simp [ListNode.get] at hsome2
          | sliceNode es => rfl
          | leafNode ch occ => rfl
          | branchNode dd ch => rfl
        rw [hnil]
        simp only [Bool.false_eq_true, if_false]
        have hlow : i % 32 ^ d ≠ i2 % 32 ^ d := by
          intro hcon
          apply hne
          rw [mod_decomp d i, mod_decomp d i2, hcon, hde]
        have hd1 : d - 1 + 1 = d := by omega
        rw [hde]
        exact ih (digit d i) (digit_lt d i) (by rw [hd1]; exact hlow) hsome2
      · rw [if_neg hde]

theorem setGo_depth {T : Type} [Inhabited T] (n : ListNode T) (i : Nat) (v : T) (mb : Bool) :
    (n.setGo i v mb).depth = n.depth := by
  cases n <;> rfl

theorem setGo_isNil {T : Type} [Inhabited T] (n : ListNode T) (i : Nat) (v : T) (mb : Bool) :
    (n.setGo i v mb).isNil = n.isNil := by
  cases n <;> rfl

theorem setGo_isSlice {T : Type} [Inhabited T] (n : ListNode T) (i : Nat) (v : T) (mb : Bool) :
    (n.setGo i v mb).isSlice = n.isSlice := by
  cases n <;> rfl

/-! ## Well-formed lists -/

/-- A well-formed trie-rooted list window: the root tree is well-formed and
non-nil, the window fits under the tree's addressable range
`32 ^ (depth + 1)`, and every index inside the window reads a value
(no panic). -/
def trieWF {T : Type} (root : ListNode T) (origin size : Nat) : Prop :=
  WFd root.depth root ∧ root.isNil = false ∧
  origin + size ≤ 32 ^ (root.depth + 1) ∧
  (∀ j, origin ≤ j → j < origin + size → (root.get j).isSome)

/-- Well-formedness of a `List` value: a slice root records its own length
as the size with origin 0; any other root satisfies `trieWF`. -/
def listWF {T : Type} [Inhabited T] (l : GoList T) : Prop :=
  (∀ es, l.root = .sliceNode es → l.origin = 0 ∧ l.size = es.length) ∧
  (l.root.isSlice = false → trieWF l.root l.origin l.size)

theorem get_eq_trie {T : Type} {l : GoList T} (hs : l.root.isSlice = false) (i : Nat) :
    l.get i = if i ≥ l.size then none else l.root.get (l.origin + i) := by
  unfold GoList.get
  cases h : l.root with
  | sliceNode es => rw [h] at hs; simp [ListNode.isSlice] at hs
  | nilNode => rfl
  | leafNode ch occ => rfl
  | branchNode d ch => rfl

theorem get_mk {T : Type} (root : ListNode T) (origin size : Nat)
    (hs : root.isSlice = false) (i : Nat) :
    (GoList.mk root origin size).get i = if i ≥ size then none else root.get (origin + i) :=
  get_eq_trie hs i

/-- Reading through a fresh expansion branch (the appended root layer with
the old root at child 0) below the old addressable range reads the old
root. -/
theorem expandGet0 {T : Type} {root : ListNode T} {D : Nat} (hD : root.depth = D)
    {x : Nat} (hx : x < 32 ^ (D + 1)) :
    (ListNode.branchNode (D + 1) (fun j => if j = 0 then root else .nilNode)).get x
      = root.get x := by
  show (if digit (D + 1) x = 0 then root else ListNode.nilNode).get x = root.get x
  have : digit (D + 1) x = 0 := by
    unfold digit
    rw [Nat.div_eq_of_lt hx]
  rw [this]
  simp

/-- Reading through a fresh prepend-expansion branch (old root at child
31, addresses shifted by `31 · 32 ^ (D+1)`) reads the old root. -/
theorem expandGet31 {T : Type} {root : ListNode T} {D : Nat} (hwf : WFd D root)
    {x : Nat} (hx : x < 32 ^ (D + 1)) :
    (ListNode.branchNode (D + 1) (fun j => if j = 31 then root else .nilNode)).get
        (31 * 32 ^ (D + 1) + x)
      = root.get x := by
  show (if digit (D + 1) (31 * 32 ^ (D + 1) + x) = 31 then root else ListNode.nilNode).get _
      = root.get x
  have hdig : digit (D + 1) (31 * 32 ^ (D + 1) + x) = 31 := by
    unfold digit
    have hc : 31 * 32 ^ (D + 1) + x = 32 ^ (D + 1) * 31 + x := by ring
    rw [hc, Nat.mul_add_div (pow32_pos _), Nat.div_eq_of_lt hx]
  rw [hdig, if_pos rfl]
  calc root.get (31 * 32 ^ (D + 1) + x)
      = root.get ((31 * 32 ^ (D + 1) + x) % 32 ^ (D + 1)) := get_mod hwf _
    _ = root.get x := by
        rw [Nat.add_comm, Nat.add_mul_mod_self_right, Nat.mod_eq_of_lt hx]

/-- `appendTrie` on a well-formed non-slice-rooted list: well-formedness is
preserved, the size grows by one, the origin is unchanged, every old index
reads as before and the new last index reads the new value. -/
theorem appendTrie_spec {T : Type} [Inhabited T] (l : GoList T) (v : T) (mb : Bool)
    (hs : l.root.isSlice = false) (hwf : listWF l) :
    listWF (l.appendTrie v mb) ∧
    (l.appendTrie v mb).root.isSlice = false ∧
    (l.appendTrie v mb).size = l.size + 1 ∧
    (l.appendTrie v mb).origin = l.origin ∧
    (∀ i, i < l.size → (l.appendTrie v mb).get i = l.get i) ∧
    (l.appendTrie v mb).get l.size = some v := by
  obtain ⟨hwfd, hnil, hA, hwin⟩ := hwf.2 hs
  set D := l.root.depth with hD
  by_cases hexp : l.size + l.origin ≥ l.cap
  · -- expansion: new top branch, depth D + 1
    have happ : l.appendTrie v mb =
        { root := (ListNode.branchNode (D + 1) (fun j => if j = 0 then l.root else .nilNode)).setGo
            (l.origin + l.size) v mb,
          origin := l.origin, size := l.size + 1 } := by
      unfold GoList.appendTrie
      rw [if_pos hexp]
    set R := ListNode.branchNode (D + 1) (fun j => if j = 0 then l.root else ListNode.nilNode)
      with hR
    have hwfR : WFd (D + 1) R := by
      refine WFd.branchW _ _ (by omega) fun i hi => ?_
      simp only [Nat.add_sub_cancel]
      by_cases hi0 : i = 0
      · rw [if_pos hi0]; exact hwfd
      · rw [if_neg hi0]; exact WFd.nilW _
    have hRnil : R.isNil = false := rfl
    have hRget : ∀ x, x < 32 ^ (D + 1) → R.get x = l.root.get x := fun x hx =>
      expandGet0 hD.symm hx
    have hidx : l.origin + l.size ≤ 32 ^ (D + 1) := hA
    set F := R.setGo (l.origin + l.size) v mb with hF
    have hwfF : WFd (D + 1) F := setGo_wf hwfR _ _ _
    have hFd : F.depth = D + 1 := by rw [hF, setGo_depth]; rfl
    have hFget_new : F.get (l.origin + l.size) = some v := setGo_get_same hwfR hRnil _ _ _
    have hFget_old : ∀ j, l.origin ≤ j → j < l.origin + l.size → F.get j = l.root.get j := by
      intro j hj1 hj2
      have hjlt : j < 32 ^ (D + 1) := by omega
      have hRj : R.get j = l.root.get j := hRget j hjlt
      have hsome : (R.get j).isSome := by rw [hRj]; exact hwin j hj1 hj2
      have hne : (l.origin + l.size) % 32 ^ (D + 1 + 1) ≠ j % 32 ^ (D + 1 + 1) := by
        have hb : 32 ^ (D + 1) ≤ 32 ^ (D + 1 + 1) := Nat.pow_le_pow_right (by omega) (by omega)
        rw [Nat.mod_eq_of_lt (by omega), Nat.mod_eq_of_lt (by omega)]
        omega
      rw [hF, setGo_get_other hwfR hne hsome, hRj]
    refine ⟨⟨?_, ?_⟩, ?_, ?_, ?_, ?_, ?_⟩
    · intro es hes
      rw [happ] at hes
      simp only at hes
      rw [hF] at hes
      have := setGo_isSlice R (l.origin + l.size) v mb
      rw [hes] at this
      simp [ListNode.isSlice] at this
    · intro _
      rw [happ]
      refine ⟨?_, ?_, ?_, ?_⟩
      · show WFd F.depth F
        rw [hFd]; exact hwfF
      · show F.isNil = false
        rw [hF, setGo_isNil]; exact hRnil
      · show l.origin + (l.size + 1) ≤ 32 ^ (F.depth + 1)
        rw [hFd]
        have h1 : 32 ^ (D + 1) + 1 ≤ 32 ^ (D + 1 + 1) := by
          have := pow32_pos (D + 1)
          calc 32 ^ (D + 1) + 1 ≤ 32 ^ (D + 1) * 32 := by omega
            _ = 32 ^ (D + 1 + 1) := (pow_succ 32 (D + 1)).symm
        omega
      · intro j hj1 hj2
        simp only [] at hj1 hj2
        show (F.get j).isSome
        by_cases hje : j = l.origin + l.size
        · rw [hje, hFget_new]; rfl
        · rw [hFget_old j hj1 (by omega)]
          exact hwin j hj1 (by omega)
    · rw [happ]
      show F.isSlice = false
      rw [hF, setGo_isSlice]; rfl
    · rw [happ]
    · rw [happ]
    · intro i hi
      rw [happ, get_mk _ _ _ (by rw [hF, setGo_isSlice]; rfl), get_eq_trie hs]
      rw [if_neg (by omega), if_neg (by omega)]
      exact hFget_old (l.origin + i) (by omega) (by omega)
    · rw [happ, get_mk _ _ _ (by rw [hF, setGo_isSlice]; rfl)]
      rw [if_neg (by omega)]
      exact hFget_new
  · -- no expansion
    have happ : l.appendTrie v mb =
        { root := l.root.setGo (l.origin + l.size) v mb,
          origin := l.origin, size := l.size + 1 } := by
      unfold GoList.appendTrie
      rw [if_neg hexp]
    have hlt : l.size + l.origin < 32 ^ D := by
      unfold GoList.cap at hexp
      rw [← hD] at hexp
      omega
    set F := l.root.setGo (l.origin + l.size) v mb with hF
    have hwfD : WFd D l.root := hwfd
    have hwfF : WFd D F := setGo_wf hwfD _ _ _
    have hFd : F.depth = D := by rw [hF, setGo_depth]
    have hD1 : 32 ^ D ≤ 32 ^ (D + 1) := Nat.pow_le_pow_right (by omega) (by omega)
    have hFget_new : F.get (l.origin + l.size) = some v := setGo_get_same hwfD hnil _ _ _
    have hFget_old : ∀ j, l.origin ≤ j → j < l.origin + l.size → F.get j = l.root.get j := by
      intro j hj1 hj2
      have hne : (l.origin + l.size) % 32 ^ (D + 1) ≠ j % 32 ^ (D + 1) := by
        rw [Nat.mod_eq_of_lt (by omega), Nat.mod_eq_of_lt (by omega)]
        omega
      exact setGo_get_other hwfD hne (hwin j hj1 hj2) _ _
    refine ⟨⟨?_, ?_⟩, ?_, ?_, ?_, ?_, ?_⟩
    · intro es hes
      rw [happ] at hes
      simp only at hes
      rw [hF] at hes
      have := setGo_isSlice l.root (l.origin + l.size) v mb
      rw [hes, hs] at this
      simp [ListNode.isSlice] at this
    · intro _
      rw [happ]
      refine ⟨?_, ?_, ?_, ?_⟩
      · show WFd F.depth F
        rw [hFd]; exact hwfF
      · show F.isNil = false
        rw [hF, setGo_isNil]; exact hnil
      · show l.origin + (l.size + 1) ≤ 32 ^ (F.depth + 1)
        rw [hFd]; omega
      · intro j hj1 hj2
        simp only [] at hj1 hj2
        show (F.get j).isSome
        by_cases hje : j = l.origin + l.size
        · rw [hje, hFget_new]; rfl
        · rw [hFget_old j hj1 (by omega)]
          exact hwin j hj1 (by omega)
    · rw [happ]
      show F.isSlice = false
      rw [hF, setGo_isSlice]; exact hs
    · rw [happ]
    · rw [happ]
    · intro i hi
      rw [happ, get_mk _ _ _ (by rw [hF, setGo_isSlice]; exact hs), get_eq_trie hs]
      rw [if_neg (by omega), if_neg (by omega)]
      exact hFget_old (l.origin + i) (by omega) (by omega)
    · rw [happ, get_mk _ _ _ (by rw [hF, setGo_isSlice]; exact hs)]
      rw [if_neg (by omega)]
      exact hFget_new

/-- `prependTrie` on a well-formed non-slice-rooted list: well-formedness
is preserved, the size grows by one, index 0 reads the new value and every
old index shifts up by one. -/
theorem prependTrie_spec {T : Type} [Inhabited T] (l : GoList T) (v : T) (mb : Bool)
    (hs : l.root.isSlice = false) (hwf : listWF l) :
    listWF (l.prependTrie v mb) ∧
    (l.prependTrie v mb).root.isSlice = false ∧
    (l.prependTrie v mb).size = l.size + 1 ∧
    (l.prependTrie v mb).get 0 = some v ∧
    (∀ i, i < l.size → (l.prependTrie v mb).get (i + 1) = l.get i) := by
  obtain ⟨hwfd, hnil, hA, hwin⟩ := hwf.2 hs
  set D := l.root.depth with hD
  by_cases hexp : l.origin = 0
  · -- expansion: new top branch with the old root at child 31
    set R := ListNode.branchNode (D + 1) (fun j => if j = 31 then l.root else ListNode.nilNode)
      with hR
    set o1 := 31 * 32 ^ (D + 1) with ho1
    have happ : l.prependTrie v mb =
        { root := R.setGo (o1 - 1) v mb, origin := o1 - 1, size := l.size + 1 } := by
      unfold GoList.prependTrie
      rw [if_pos hexp, hexp]
      simp only [Nat.zero_add]
      rfl
    have hwfR : WFd (D + 1) R := by
      refine WFd.branchW _ _ (by omega) fun i hi => ?_
      simp only [Nat.add_sub_cancel]
      by_cases hi0 : i = 31
      · rw [if_pos hi0]; exact hwfd
      · rw [if_neg hi0]; exact WFd.nilW _
    have hRnil : R.isNil = false := rfl
    have hP1 : 0 < 32 ^ (D + 1) := pow32_pos (D + 1)
    have hszA : l.size ≤ 32 ^ (D + 1) := by omega
    have hRget : ∀ x, x < 32 ^ (D + 1) → R.get (o1 + x) = l.root.get x := fun x hx =>
      expandGet31 hwfd hx
    set F := R.setGo (o1 - 1) v mb with hF
    have hwfF : WFd (D + 1) F := setGo_wf hwfR _ _ _
    have hFd : F.depth = D + 1 := by rw [hF, setGo_depth]; rfl
    have hFs : F.isSlice = false := by rw [hF, setGo_isSlice]; rfl
    have hbig : o1 - 1 + (l.size + 1) ≤ 32 ^ (D + 1 + 1) := by
      have : (32 : Nat) ^ (D + 1 + 1) = 32 * 32 ^ (D + 1) := by rw [pow_succ]; ring
      omega
    have hFget_new : F.get (o1 - 1) = some v := setGo_get_same hwfR hRnil _ _ _
    have hFget_old : ∀ x, x < l.size → F.get (o1 + x) = l.root.get x := by
      intro x hx
      have hxr : x < 32 ^ (D + 1) := by omega
      have hRx : R.get (o1 + x) = l.root.get x := hRget x hxr
      have hsome : (R.get (o1 + x)).isSome := by
        rw [hRx]
        exact hwin x (by omega) (by omega)
      have hne : (o1 - 1) % 32 ^ (D + 1 + 1) ≠ (o1 + x) % 32 ^ (D + 1 + 1) := by
        rw [Nat.mod_eq_of_lt (by omega), Nat.mod_eq_of_lt (by omega)]
        omega
      rw [hF, setGo_get_other hwfR hne hsome, hRx]
    refine ⟨⟨?_, ?_⟩, ?_, ?_, ?_, ?_⟩
    · intro es hes
      rw [happ] at hes
      simp only [] at hes
      rw [hes] at hFs
      simp [ListNode.isSlice] at hFs
    · intro _
      rw [happ]
      refine ⟨?_, ?_, ?_, ?_⟩
      · show WFd F.depth F
        rw [hFd]; exact hwfF
      · show F.isNil = false
        rw [hF, setGo_isNil]; exact hRnil
      · show o1 - 1 + (l.size + 1) ≤ 32 ^ (F.depth + 1)
        rw [hFd]; exact hbig
      · intro j hj1 hj2
        simp only [] at hj1 hj2
        show (F.get j).isSome
        by_cases hje : j = o1 - 1
        · rw [hje, hFget_new]; rfl
        · have hx : j = o1 + (j - o1) := by omega
          rw [hx, hFget_old (j - o1) (by omega)]
          exact hwin (j - o1) (by omega) (by omega)
    · rw [happ]
      show F.isSlice = false
      exact hFs
    · rw [happ]
    · rw [happ, get_mk _ _ _ hFs]
      rw [if_neg (by omega)]
      rw [Nat.add_zero]
      exact hFget_new
    · intro i hi
      rw [happ, get_mk _ _ _ hFs, get_eq_trie hs]
      rw [if_neg (by omega), if_neg (by omega), hexp, Nat.zero_add]
      have hx : o1 - 1 + (i + 1) = o1 + i := by omega
      rw [hx]
      exact hFget_old i hi
  · -- no expansion: origin ≥ 1
    have happ : l.prependTrie v mb =
        { root := l.root.setGo (l.origin - 1) v mb, origin := l.origin - 1,
          size := l.size + 1 } := by
      unfold GoList.prependTrie
      rw [if_neg hexp]
    set F := l.root.setGo (l.origin - 1) v mb with hF
    have hwfF : WFd D F := setGo_wf hwfd _ _ _
    have hFd : F.depth = D := by rw [hF, setGo_depth]
    have hFs : F.isSlice = false := by rw [hF, setGo_isSlice]; exact hs
    have hFget_new : F.get (l.origin - 1) = some v := setGo_get_same hwfd hnil _ _ _
    have hFget_old : ∀ j, l.origin ≤ j → j < l.origin + l.size → F.get j = l.root.get j := by
      intro j hj1 hj2
      have hne : (l.origin - 1) % 32 ^ (D + 1) ≠ j % 32 ^ (D + 1) := by
        rw [Nat.mod_eq_of_lt (by omega), Nat.mod_eq_of_lt (by omega)]
        omega
      exact setGo_get_other hwfd hne (hwin j hj1 hj2) _ _
    refine ⟨⟨?_, ?_⟩, ?_, ?_, ?_, ?_⟩
    · intro es hes
      rw [happ] at hes
      simp only [] at hes
      rw [hes] at hFs
      simp [ListNode.isSlice] at hFs
    · intro _
      rw [happ]
      refine ⟨?_, ?_, ?_, ?_⟩
      · show WFd F.depth F
        rw [hFd]; exact hwfF
      · show F.isNil = false
        rw [hF, setGo_isNil]; exact hnil
      · show l.origin - 1 + (l.size + 1) ≤ 32 ^ (F.depth + 1)
        rw [hFd]; omega
      · intro j hj1 hj2
        simp only [] at hj1 hj2
        show (F.get j).isSome
        by_cases hje : j = l.origin - 1
        · rw [hje, hFget_new]; rfl
        · rw [hFget_old j (by omega) (by omega)]
          exact hwin j (by omega) (by omega)
    · rw [happ]
      show F.isSlice = false
      exact hFs
    · rw [happ]
    · rw [happ, get_mk _ _ _ hFs]
      rw [if_neg (by omega), Nat.add_zero]
      exact hFget_new
    · intro i hi
      rw [happ, get_mk _ _ _ hFs, get_eq_trie hs]
      rw [if_neg (by omega), if_neg (by omega)]
      have hx : l.origin - 1 + (i + 1) = l.origin + i := by omega
      rw [hx]
      exact hFget_old (l.origin + i) (by omega) (by omega)

/-- `List.set` on a well-formed list with an in-bounds index succeeds and
preserves well-formedness, the size, the origin and the root's
representation and depth. -/
theorem listSet_spec {T : Type} [Inhabited T] (l : GoList T) (i : Nat) (v : T) (mb : Bool)
    (hwf : listWF l) (hi : i < l.size) :
    ∃ l2, l.setGo i v mb = some l2 ∧ listWF l2 ∧ l2.size = l.size ∧ l2.origin = l.origin ∧
      l2.root.isSlice = l.root.isSlice ∧ l2.root.depth = l.root.depth := by
  unfold GoList.setGo
  rw [if_neg (by omega)]
  cases hroot : l.root with
  | sliceNode es =>
      obtain ⟨ho, hsz⟩ := hwf.1 es hroot
      refine ⟨_, rfl, ⟨?_, ?_⟩, rfl, rfl, rfl, rfl⟩
      · intro es2 hes2
        simp only [ListNode.setGo, ListNode.sliceNode.injEq] at hes2
        constructor
        · exact ho
        · rw [← hes2]
          simp [hsz]
      · intro hfalse
        simp [ListNode.setGo, ListNode.isSlice] at hfalse
  | nilNode =>
      have hs : l.root.isSlice = false := by rw [hroot]; rfl
      obtain ⟨hwfd, hnil, hA, hwin⟩ := hwf.2 hs
      rw [hroot] at hnil
      simp [ListNode.isNil] at hnil
  | leafNode ch occ =>
      have hs : l.root.isSlice = false := by rw [hroot]; rfl
      obtain ⟨hwfd, hnil, hA, hwin⟩ := hwf.2 hs
      rw [hroot] at hwfd hwin hA
      refine ⟨_, rfl, ⟨?_, ?_⟩, rfl, rfl, ?_, ?_⟩
      · intro es2 hes2
        simp only at hes2
        rw [show (ListNode.leafNode ch occ).setGo (l.origin + i) v mb
            = ListNode.leafSet ch occ (l.origin + i) v from rfl] at hes2
        simp [ListNode.leafSet] at hes2
      · intro _
        set F := (ListNode.leafNode ch occ).setGo (l.origin + i) v mb with hF
        have hwfF : WFd 0 F := setGo_wf hwfd _ _ _
        refine ⟨?_, ?_, ?_, ?_⟩
        · show WFd F.depth F
          have : F.depth = (ListNode.leafNode ch occ).depth := setGo_depth _ _ _ _
          rw [this]
          exact hwfF
        · show F.isNil = false
          rw [hF, setGo_isNil]; rfl
        · show l.origin + l.size ≤ 32 ^ (F.depth + 1)
          rw [hF, setGo_depth]
          exact hA
        · intro j hj1 hj2
          simp only [] at hj1 hj2
          show (F.get j).isSome
          by_cases hje : j = l.origin + i
          · rw [hje, hF, setGo_get_same hwfd (by rfl)]; rfl
          · rw [hF, setGo_get_other hwfd ?_ (hwin j hj1 hj2)]
            · exact hwin j hj1 hj2
            · show (l.origin + i) % 32 ^ (0 + 1) ≠ j % 32 ^ (0 + 1)
              have hdep0 : (ListNode.leafNode ch occ).depth = 0 := rfl
              rw [hdep0] at hA
              have h32 : (32 : Nat) ^ (0 + 1) = 32 := by norm_num
              rw [h32] at hA ⊢
              rw [Nat.mod_eq_of_lt (by omega), Nat.mod_eq_of_lt (by omega)]
              omega
      · rfl
      · rfl
  | branchNode d ch =>
      have hs : l.root.isSlice = false := by rw [hroot]; rfl
      obtain ⟨hwfd, hnil, hA, hwin⟩ := hwf.2 hs
      rw [hroot] at hwfd hwin hA
      have hdep : (ListNode.branchNode d ch).depth = d := rfl
      rw [hdep] at hwfd hA
      refine ⟨_, rfl, ⟨?_, ?_⟩, rfl, rfl, ?_, ?_⟩
      · intro es2 hes2
        simp only at hes2
        have := setGo_isSlice (ListNode.branchNode d ch) (l.origin + i) v mb
        rw [hes2] at this
        simp [ListNode.isSlice] at this
      · intro _
        set F := (ListNode.branchNode d ch).setGo (l.origin + i) v mb with hF
        have hwfF : WFd d F := setGo_wf hwfd _ _ _
        have hFd : F.depth = d := by rw [hF, setGo_depth, hdep]
        refine ⟨?_, ?_, ?_, ?_⟩
        · show WFd F.depth F
          rw [hFd]; exact hwfF
        · show F.isNil = false
          rw [hF, setGo_isNil]; rfl
        · show l.origin + l.size ≤ 32 ^ (F.depth + 1)
          rw [hFd]; exact hA
        · intro j hj1 hj2
          simp only [] at hj1 hj2
          show (F.get j).isSome
          by_cases hje : j = l.origin + i
          · rw [hje, hF, setGo_get_same hwfd (by rfl)]; rfl
          · rw [hF, setGo_get_other hwfd ?_ (hwin j hj1 hj2)]
            · exact hwin j hj1 hj2
            · rw [Nat.mod_eq_of_lt (by omega), Nat.mod_eq_of_lt (by omega)]
              omega
      · exact setGo_isSlice (ListNode.branchNode d ch) (l.origin + i) v mb
      · exact setGo_depth (ListNode.branchNode d ch) (l.origin + i) v mb

/-! ## Correctness of `toTrie` -/

theorem chunks32_get {α : Type} (xs : List α) (i : Nat) (h : i < (chunks32 xs).length) :
    (chunks32 xs)[i]? = some ((xs.drop (32 * i)).take 32) := by
  have key : ∀ m (xs : List α) i, xs.length ≤ m → i < (chunks32 xs).length →
      (chunks32 xs)[i]? = some ((xs.drop (32 * i)).take 32) := by
    intro m
    induction m with
    | zero =>
        intro xs i hle hlt
        have : xs = [] := List.length_eq_zero.mp (by omega)
        subst this
        simp [chunks32] at hlt
    | succ m ih =>
        intro xs i hle hlt
        cases xs with
        | nil => simp [chunks32] at hlt
        | cons x rest =>
            rw [chunks32] at hlt ⊢
            cases i with
            | zero => simp
            | succ i =>
                have hdrop : ((x :: rest).drop 32).length ≤ m := by
                  simp only [List.length_drop, List.length_cons]
                  simp only [List.length_cons] at hle
                  omega
                simp only [List.length_cons, List.getElem?_cons_succ] at hlt ⊢
                rw [ih _ i hdrop (by simpa using hlt), List.drop_drop]
                have harith : 32 + 32 * i = 32 * (i + 1) := by ring
                rw [harith]
  exact key xs.length xs i le_rfl h

theorem chunks32_get_length {α : Type} (xs : List α) (i : Nat)
    (h : i < (chunks32 xs).length) :
    ((xs.drop (32 * i)).take 32).length = min 32 (xs.length - 32 * i) := by
  simp

/-- The invariant of the layer loop: `ns` is the `k`-th layer — node `i`
covers elements `[i · 32^k, (i+1) · 32^k)` and answers `get x` through the
bottom `k` digits of `x`. -/
def layerOK {T : Type} (elements : List T) (k : Nat) (ns : List (ListNode T)) : Prop :=
  ∀ i, i < ns.length →
    WFd (k - 1) (ns.getD i .nilNode) ∧ (ns.getD i .nilNode).isNil = false ∧
    (∀ x, i * 32 ^ k + x % 32 ^ k < elements.length →
      (ns.getD i .nilNode).get x = elements[i * 32 ^ k + x % 32 ^ k]?)

theorem buildLayers_spec {T : Type} (elements : List T) :
    ∀ m (ns : List (ListNode T)) k, ns.length ≤ m → 1 ≤ k → 1 ≤ ns.length →
    elements.length ≤ ns.length * 32 ^ k → layerOK elements k ns →
    WFd (buildLayers ns k).depth (buildLayers ns k) ∧
    (buildLayers ns k).isNil = false ∧
    elements.length ≤ 32 ^ ((buildLayers ns k).depth + 1) ∧
    (∀ x, x < elements.length → (buildLayers ns k).get x = elements[x]?) := by
  intro m
  induction m with
  | zero =>
      intro ns k h1 _ h3 _ _
      omega
  | succ m ih =>
      intro ns k hm hk hne hcov hok
      by_cases hlen : ns.length ≤ 1
      · have hbuild : buildLayers ns k = ns.headD .nilNode := by
          rw [buildLayers, dif_pos hlen]
        have hlen1 : ns.length = 1 := by omega
        have hhead : ns.headD .nilNode = ns.getD 0 .nilNode := by
          cases ns with
          | nil => simp at hlen1
          | cons n rest => rfl
        obtain ⟨hw, hnil, hget⟩ := hok 0 (by omega)
        have hdep : (ns.getD 0 ListNode.nilNode).depth = k - 1 := WFd.depth_eq hw hnil
        have hk1 : k - 1 + 1 = k := by omega
        have hcov1 : elements.length ≤ 32 ^ k := by
          have h1 : ns.length * 32 ^ k = 32 ^ k := by rw [hlen1]; ring
          omega
        rw [hbuild, hhead]
        refine ⟨?_, hnil, ?_, ?_⟩
        · rw [hdep]; exact hw
        · rw [hdep, hk1]; exact hcov1
        · intro x hx
          have hxlt : x < 32 ^ k := by omega
          have := hget x (by rw [Nat.mod_eq_of_lt hxlt]; omega)
          rw [Nat.zero_mul, Nat.zero_add, Nat.mod_eq_of_lt hxlt] at this
          exact this
      · have hbuild : buildLayers ns k =
            buildLayers ((chunks32 ns).map fun chunk =>
              ListNode.branchNode k (fun j => chunk.getD j .nilNode)) (k + 1) := by
          rw [buildLayers, dif_neg hlen]
        push_neg at hlen
        set parents := (chunks32 ns).map fun chunk =>
          ListNode.branchNode k (fun j => chunk.getD j ListNode.nilNode) with hparents
        have hplen : parents.length = (ns.length + 31) / 32 := by
          rw [hparents, List.length_map, chunks32_length]
        have hcov2 : ns.length ≤ parents.length * 32 := by
          rw [hplen]
          have := Nat.div_add_mod (ns.length + 31) 32
          have h2 : (ns.length + 31) % 32 < 32 := Nat.mod_lt _ (by omega)
          omega
        have hchunkAt : ∀ i, i < parents.length →
            parents.getD i .nilNode =
              ListNode.branchNode k (fun j => ((ns.drop (32 * i)).take 32).getD j .nilNode) := by
          intro i hi
          have hi2 : i < (chunks32 ns).length := by
            rw [hparents, List.length_map] at hi
            exact hi
          rw [hparents, List.getD_eq_getElem?_getD, List.getElem?_map, chunks32_get ns i hi2]
          rfl
        have hchunkElem : ∀ i j, i < parents.length → j < ((ns.drop (32 * i)).take 32).length →
            ((ns.drop (32 * i)).take 32).getD j .nilNode = ns.getD (32 * i + j) .nilNode := by
          intro i j _ hj
          have hj32 : j < 32 := by
            have := ((ns.drop (32 * i)).length_take_le 32)
            have h2 : ((ns.drop (32 * i)).take 32).length ≤ 32 := by
              simp [List.length_take]
            omega
          rw [List.getD_eq_getElem?_getD, List.getElem?_take, if_pos hj32,
            List.getElem?_drop, List.getD_eq_getElem?_getD]
        have hchunkLen : ∀ i, i < parents.length →
            ((ns.drop (32 * i)).take 32).length = min 32 (ns.length - 32 * i) := by
          intro i _
          simp
        have hok2 : layerOK elements (k + 1) parents := by
          intro i hi
          rw [hchunkAt i hi]
          refine ⟨?_, by rfl, ?_⟩
          · refine WFd.branchW _ _ (by omega) fun j hj => ?_
            simp only [Nat.add_sub_cancel]
            by_cases hjc : j < ((ns.drop (32 * i)).take 32).length
            · rw [hchunkElem i j hi hjc]
              have hidx : 32 * i + j < ns.length := by
                have := hchunkLen i hi
                omega
              have hkk : k - 1 = k + 1 - 1 - 1 := by omega
              rw [← hkk] at *
              exact (hok (32 * i + j) hidx).1
            · rw [List.getD_eq_getElem?_getD, List.getElem?_eq_none (by omega)]
              exact WFd.nilW _
          · intro x hx
            show (ListNode.branchNode k _).get x = _
            have hxeq : x % 32 ^ (k + 1) = x % 32 ^ k + 32 ^ k * digit k x := mod_decomp k x
            set j := digit k x with hj
            have hjlt : j < 32 := digit_lt k x
            have hbound : (32 * i + j) * 32 ^ k + x % 32 ^ k < elements.length := by
              have : (32 * i + j) * 32 ^ k + x % 32 ^ k
                  = i * 32 ^ (k + 1) + x % 32 ^ (k + 1) := by
                rw [hxeq, pow_succ]
                ring
              omega
            have hidx : 32 * i + j < ns.length := by
              by_contra hcon
              push_neg at hcon
              have h1 : ns.length * 32 ^ k ≤ (32 * i + j) * 32 ^ k :=
                Nat.mul_le_mul_right _ hcon
              have := pow32_pos k
              omega
            have hjc : j < ((ns.drop (32 * i)).take 32).length := by
              have := hchunkLen i hi
              omega
            show (((ns.drop (32 * i)).take 32).getD (digit k x) ListNode.nilNode).get x = _
            rw [← hj, hchunkElem i j hi hjc]
            obtain ⟨_, _, hgetc⟩ := hok (32 * i + j) hidx
            rw [hgetc x hbound]
            congr 1
            rw [hxeq, pow_succ]
            ring
        have hres := ih parents (k + 1) ?_ (by omega) ?_ ?_ hok2
        · rw [hbuild]
          exact hres
        · rw [hplen]
          rw [Nat.div_le_iff_le_mul_add_pred (by omega)]
          omega
        · rw [hplen]
          have : 32 ≤ ns.length + 31 := by omega
          have := Nat.div_le_div_right (c := 32) this
          simp at this
          omega
        · calc elements.length ≤ ns.length * 32 ^ k := hcov
            _ ≤ parents.length * 32 * 32 ^ k := Nat.mul_le_mul_right _ hcov2
            _ = parents.length * 32 ^ (k + 1) := by rw [pow_succ]; ring

theorem sliceToTrie_spec {T : Type} [Inhabited T] (elements : List T) (mb : Bool)
    (hne : elements ≠ []) :
    WFd (sliceToTrie elements mb).depth (sliceToTrie elements mb) ∧
    (sliceToTrie elements mb).isNil = false ∧
    (sliceToTrie elements mb).isSlice = false ∧
    elements.length ≤ 32 ^ ((sliceToTrie elements mb).depth + 1) ∧
    (∀ x, x < elements.length → (sliceToTrie elements mb).get x = elements[x]?) := by
  have hlen0 : elements.length ≠ 0 := by
    intro h
    exact hne (List.length_eq_zero.mp h)
  have hbuild : sliceToTrie elements mb =
      buildLayers ((chunks32 elements).map fun chunk =>
        ListNode.leafNode (fun j => chunk.getD j default) (2 ^ chunk.length - 1)) 1 := by
    unfold sliceToTrie
    rw [if_neg hlen0]
  set leaves := (chunks32 elements).map fun chunk =>
    ListNode.leafNode (fun j => chunk.getD j default) (2 ^ chunk.length - 1) with hleaves
  have hllen : leaves.length = (elements.length + 31) / 32 := by
    rw [hleaves, List.length_map, chunks32_length]
  have hlpos : 1 ≤ leaves.length := by
    rw [hllen]
    rw [Nat.le_div_iff_mul_le (by omega : (0 : Nat) < 32)]
    omega
  have hlcov : elements.length ≤ leaves.length * 32 ^ 1 := by
    rw [hllen]
    have := Nat.div_add_mod (elements.length + 31) 32
    have h2 : (elements.length + 31) % 32 < 32 := Nat.mod_lt _ (by omega)
    have hp : (32 : Nat) ^ 1 = 32 := by norm_num
    rw [hp]
    omega
  have hok : layerOK elements 1 leaves := by
    intro i hi
    have hi2 : i < (chunks32 elements).length := by
      rw [hleaves, List.length_map] at hi
      exact hi
    have hget : leaves.getD i .nilNode =
        ListNode.leafNode (fun j => ((elements.drop (32 * i)).take 32).getD j default)
          (2 ^ ((elements.drop (32 * i)).take 32).length - 1) := by
      rw [hleaves, List.getD_eq_getElem?_getD, List.getElem?_map, chunks32_get elements i hi2]
      rfl
    rw [hget]
    refine ⟨WFd.leafW _ _, by rfl, ?_⟩
    intro x hx
    have hp : (32 : Nat) ^ 1 = 32 := by norm_num
    rw [hp] at hx ⊢
    have hx32 : x % 32 < 32 := Nat.mod_lt _ (by omega)
    have hxin : x % 32 < ((elements.drop (32 * i)).take 32).length := by
      have hcl : ((elements.drop (32 * i)).take 32).length = min 32 (elements.length - 32 * i) := by
        simp
      omega
    show some (((elements.drop (32 * i)).take 32).getD (x % 32) default) = _
    have h1 : ((elements.drop (32 * i)).take 32).getD (x % 32) default
        = elements.getD (32 * i + x % 32) default := by
      rw [List.getD_eq_getElem?_getD, List.getElem?_take, if_pos hx32, List.getElem?_drop,
        List.getD_eq_getElem?_getD]
    rw [h1]
    have h2 : 32 * i + x % 32 < elements.length := by omega
    have hidx : i * 32 + x % 32 = 32 * i + x % 32 := by ring
    rw [hidx, List.getD_eq_getElem _ _ h2, List.getElem?_eq_getElem h2]
  obtain ⟨h1, h2, h3, h4⟩ :=
    buildLayers_spec elements leaves.length leaves 1 le_rfl (by omega) hlpos hlcov hok
  rw [hbuild]
  exact ⟨h1, h2, WFd.not_slice h1, h3, h4⟩

/-- The list built by the slice-to-trie conversion (`tempList` in
`append`/`prepend`): well-formed, same gets as the slice elements. -/
theorem toTrieList_spec {T : Type} [Inhabited T] (elements : List T) (size : Nat)
    (hsz : size = elements.length) (hne : elements ≠ []) :
    listWF (GoList.mk (sliceToTrie elements true) 0 size) ∧
    (GoList.mk (sliceToTrie elements true) 0 size).root.isSlice = false ∧
    (∀ i, i < size → (GoList.mk (sliceToTrie elements true) 0 size).get i = elements[i]?) := by
  obtain ⟨h1, h2, h3, h4, h5⟩ := sliceToTrie_spec elements true hne
  refine ⟨⟨?_, ?_⟩, h3, ?_⟩
  · intro es hes
    simp only [] at hes
    rw [hes] at h3
    simp [ListNode.isSlice] at h3
  · intro _
    refine ⟨h1, h2, by simpa [hsz] using h4, ?_⟩
    intro j hj1 hj2
    simp only [] at hj1 hj2
    rw [h5 j (by omega)]
    have hj : j < elements.length := by omega
    rw [List.getElem?_eq_getElem hj]
    rfl
  · intro i hi
    rw [get_mk _ _ _ h3, if_neg (by omega), Nat.zero_add]
    exact h5 i (by omega)

theorem appendGo_trie {T : Type} [Inhabited T] (l : GoList T) (v : T) (mb : Bool)
    (hs : l.root.isSlice = false) : l.appendGo v mb = l.appendTrie v mb := by
  unfold GoList.appendGo
  cases h : l.root with
  | sliceNode es => rw [h] at hs; simp [ListNode.isSlice] at hs
  | nilNode => rfl
  | leafNode ch occ => rfl
  | branchNode d ch => rfl

theorem prependGo_trie {T : Type} [Inhabited T] (l : GoList T) (v : T) (mb : Bool)
    (hs : l.root.isSlice = false) : l.prependGo v mb = l.prependTrie v mb := by
  unfold GoList.prependGo
  cases h : l.root with
  | sliceNode es => rw [h] at hs; simp [ListNode.isSlice] at hs
  | nilNode => rfl
  | leafNode ch occ => rfl
  | branchNode d ch => rfl

/-- `List.append` on a well-formed list: well-formedness is preserved, the
size grows by one, the root stays a slice exactly when it was one below the
threshold, every old index reads as before and the new last index reads the
appended value. -/
theorem appendGo_spec {T : Type} [Inhabited T] (l : GoList T) (v : T) (mb : Bool)
    (hwf : listWF l) :
    listWF (l.appendGo v mb) ∧
    (l.appendGo v mb).size = l.size + 1 ∧
    (l.appendGo v mb).root.isSlice = (l.root.isSlice && decide (l.size < listSliceThreshold)) ∧
    (∀ i, i < l.size → (l.appendGo v mb).get i = l.get i) ∧
    (l.appendGo v mb).get l.size = some v := by
  by_cases hsl : l.root.isSlice = true
  · obtain ⟨es, hes⟩ : ∃ es, l.root = ListNode.sliceNode es := by
      cases h : l.root with
      | sliceNode es => exact ⟨es, rfl⟩
      | nilNode => rw [h] at hsl; simp [ListNode.isSlice] at hsl
      | leafNode ch occ => rw [h] at hsl; simp [ListNode.isSlice] at hsl
      | branchNode d ch => rw [h] at hsl; simp [ListNode.isSlice] at hsl
    obtain ⟨horig, hszlen⟩ := hwf.1 es hes
    by_cases hlt : l.size < listSliceThreshold
    · have happ : l.appendGo v mb =
          { root := ListNode.sliceNode ((List.range (l.size + 1)).map fun j =>
              if j = l.size then v else es.getD j default),
            origin := l.origin,
            size := l.size + 1 } := by
        unfold GoList.appendGo
        rw [hes]
        simp only [if_pos hlt]
      rw [happ]
      refine ⟨⟨?_, ?_⟩, by simp only [], ?_, ?_, ?_⟩
      · intro es2 hes2
        simp only [] at hes2
        cases hes2
        constructor
        · simp only []
          exact horig
        · simp only [List.length_map, List.length_range]
      · intro hns
        simp [ListNode.isSlice] at hns
      · rw [hes]
        simp [ListNode.isSlice, hlt]
      · intro i hi
        unfold GoList.get
        simp only []
        rw [if_neg (by omega), if_neg (by omega), hes]
        rw [List.getElem?_map, List.getElem?_range (by omega : i < l.size + 1)]
        have hies : i < es.length := by omega
        show some (if i = l.size then v else es.getD i default) = es[i]?
        rw [if_neg (by omega), List.getD_eq_getElem es default hies,
          List.getElem?_eq_getElem hies]
      · unfold GoList.get
        simp only []
        rw [if_neg (by omega)]
        rw [List.getElem?_map, List.getElem?_range (by omega : l.size < l.size + 1)]
        simp
    · have hlen0 : es.length ≠ 0 := by
        have h32 : listSliceThreshold = 32 := rfl
        omega
      have hne : es ≠ [] := fun h => hlen0 (by rw [h]; rfl)
      have happ : l.appendGo v mb =
          GoList.appendTrie ⟨sliceToTrie es true, 0, l.size⟩ v mb := by
        unfold GoList.appendGo
        rw [hes]
        simp only [if_neg hlt]
      obtain ⟨hwf2, hs2, hget2⟩ := toTrieList_spec es l.size hszlen hne
      obtain ⟨a1, a2, a3, a4, a5, a6⟩ :=
        appendTrie_spec ⟨sliceToTrie es true, 0, l.size⟩ v mb hs2 hwf2
      rw [happ]
      refine ⟨a1, a3, ?_, ?_, a6⟩
      · rw [a2, hes]
        simp [ListNode.isSlice, hlt]
      · intro i hi
        rw [a5 i hi, hget2 i hi]
        unfold GoList.get
        rw [if_neg (by omega), hes]
  · have hs : l.root.isSlice = false := by simpa using hsl
    rw [appendGo_trie l v mb hs]
    obtain ⟨a1, a2, a3, a4, a5, a6⟩ := appendTrie_spec l v mb hs hwf
    refine ⟨a1, a3, ?_, a5, a6⟩
    rw [a2, hs]
    simp

/-- `List.prepend` on a well-formed list: well-formedness is preserved, the
size grows by one, the root stays a slice exactly when it was one below the
threshold, index 0 reads the new value and every old index shifts up by
one. -/
theorem prependGo_spec {T : Type} [Inhabited T] (l : GoList T) (v : T) (mb : Bool)
    (hwf : listWF l) :
    listWF (l.prependGo v mb) ∧
    (l.prependGo v mb).size = l.size + 1 ∧
    (l.prependGo v mb).root.isSlice = (l.root.isSlice && decide (l.size < listSliceThreshold)) ∧
    (l.prependGo v mb).get 0 = some v ∧
    (∀ i, i < l.size → (l.prependGo v mb).get (i + 1) = l.get i) := by
  by_cases hsl : l.root.isSlice = true
  · obtain ⟨es, hes⟩ : ∃ es, l.root = ListNode.sliceNode es := by
      cases h : l.root with
      | sliceNode es => exact ⟨es, rfl⟩
      | nilNode => rw [h] at hsl; simp [ListNode.isSlice] at hsl
      | leafNode ch occ => rw [h] at hsl; simp [ListNode.isSlice] at hsl
      | branchNode d ch => rw [h] at hsl; simp [ListNode.isSlice] at hsl
    obtain ⟨horig, hszlen⟩ := hwf.1 es hes
    by_cases hlt : l.size < listSliceThreshold
    · have happ : l.prependGo v mb =
          { root := ListNode.sliceNode ((List.range (l.size + 1)).map fun j =>
              if j = 0 then v else es.getD (j - 1) default),
            origin := l.origin,
            size := l.size + 1 } := by
        unfold GoList.prependGo
        rw [hes]
        simp only [if_pos hlt]
      rw [happ]
      refine ⟨⟨?_, ?_⟩, by simp only [], ?_, ?_, ?_⟩
      · intro es2 hes2
        simp only [] at hes2
        cases hes2
        constructor
        · simp only []
          exact horig
        · simp only [List.length_map, List.length_range]
      · intro hns
        simp [ListNode.isSlice] at hns
      · rw [hes]
        simp [ListNode.isSlice, hlt]
      · unfold GoList.get
        simp only []
        rw [if_neg (by omega)]
        rw [List.getElem?_map, List.getElem?_range (by omega : 0 < l.size + 1)]
        simp
      · intro i hi
        unfold GoList.get
        simp only []
        rw [if_neg (by omega), if_neg (by omega), hes]
        rw [List.getElem?_map, List.getElem?_range (by omega : i + 1 < l.size + 1)]
        have hies : i < es.length := by omega
        show some (if i + 1 = 0 then v else es.getD (i + 1 - 1) default) = es[i]?
        rw [if_neg (by omega), Nat.add_sub_cancel, List.getD_eq_getElem es default hies,
          List.getElem?_eq_getElem hies]
    · have hlen0 : es.length ≠ 0 := by
        have h32 : listSliceThreshold = 32 := rfl
        omega
      have hne : es ≠ [] := fun h => hlen0 (by rw [h]; rfl)
      have happ : l.prependGo v mb =
          GoList.prependTrie ⟨sliceToTrie es true, 0, l.size⟩ v mb := by
        unfold GoList.prependGo
        rw [hes]
        simp only [if_neg hlt]
      obtain ⟨hwf2, hs2, hget2⟩ := toTrieList_spec es l.size hszlen hne
      obtain ⟨a1, a2, a3, a4, a5⟩ :=
        prependTrie_spec ⟨sliceToTrie es true, 0, l.size⟩ v mb hs2 hwf2
      rw [happ]
      refine ⟨a1, a3, ?_, a4, ?_⟩
      · rw [a2, hes]
        simp [ListNode.isSlice, hlt]
      · intro i hi
        rw [a5 i hi, hget2 i hi]
        unfold GoList.get
        rw [if_neg (by omega), hes]
  · have hs : l.root.isSlice = false := by simpa using hsl
    rw [prependGo_trie l v mb hs]
    obtain ⟨a1, a2, a3, a4, a5⟩ := prependTrie_spec l v mb hs hwf
    refine ⟨a1, a3, ?_, a4, a5⟩
    rw [a2, hs]
    simp

/-- Folding `append` (in mutable mode, as `NewList` does) over a value
list: well-formedness is preserved, sizes add, old indices keep their
reads and the appended block reads the folded values. -/
theorem foldl_appendGo_spec {T : Type} [Inhabited T] (vs : List T) (l : GoList T) (mb : Bool)
    (hwf : listWF l) :
    listWF (vs.foldl (fun a v => a.appendGo v mb) l) ∧
    (vs.foldl (fun a v => a.appendGo v mb) l).size = l.size + vs.length ∧
    (∀ i, i < l.size → (vs.foldl (fun a v => a.appendGo v mb) l).get i = l.get i) ∧
    (∀ j, j < vs.length →
      (vs.foldl (fun a v => a.appendGo v mb) l).get (l.size + j) = vs[j]?) := by
  induction vs generalizing l with
  | nil => exact ⟨hwf, by simp, fun i _ => rfl, fun j hj => absurd hj (by simp)⟩
  | cons v vs ih =>
    obtain ⟨a1, a2, a3, a4, a5⟩ := appendGo_spec l v mb hwf
    obtain ⟨b1, b2, b3, b4⟩ := ih (l.appendGo v mb) a1
    rw [List.foldl_cons]
    refine ⟨b1, ?_, ?_, ?_⟩
    · rw [b2, a2]
      simp only [List.length_cons]
      omega
    · intro i hi
      rw [b3 i (by rw [a2]; omega), a4 i hi]
    · intro j hj
      cases j with
      | zero =>
        rw [Nat.add_zero, b3 l.size (by rw [a2]; omega), a5, List.getElem?_cons_zero]
      | succ j2 =>
        have hj2 : j2 < vs.length := by
          simp only [List.length_cons] at hj
          omega
        rw [show l.size + (j2 + 1) = (l.appendGo v mb).size + j2 by rw [a2]; omega]
        rw [b4 j2 hj2, List.getElem?_cons_succ]

/-- `NewList` builds a well-formed list of the right size whose reads
return the constructor arguments, on both the slice path and the
mutable-append trie path. -/
theorem newList_spec {T : Type} [Inhabited T] (values : List T) :
    listWF (newList values) ∧
    (newList values).size = values.length ∧
    (∀ i, i < values.length → (newList values).get i = values[i]?) := by
  by_cases h : values.length > listSliceThreshold
  · have hl0 : listWF (⟨ListNode.leafNode (fun _ => default) 0, 0, 0⟩ : GoList T) := by
      constructor
      · intro es hes
        simp only [] at hes
        cases hes
      · intro _
        refine ⟨WFd.leafW _ _, rfl, ?_, ?_⟩
        · show 0 + 0 ≤ 32 ^ ((ListNode.leafNode (fun _ => (default : T)) 0).depth + 1)
          exact Nat.zero_le _
        · intro j hj1 hj2
          simp only [] at hj1 hj2
          omega
    have heq : newList values =
        values.foldl (fun l v => l.appendGo v true)
          ⟨ListNode.leafNode (fun _ => default) 0, 0, 0⟩ := by
      unfold newList
      rw [if_pos h]
    obtain ⟨b1, b2, b3, b4⟩ := foldl_appendGo_spec values _ true hl0
    rw [heq]
    refine ⟨b1, by rw [b2]; simp only []; omega, ?_⟩
    intro i hi
    have hb := b4 i hi
    simpa using hb
  · have heq : newList values = ⟨ListNode.sliceNode values, 0, values.length⟩ := by
      unfold newList
      rw [if_neg h]
    rw [heq]
    refine ⟨⟨?_, ?_⟩, rfl, ?_⟩
    · intro es hes
      simp only [] at hes
      cases hes
      exact ⟨rfl, rfl⟩
    · intro hns
      simp [ListNode.isSlice] at hns
    · intro i hi
      unfold GoList.get
      simp only []
      rw [if_neg (by omega)]

/-- C2: for every sequence of values `S` (of any length, including lengths
above the 32-element slice threshold) and every index `i` with
`0 ≤ i < |S|`, `Get i` on the list built by `newList S` returns `S[i]`. -/
theorem C2_newList_get {T : Type} [Inhabited T] (S : List T) (i : Nat)
    (h : i < S.length) : (newList S).get i = S[i]? :=
  (newList_spec S).2.2 i h

theorem C2_newList_get_witness :
    35 < (List.range 40).length ∧
    (newList (List.range 40)).get 35 = (List.range 40)[35]? :=
  ⟨by decide, C2_newList_get (List.range 40) 35 (by decide)⟩

theorem digit_le_of_mod_le {d i j : Nat} (hle : i % 32 ^ (d + 1) ≤ j % 32 ^ (d + 1)) :
    digit d i ≤ digit d j := by
  have h1 : digit d i = i % 32 ^ (d + 1) / 32 ^ d := by
    rw [← digit_mod_pow d i]
    exact digit_eq_div (Nat.mod_lt _ (pow32_pos _))
  have h2 : digit d j = j % 32 ^ (d + 1) / 32 ^ d := by
    rw [← digit_mod_pow d j]
    exact digit_eq_div (Nat.mod_lt _ (pow32_pos _))
  rw [h1, h2]
  exact Nat.div_le_div_right hle

theorem mod_le_low {d i j : Nat} (hde : digit d i = digit d j)
    (hle : i % 32 ^ (d + 1) ≤ j % 32 ^ (d + 1)) : i % 32 ^ d ≤ j % 32 ^ d := by
  have h1 := mod_decomp d i
  have h2 := mod_decomp d j
  rw [hde] at h1
  omega

theorem isNil_eq_nil {T : Type} {n : ListNode T} (h : n.isNil = true) :
    n = ListNode.nilNode := by
  cases hc : n with
  | nilNode => rfl
  | sliceNode es => rw [hc] at h; simp [ListNode.isNil] at h
  | leafNode a b => rw [hc] at h; simp [ListNode.isNil] at h
  | branchNode a b => rw [hc] at h; simp [ListNode.isNil] at h

/-- `deleteBefore` leaves every read at or after the cut point (compared on
the addressable window) unchanged. -/
theorem deleteBefore_get {T : Type} [Inhabited T] {D : Nat} {n : ListNode T} (h : WFd D n)
    (mb : Bool) (index j : Nat) (hle : index % 32 ^ (D + 1) ≤ j % 32 ^ (D + 1)) :
    (n.deleteBefore index mb).get j = n.get j := by
  induction h generalizing index j with
  | nilW d => rfl
  | leafW children occupied =>
      have hle32 : index % 32 ≤ j % 32 := by
        have h32 : (32 : Nat) ^ (0 + 1) = 32 := by norm_num
        rw [h32] at hle
        exact hle
      unfold ListNode.deleteBefore
      split
      · rfl
      · cases mb with
        | true =>
            show some (if j % 32 < index % 32 then default else children (j % 32))
              = some (children (j % 32))
            rw [if_neg (by omega)]
        | false =>
            show some (if index % 32 ≤ j % 32 ∧ j % 32 < 32 then children (j % 32) else default)
              = some (children (j % 32))
            rw [if_pos ⟨hle32, Nat.mod_lt _ (by omega)⟩]
  | branchW d children hd hch ih =>
      unfold ListNode.deleteBefore
      split
      · rfl
      · have hdle : digit d index ≤ digit d j := digit_le_of_mod_le hle
        show ((fun j2 => if j2 = digit d index then
            (if (children (digit d index)).isNil then ListNode.nilNode
             else (children (digit d index)).deleteBefore index mb)
            else if mb then (if j2 < digit d index then ListNode.nilNode else children j2)
            else (if digit d index ≤ j2 ∧ j2 < 32 then children j2 else ListNode.nilNode))
          (digit d j)).get j = (children (digit d j)).get j
        simp only []
        by_cases hde : digit d j = digit d index
        · rw [if_pos hde]
          by_cases hnil : (children (digit d index)).isNil
          · rw [if_pos hnil, hde, isNil_eq_nil hnil]
          · rw [if_neg hnil, hde]
            have hlow : index % 32 ^ d ≤ j % 32 ^ d := mod_le_low hde.symm hle
            have hd1 : d - 1 + 1 = d := by omega
            exact ih (digit d index) (digit_lt d index) index j (by rw [hd1]; exact hlow)
        · rw [if_neg hde]
          cases mb with
          | true =>
              rw [if_pos rfl, if_neg (by omega)]
          | false =>
              rw [if_neg (Bool.false_ne_true), if_pos ⟨by omega, digit_lt d j⟩]

/-- `deleteAfter` leaves every read at or before the cut point unchanged. -/
theorem deleteAfter_get {T : Type} [Inhabited T] {D : Nat} {n : ListNode T} (h : WFd D n)
    (mb : Bool) (index j : Nat) (hle : j % 32 ^ (D + 1) ≤ index % 32 ^ (D + 1)) :
    (n.deleteAfter index mb).get j = n.get j := by
  induction h generalizing index j with
  | nilW d => rfl
  | leafW children occupied =>
      have hle32 : j % 32 ≤ index % 32 := by
        have h32 : (32 : Nat) ^ (0 + 1) = 32 := by norm_num
        rw [h32] at hle
        exact hle
      unfold ListNode.deleteAfter
      split
      · rfl
      · cases mb with
        | true =>
            show some (if index % 32 + 1 ≤ j % 32 ∧ j % 32 < 32 then default
              else children (j % 32)) = some (children (j % 32))
            rw [if_neg (by omega)]
        | false =>
            show some (if j % 32 ≤ index % 32 then children (j % 32) else default)
              = some (children (j % 32))
            rw [if_pos hle32]
  | branchW d children hd hch ih =>
      unfold ListNode.deleteAfter
      split
      · rfl
      · have hdle : digit d j ≤ digit d index := digit_le_of_mod_le hle
        show ((fun j2 => if j2 = digit d index then
            (if (children (digit d index)).isNil then ListNode.nilNode
             else (children (digit d index)).deleteAfter index mb)
            else if mb then (if digit d index + 1 ≤ j2 ∧ j2 < 32 then ListNode.nilNode
              else children j2)
            else (if j2 ≤ digit d index then children j2 else ListNode.nilNode))
          (digit d j)).get j = (children (digit d j)).get j
        simp only []
        by_cases hde : digit d j = digit d index
        · rw [if_pos hde]
          by_cases hnil : (children (digit d index)).isNil
          · rw [if_pos hnil, hde, isNil_eq_nil hnil]
          · rw [if_neg hnil, hde]
            have hlow : j % 32 ^ d ≤ index % 32 ^ d := mod_le_low hde hle
            have hd1 : d - 1 + 1 = d := by omega
            exact ih (digit d index) (digit_lt d index) index j (by rw [hd1]; exact hlow)
        · rw [if_neg hde]
          cases mb with
          | true =>
              rw [if_pos rfl, if_neg (by omega)]
          | false =>
              rw [if_neg (Bool.false_ne_true), if_pos (by omega)]

theorem deleteBefore_wf {T : Type} [Inhabited T] {D : Nat} {n : ListNode T} (h : WFd D n)
    (index : Nat) (mb : Bool) : WFd D (n.deleteBefore index mb) := by
  induction h generalizing index with
  | nilW d => exact WFd.nilW d
  | leafW children occupied =>
      unfold ListNode.deleteBefore
      split
      · exact WFd.leafW _ _
      · exact WFd.leafW _ _
  | branchW d children hd hch ih =>
      unfold ListNode.deleteBefore
      split
      · exact WFd.branchW d children hd hch
      · refine WFd.branchW _ _ hd fun j hj => ?_
        by_cases hde : j = digit d index
        · rw [if_pos hde]
          by_cases hnil : (children (digit d index)).isNil
          · rw [if_pos hnil]
            exact WFd.nilW _
          · rw [if_neg hnil]
            exact ih (digit d index) (digit_lt d index) index
        · rw [if_neg hde]
          cases mb with
          | true =>
              rw [if_pos rfl]
              split
              · exact WFd.nilW _
              · exact hch j hj
          | false =>
              rw [if_neg (Bool.false_ne_true)]
              split
              · exact hch j hj
              · exact WFd.nilW _

theorem deleteAfter_wf {T : Type} [Inhabited T] {D : Nat} {n : ListNode T} (h : WFd D n)
    (index : Nat) (mb : Bool) : WFd D (n.deleteAfter index mb) := by
  induction h generalizing index with
  | nilW d => exact WFd.nilW d
  | leafW children occupied =>
      unfold ListNode.deleteAfter
      split
      · exact WFd.leafW _ _
      · exact WFd.leafW _ _
  | branchW d children hd hch ih =>
      unfold ListNode.deleteAfter
      split
      · exact WFd.branchW d children hd hch
      · refine WFd.branchW _ _ hd fun j hj => ?_
        by_cases hde : j = digit d index
        · rw [if_pos hde]
          by_cases hnil : (children (digit d index)).isNil
          · rw [if_pos hnil]
            exact WFd.nilW _
          · rw [if_neg hnil]
            exact ih (digit d index) (digit_lt d index) index
        · rw [if_neg hde]
          cases mb with
          | true =>
              rw [if_pos rfl]
              split
              · exact WFd.nilW _
              · exact hch j hj
          | false =>
              rw [if_neg (Bool.false_ne_true)]
              split
              · exact hch j hj
              · exact WFd.nilW _

theorem deleteBefore_depth {T : Type} [Inhabited T] (n : ListNode T) (index : Nat)
    (mb : Bool) : (n.deleteBefore index mb).depth = n.depth := by
  cases n <;> unfold ListNode.deleteBefore <;> first
    | rfl
    | (split <;> rfl)

theorem deleteAfter_depth {T : Type} [Inhabited T] (n : ListNode T) (index : Nat)
    (mb : Bool) : (n.deleteAfter index mb).depth = n.depth := by
  cases n <;> unfold ListNode.deleteAfter <;> first
    | rfl
    | (split <;> rfl)

theorem deleteBefore_isNil {T : Type} [Inhabited T] (n : ListNode T) (index : Nat)
    (mb : Bool) : (n.deleteBefore index mb).isNil = n.isNil := by
  cases n <;> unfold ListNode.deleteBefore <;> first
    | rfl
    | (split <;> rfl)

theorem deleteAfter_isNil {T : Type} [Inhabited T] (n : ListNode T) (index : Nat)
    (mb : Bool) : (n.deleteAfter index mb).isNil = n.isNil := by
  cases n <;> unfold ListNode.deleteAfter <;> first
    | rfl
    | (split <;> rfl)

theorem deleteBefore_isSlice {T : Type} [Inhabited T] (n : ListNode T) (index : Nat)
    (mb : Bool) : (n.deleteBefore index mb).isSlice = n.isSlice := by
  cases n <;> unfold ListNode.deleteBefore <;> first
    | rfl
    | (split <;> rfl)

theorem deleteAfter_isSlice {T : Type} [Inhabited T] (n : ListNode T) (index : Nat)
    (mb : Bool) : (n.deleteAfter index mb).isSlice = n.isSlice := by
  cases n <;> unfold ListNode.deleteAfter <;> first
    | rfl
    | (split <;> rfl)

/-- The `slice` contraction loop: the result tree is well-formed, non-nil
and non-slice, the moved window still fits its addressable range, and every
read inside the moved window equals the original read shifted back by the
origin delta.  `hnear` supplies a live slot at the window start, or just
before it, when the window is empty — as holds at every `slice` call
site. -/
theorem contract_spec {T : Type} [Inhabited T] (n : ListNode T) (size : Nat) :
    ∀ origin : Nat, WFd n.depth n → n.isNil = false →
    origin + size ≤ 32 ^ (n.depth + 1) →
    (∀ t, origin ≤ t → t < origin + size → (n.get t).isSome) →
    (size = 0 → ((n.get origin).isSome ∨ (1 ≤ origin ∧ (n.get (origin - 1)).isSome))) →
    (contract n origin size).2 ≤ origin ∧
    WFd (contract n origin size).1.depth (contract n origin size).1 ∧
    (contract n origin size).1.isNil = false ∧
    (contract n origin size).1.isSlice = false ∧
    (contract n origin size).2 + size ≤ 32 ^ ((contract n origin size).1.depth + 1) ∧
    (∀ t, (contract n origin size).2 ≤ t → t < (contract n origin size).2 + size →
      (contract n origin size).1.get t
        = n.get (t + (origin - (contract n origin size).2))) := by
  induction n with
  | nilNode =>
      intro origin hwf hnil hA hwin hnear
      simp [ListNode.isNil] at hnil
  | sliceNode es =>
      intro origin hwf hnil hA hwin hnear
      have := WFd.not_slice hwf
      simp [ListNode.isSlice] at this
  | leafNode ch occ =>
      intro origin hwf hnil hA hwin hnear
      refine ⟨le_rfl, hwf, hnil, rfl, hA, ?_⟩
      intro t h1 h2
      show (ListNode.leafNode ch occ).get t
        = (ListNode.leafNode ch occ).get (t + (origin - origin))
      rw [Nat.sub_self, Nat.add_zero]
  | branchNode d children ih =>
      intro origin hwf hnil hA hwin hnear
      have hA : origin + size ≤ 32 ^ (d + 1) := hA
      have hd : 1 ≤ d := by cases hwf with | branchW _ _ hd hch => exact hd
      have hch : ∀ i2, i2 < 32 → WFd (d - 1) (children i2) := by
        cases hwf with | branchW _ _ hd hch => exact hch
      have hstep : contract (ListNode.branchNode d children) origin size
          = if d > 1 then
              (if digit d origin = (if origin + size = 0 then 31
                    else digit d (origin + size - 1))
                then contract (children (digit d origin))
                  (origin - digit d origin * 32 ^ d) size
                else (ListNode.branchNode d children, origin))
            else (ListNode.branchNode d children, origin) := rfl
      by_cases hd1 : d > 1
      case neg =>
        have hunf : contract (ListNode.branchNode d children) origin size
            = (ListNode.branchNode d children, origin) := by
          rw [hstep, if_neg hd1]
        rw [hunf]
        refine ⟨le_rfl, hwf, hnil, rfl, hA, ?_⟩
        intro t h1 h2
        show (ListNode.branchNode d children).get t
          = (ListNode.branchNode d children).get (t + (origin - origin))
        rw [Nat.sub_self, Nat.add_zero]
      case pos =>
      by_cases hij : digit d origin
          = (if origin + size = 0 then 31 else digit d (origin + size - 1))
      case neg =>
        have hunf : contract (ListNode.branchNode d children) origin size
            = (ListNode.branchNode d children, origin) := by
          rw [hstep, if_pos hd1, if_neg hij]
        rw [hunf]
        refine ⟨le_rfl, hwf, hnil, rfl, hA, ?_⟩
        intro t h1 h2
        show (ListNode.branchNode d children).get t
          = (ListNode.branchNode d children).get (t + (origin - origin))
        rw [Nat.sub_self, Nat.add_zero]
      case pos =>
      have hij1 : origin + size ≠ 0 → digit d origin = digit d (origin + size - 1) := by
        intro h0
        rw [hij, if_neg h0]
      have hppos : (0 : Nat) < 32 ^ d := pow32_pos d
      have hq32 : origin < 32 ^ (d + 1) := by
        rcases Nat.lt_or_ge origin (32 ^ (d + 1)) with h | h
        · exact h
        · exfalso
          have hsz0 : size = 0 := by omega
          have horg : origin = 32 ^ (d + 1) := by omega
          have hp : (32 : Nat) ^ (d + 1) = 32 ^ d * 32 := pow_succ 32 d
          have hdig0 : digit d origin = 0 := by
            unfold digit
            rw [horg, hp, Nat.mul_div_cancel_left 32 hppos]
          have hij' := hij1 (by omega)
          have hdig31 : digit d (origin + size - 1) = 31 := by
            unfold digit
            have h1 : origin + size - 1 = 32 ^ d * 31 + (32 ^ d - 1) := by
              have h2 : (32 : Nat) ^ d * 32 = 32 ^ d * 31 + 32 ^ d := by ring
              omega
            rw [h1, Nat.mul_add_div hppos, Nat.div_eq_of_lt (by omega)]
          rw [hij', hdig31] at hdig0
          omega
      have hqdef : digit d origin = origin / 32 ^ d := digit_eq_div hq32
      have hQ := Nat.div_add_mod origin (32 ^ d)
      have hcomm : origin / 32 ^ d * 32 ^ d = 32 ^ d * (origin / 32 ^ d) :=
        Nat.mul_comm _ _
      have ho2 : origin - digit d origin * 32 ^ d = origin % 32 ^ d := by
        rw [hqdef]
        omega
      have hcontract : contract (ListNode.branchNode d children) origin size
          = contract (children (digit d origin)) (origin % 32 ^ d) size := by
        rw [hstep, if_pos hd1, if_pos hij, ho2]
      have hd1' : d - 1 + 1 = d := by omega
      have hqlt : origin / 32 ^ d < 32 := by
        rw [Nat.div_lt_iff_lt_mul hppos]
        calc origin < 32 ^ (d + 1) := hq32
          _ = 32 ^ d * 32 := pow_succ 32 d
          _ ≤ 32 * 32 ^ d := by omega
      have key : ∀ w, digit d w = digit d origin →
          ((ListNode.branchNode d children).get w).isSome →
          (children (digit d origin)).isNil = false := by
        intro w hdw hs
        cases hc : children (digit d origin) with
        | nilNode =>
            have hn : (ListNode.branchNode d children).get w = none := by
              show (children (digit d w)).get w = none
              rw [hdw, hc]
              rfl
            rw [hn] at hs
            simp at hs
        | sliceNode a => rfl
        | leafNode a b => rfl
        | branchNode a b => rfl
      have hgetmod : ∀ w, (children (digit d origin)).get w
          = (children (digit d origin)).get (w % 32 ^ d) := by
        intro w
        have hmod := get_mod (hch (digit d origin) (digit_lt d origin)) w
        rw [hd1'] at hmod
        exact hmod
      have hcnilb : (children (digit d origin)).isNil = false := by
        rcases Nat.eq_zero_or_pos size with hsz0 | hszpos
        · rcases hnear hsz0 with hs | ⟨ho1, hs⟩
          · exact key origin rfl hs
          · have hij0 : digit d origin = digit d (origin - 1) := by
              have h := hij1 (by omega)
              rw [hsz0, Nat.add_zero] at h
              exact h
            exact key (origin - 1) hij0.symm hs
        · exact key origin rfl (hwin origin le_rfl (by omega))
      have hread : ∀ w, origin ≤ w → w < origin + size →
          (ListNode.branchNode d children).get w
            = (children (digit d origin)).get (w % 32 ^ d) := by
        intro w h1 h2
        have hszpos : 1 ≤ size := by omega
        have hij' := hij1 (by omega)
        have hwlt : w < 32 ^ (d + 1) := by omega
        have heq2 : origin / 32 ^ d = (origin + size - 1) / 32 ^ d := by
          have e1 : digit d (origin + size - 1) = (origin + size - 1) / 32 ^ d :=
            digit_eq_div (by omega)
          rw [← hqdef, ← e1]
          exact hij'
        have hdw : digit d w = digit d origin := by
          rw [digit_eq_div hwlt, hqdef]
          have hub : w / 32 ^ d ≤ (origin + size - 1) / 32 ^ d :=
            Nat.div_le_div_right (by omega)
          have hlb : origin / 32 ^ d ≤ w / 32 ^ d := Nat.div_le_div_right h1
          omega
        show (children (digit d w)).get w = _
        rw [hdw]
        exact hgetmod w
      have hA' : origin % 32 ^ d + size ≤ 32 ^ d := by
        rcases Nat.eq_zero_or_pos size with hsz0 | hszpos
        · have := Nat.mod_lt origin hppos
          omega
        · have hij' := hij1 (by omega)
          have e1 : digit d (origin + size - 1) = (origin + size - 1) / 32 ^ d :=
            digit_eq_div (by omega)
          have heq2 : origin / 32 ^ d = (origin + size - 1) / 32 ^ d := by
            rw [← hqdef, ← e1]
            exact hij'
          have e3 := Nat.div_add_mod (origin + size - 1) (32 ^ d)
          rw [← heq2] at e3
          have e4 := Nat.mod_lt (origin + size - 1) hppos
          omega
      have hcwin : ∀ t, origin % 32 ^ d ≤ t → t < origin % 32 ^ d + size →
          ((children (digit d origin)).get t).isSome := by
        intro t h1 h2
        have htlt : t < 32 ^ d := by omega
        have hs := hwin (t + 32 ^ d * (origin / 32 ^ d)) (by omega) (by omega)
        rw [hread (t + 32 ^ d * (origin / 32 ^ d)) (by omega) (by omega)] at hs
        rwa [Nat.add_mul_mod_self_left, Nat.mod_eq_of_lt htlt] at hs
      have hnear' : size = 0 →
          (((children (digit d origin)).get (origin % 32 ^ d)).isSome ∨
            (1 ≤ origin % 32 ^ d ∧
              ((children (digit d origin)).get (origin % 32 ^ d - 1)).isSome)) := by
        intro hsz0
        rcases hnear hsz0 with hs | ⟨ho1, hs⟩
        · left
          have h : (ListNode.branchNode d children).get origin
              = (children (digit d origin)).get (origin % 32 ^ d) := by
            show (children (digit d origin)).get origin = _
            exact hgetmod origin
          rwa [h] at hs
        · right
          have hij0 : digit d origin = digit d (origin - 1) := by
            have h := hij1 (by omega)
            rw [hsz0, Nat.add_zero] at h
            exact h
          have hm1 : 1 ≤ origin % 32 ^ d := by
            by_contra hm0
            have hm0' : origin % 32 ^ d = 0 := by omega
            have hq1 : 1 ≤ origin / 32 ^ d := by
              rcases Nat.eq_zero_or_pos (origin / 32 ^ d) with h0 | h1
              · rw [h0] at hQ
                omega
              · exact h1
            have hq2 : origin / 32 ^ d = (origin / 32 ^ d - 1) + 1 := by omega
            have hsplit : 32 ^ d * (origin / 32 ^ d)
                = 32 ^ d * (origin / 32 ^ d - 1) + 32 ^ d := by
              nth_rewrite 1 [hq2]
              rw [Nat.mul_add, Nat.mul_one]
            have hom1 : origin - 1 = 32 ^ d * (origin / 32 ^ d - 1) + (32 ^ d - 1) := by
              omega
            have hdm1 : digit d (origin - 1) = origin / 32 ^ d - 1 := by
              unfold digit
              rw [hom1, Nat.mul_add_div hppos,
                Nat.div_eq_of_lt (show 32 ^ d - 1 < 32 ^ d by omega)]
              rw [Nat.add_zero]
              exact Nat.mod_eq_of_lt (by omega)
            rw [hqdef, hdm1] at hij0
            omega
          refine ⟨hm1, ?_⟩
          have hmod2 : (origin - 1) % 32 ^ d = origin % 32 ^ d - 1 := by
            have hm := Nat.mod_lt origin hppos
            have hom1 : origin - 1 = (origin % 32 ^ d - 1) + 32 ^ d * (origin / 32 ^ d) := by
              omega
            rw [hom1, Nat.add_mul_mod_self_left, Nat.mod_eq_of_lt (by omega)]
          have h : (ListNode.branchNode d children).get (origin - 1)
              = (children (digit d origin)).get (origin % 32 ^ d - 1) := by
            show (children (digit d (origin - 1))).get (origin - 1) = _
            rw [← hij0, hgetmod (origin - 1), hmod2]
          rwa [h] at hs
      have hwfc : WFd (children (digit d origin)).depth (children (digit d origin)) := by
        have h1 := hch (digit d origin) (digit_lt d origin)
        have h2 : (children (digit d origin)).depth = d - 1 := WFd.depth_eq h1 hcnilb
        rw [h2]
        exact h1
      have hdepc : (children (digit d origin)).depth = d - 1 :=
        WFd.depth_eq (hch (digit d origin) (digit_lt d origin)) hcnilb
      have hAc : origin % 32 ^ d + size ≤ 32 ^ ((children (digit d origin)).depth + 1) := by
        rw [hdepc, hd1']
        exact hA'
      obtain ⟨c1, c2, c3, c4, c5, c6⟩ :=
        ih (digit d origin) (origin % 32 ^ d) hwfc hcnilb hAc hcwin hnear'
      rw [hcontract]
      have hmle : origin % 32 ^ d ≤ origin := Nat.mod_le origin (32 ^ d)
      refine ⟨le_trans c1 hmle, c2, c3, c4, c5, ?_⟩
      intro t h1 h2
      rw [c6 t h1 h2]
      have ho2le : (contract (children (digit d origin)) (origin % 32 ^ d) size).2
          ≤ origin % 32 ^ d := c1
      have hw1 : t + (origin
            - (contract (children (digit d origin)) (origin % 32 ^ d) size).2)
          = (t + (origin % 32 ^ d
              - (contract (children (digit d origin)) (origin % 32 ^ d) size).2))
            + 32 ^ d * (origin / 32 ^ d) := by
        omega
      rw [hw1]
      rw [hread _ (by omega) (by omega)]
      rw [Nat.add_mul_mod_self_left,
        Nat.mod_eq_of_lt (show t + (origin % 32 ^ d
          - (contract (children (digit d origin)) (origin % 32 ^ d) size).2) < 32 ^ d
          by omega)]

/-- The tail of the trie path of `List.slice` after the contraction:
`deleteBefore`/`deleteAfter` around the window (with the `-1` identity case
of an empty window) keep every window read and yield a well-formed list. -/
theorem sliceTail_spec {T : Type} [Inhabited T] (root : ListNode T) (o1 s1 : Nat) (mb : Bool)
    (hwfd : WFd root.depth root) (hnil : root.isNil = false)
    (hA0 : o1 + s1 ≤ 32 ^ (root.depth + 1))
    (hwin : ∀ t, o1 ≤ t → t < o1 + s1 → (root.get t).isSome)
    (hnear : s1 = 0 → ((root.get o1).isSome ∨ (1 ≤ o1 ∧ (root.get (o1 - 1)).isSome))) :
    ∀ r2 o2, contract root o1 s1 = (r2, o2) →
    ∀ r4, r4 = (if o2 + s1 = 0 then r2.deleteBefore o2 mb
        else (r2.deleteBefore o2 mb).deleteAfter (o2 + s1 - 1) mb) →
    listWF (GoList.mk r4 o2 s1) ∧ r4.isSlice = false ∧
      (∀ i, i < s1 → (GoList.mk r4 o2 s1).get i = root.get (o1 + i)) := by
  intro r2 o2 hpair r4 hr4
  obtain ⟨c1, c2, c3, c4, c5, c6⟩ := contract_spec root s1 o1 hwfd hnil hA0 hwin hnear
  simp only [hpair] at c1 c2 c3 c4 c5 c6
  have hwf3 : WFd r2.depth (r2.deleteBefore o2 mb) := deleteBefore_wf c2 o2 mb
  have hget3 : ∀ j, o2 ≤ j → j < o2 + s1 → (r2.deleteBefore o2 mb).get j = r2.get j := by
    intro j hj1 hj2
    apply deleteBefore_get c2 mb
    rw [Nat.mod_eq_of_lt (show o2 < 32 ^ (r2.depth + 1) by omega),
      Nat.mod_eq_of_lt (show j < 32 ^ (r2.depth + 1) by omega)]
    exact hj1
  have hget4 : ∀ j, o2 ≤ j → j < o2 + s1 → r4.get j = r2.get j := by
    intro j hj1 hj2
    have hne0 : o2 + s1 ≠ 0 := by omega
    rw [hr4, if_neg hne0]
    rw [deleteAfter_get hwf3 mb (o2 + s1 - 1) j ?_]
    · exact hget3 j hj1 hj2
    · rw [Nat.mod_eq_of_lt (show j < 32 ^ (r2.depth + 1) by omega),
        Nat.mod_eq_of_lt (show o2 + s1 - 1 < 32 ^ (r2.depth + 1) by omega)]
      omega
  have hchain : ∀ j, o2 ≤ j → j < o2 + s1 → r4.get j = root.get (j + (o1 - o2)) := by
    intro j hj1 hj2
    rw [hget4 j hj1 hj2, c6 j hj1 hj2]
  have hwf4 : WFd r2.depth r4 := by
    rw [hr4]
    split
    · exact hwf3
    · exact deleteAfter_wf hwf3 (o2 + s1 - 1) mb
  have hdep4 : r4.depth = r2.depth := by
    rw [hr4]
    split
    · exact deleteBefore_depth r2 o2 mb
    · rw [deleteAfter_depth, deleteBefore_depth]
  have hnil4 : r4.isNil = false := by
    rw [hr4]
    split
    · rw [deleteBefore_isNil]
      exact c3
    · rw [deleteAfter_isNil, deleteBefore_isNil]
      exact c3
  have hsl4 : r4.isSlice = false := by
    rw [hr4]
    split
    · rw [deleteBefore_isSlice]
      exact c4
    · rw [deleteAfter_isSlice, deleteBefore_isSlice]
      exact c4
  refine ⟨⟨?_, ?_⟩, hsl4, ?_⟩
  · intro es hes
    simp only [] at hes
    rw [hes] at hsl4
    simp [ListNode.isSlice] at hsl4
  · intro _
    refine ⟨by rw [hdep4]; exact hwf4, hnil4, by rw [hdep4]; exact c5, ?_⟩
    intro j hj1 hj2
    simp only [] at hj1 hj2
    rw [hchain j hj1 hj2]
    exact hwin (j + (o1 - o2)) (by omega) (by omega)
  · intro i hi
    rw [get_mk _ _ _ hsl4, if_neg (by omega)]
    rw [hchain (o2 + i) (by omega) (by omega)]
    have hidx : o2 + i + (o1 - o2) = o1 + i := by omega
    rw [hidx]

/-- `List.slice` with in-bounds arguments never panics; the result is a
well-formed list of the window's length, keeps the representation kind of
the receiver, and reads exactly the receiver's window. -/
theorem sliceGo_spec {T : Type} [Inhabited T] (l : GoList T) (a b : Nat) (mb : Bool)
    (hwf : listWF l) (hab : a ≤ b) (hbs : b ≤ l.size) :
    ∃ l2, l.sliceGo a b mb = some l2 ∧ listWF l2 ∧ l2.size = b - a ∧
      l2.root.isSlice = l.root.isSlice ∧
      (∀ i, i < b - a → l2.get i = l.get (a + i)) := by
  by_cases hid : a = 0 ∧ b = l.size
  · refine ⟨l, ?_, hwf, by omega, rfl, ?_⟩
    · unfold GoList.sliceGo
      rw [if_neg (by omega), if_neg (by omega), if_neg (by omega), if_pos hid]
    · intro i hi
      rw [hid.1, Nat.zero_add]
  by_cases hsl : l.root.isSlice = true
  · obtain ⟨es, hes⟩ : ∃ es, l.root = ListNode.sliceNode es := by
      cases h : l.root with
      | sliceNode es => exact ⟨es, rfl⟩
      | nilNode => rw [h] at hsl; simp [ListNode.isSlice] at hsl
      | leafNode ch occ => rw [h] at hsl; simp [ListNode.isSlice] at hsl
      | branchNode d ch => rw [h] at hsl; simp [ListNode.isSlice] at hsl
    obtain ⟨horig, hszlen⟩ := hwf.1 es hes
    have hstep : l.sliceGo a b mb = some
        { root := ListNode.sliceNode
            ((List.range (b - a)).map fun j => es.getD (a + j) default),
          origin := 0,
          size := b - a } := by
      unfold GoList.sliceGo
      rw [if_neg (by omega), if_neg (by omega), if_neg (by omega), if_neg hid, hes]
    refine ⟨_, hstep, ⟨?_, ?_⟩, by simp only [], by rw [hes]; rfl, ?_⟩
    · intro es2 hes2
      simp only [] at hes2
      cases hes2
      constructor
      · rfl
      · simp only [List.length_map, List.length_range]
    · intro hns
      simp [ListNode.isSlice] at hns
    · intro i hi
      have haie : a + i < es.length := by omega
      unfold GoList.get
      simp only []
      rw [if_neg (by omega), if_neg (by omega), hes]
      rw [List.getElem?_map, List.getElem?_range (by omega : i < b - a)]
      show some (es.getD (a + i) default) = es[a + i]?
      rw [List.getD_eq_getElem es default haie, List.getElem?_eq_getElem haie]
  · have hs : l.root.isSlice = false := by simpa using hsl
    obtain ⟨hwfd, hnilr, hAr, hwinr⟩ := hwf.2 hs
    have hA0 : l.origin + a + (b - a) ≤ 32 ^ (l.root.depth + 1) := by omega
    have hwin0 : ∀ t, l.origin + a ≤ t → t < l.origin + a + (b - a) →
        (l.root.get t).isSome := by
      intro t ht1 ht2
      exact hwinr t (by omega) (by omega)
    have hnear0 : b - a = 0 → ((l.root.get (l.origin + a)).isSome ∨
        (1 ≤ l.origin + a ∧ (l.root.get (l.origin + a - 1)).isSome)) := by
      intro hsz0
      have hlsz : 1 ≤ l.size := by
        by_contra hc
        exact hid ⟨by omega, by omega⟩
      rcases Nat.eq_zero_or_pos a with ha0 | hapos
      · left
        have h0 : l.origin + a = l.origin := by omega
        rw [h0]
        exact hwinr l.origin le_rfl (by omega)
      · right
        refine ⟨by omega, ?_⟩
        have h0 : l.origin + a - 1 = l.origin + (a - 1) := by omega
        rw [h0]
        exact hwinr _ (by omega) (by omega)
    obtain ⟨hwf2, hsl2, hget2⟩ := sliceTail_spec l.root (l.origin + a) (b - a) mb
      hwfd hnilr hA0 hwin0 hnear0
      (contract l.root (l.origin + a) (b - a)).1
      (contract l.root (l.origin + a) (b - a)).2 rfl
      (if (contract l.root (l.origin + a) (b - a)).2 + (b - a) = 0
        then (contract l.root (l.origin + a) (b - a)).1.deleteBefore
          (contract l.root (l.origin + a) (b - a)).2 mb
        else ((contract l.root (l.origin + a) (b - a)).1.deleteBefore
          (contract l.root (l.origin + a) (b - a)).2 mb).deleteAfter
          ((contract l.root (l.origin + a) (b - a)).2 + (b - a) - 1) mb) rfl
    have hstep : l.sliceGo a b mb = some
        (GoList.mk
          (if (contract l.root (l.origin + a) (b - a)).2 + (b - a) = 0
            then (contract l.root (l.origin + a) (b - a)).1.deleteBefore
              (contract l.root (l.origin + a) (b - a)).2 mb
            else ((contract l.root (l.origin + a) (b - a)).1.deleteBefore
              (contract l.root (l.origin + a) (b - a)).2 mb).deleteAfter
              ((contract l.root (l.origin + a) (b - a)).2 + (b - a) - 1) mb)
          (contract l.root (l.origin + a) (b - a)).2 (b - a)) := by
      unfold GoList.sliceGo
      rw [if_neg (by omega), if_neg (by omega), if_neg (by omega), if_neg hid]
      cases h : l.root with
      | sliceNode es => rw [h] at hs; simp [ListNode.isSlice] at hs
      | nilNode => rfl
      | leafNode ch occ => rfl
      | branchNode d ch => rfl
    refine ⟨_, hstep, hwf2, by simp only [], by rw [hs]; exact hsl2, ?_⟩
    intro i hi
    rw [hget2 i hi]
    have hidx : l.origin + a + i = l.origin + (a + i) := by omega
    rw [hidx, get_eq_trie hs (a + i), if_neg (by omega)]

/-- C8: for every sequence `S` and bounds `a ≤ b ≤ |S|`, `Slice a b` of
`newList S` succeeds and is element-wise equal to `S[a..b)`: its length is
`b - a` and `Get i` on it returns `S[a+i]` for every `i < b - a`, on the
slice-backed and the trie-backed constructor path alike. -/
theorem C8_slice_get {T : Type} [Inhabited T] (S : List T) (a b : Nat)
    (ha : a ≤ b) (hb : b ≤ S.length) :
    ∃ l2, (newList S).sliceGo a b false = some l2 ∧ l2.size = b - a ∧
      (∀ i, i < b - a → l2.get i = S[a + i]?) := by
  obtain ⟨w1, w2, w3⟩ := newList_spec S
  obtain ⟨l2, he, hwf2, hsz, hisl, hget⟩ :=
    sliceGo_spec (newList S) a b false w1 ha (by omega)
  refine ⟨l2, he, hsz, ?_⟩
  intro i hi
  rw [hget i hi, w3 (a + i) (by omega)]

theorem C8_slice_get_witness :
    5 ≤ 20 ∧ 20 ≤ (List.range 40).length ∧
    (∃ l2, (newList (List.range 40)).sliceGo 5 20 false = some l2 ∧ l2.size = 20 - 5 ∧
      (∀ i, i < 20 - 5 → l2.get i = (List.range 40)[5 + i]?)) :=
  ⟨by decide, by decide, C8_slice_get (List.range 40) 5 20 (by decide) (by decide)⟩

/-- The fresh empty leaf-rooted list `NewList` starts its mutable append
loop from is well-formed. -/
theorem emptyTrie_listWF {T : Type} [Inhabited T] :
    listWF (⟨ListNode.leafNode (fun _ => default) 0, 0, 0⟩ : GoList T) := by
  constructor
  · intro es hes
    simp only [] at hes
    cases hes
  · intro _
    refine ⟨WFd.leafW _ _, rfl, ?_, ?_⟩
    · show 0 + 0 ≤ 32 ^ ((ListNode.leafNode (fun _ => (default : T)) 0).depth + 1)
      exact Nat.zero_le _
    · intro j hj1 hj2
      simp only [] at hj1 hj2
      omega

/-- Folding `append` over a list with a non-slice root never reintroduces a
slice root. -/
theorem foldl_appendGo_isSlice {T : Type} [Inhabited T] (vs : List T) (l : GoList T)
    (mb : Bool) (hwf : listWF l) (hs : l.root.isSlice = false) :
    (vs.foldl (fun a v => a.appendGo v mb) l).root.isSlice = false := by
  induction vs generalizing l with
  | nil => exact hs
  | cons v vs ih =>
      obtain ⟨a1, a2, a3, a4, a5⟩ := appendGo_spec l v mb hwf
      rw [List.foldl_cons]
      apply ih _ a1
      rw [a3, hs]
      rfl

theorem setGo_bounds {T : Type} [Inhabited T] {l : GoList T} {i : Nat} {v : T} {mb : Bool}
    {l2 : GoList T} (h : l.setGo i v mb = some l2) : i < l.size := by
  unfold GoList.setGo at h
  split_ifs at h with h1
  omega

theorem sliceGo_bounds {T : Type} [Inhabited T] {l : GoList T} {a b : Nat} {mb : Bool}
    {l2 : GoList T} (h : l.sliceGo a b mb = some l2) : a ≤ b ∧ b ≤ l.size := by
  unfold GoList.sliceGo at h
  split_ifs at h with h1 h2 h3 h4
  · omega
  · omega

/-- The invariant of lists reachable through the public immutable API:
well-formedness always holds; while the conversion flag is false the root
is a slice of size at most the threshold; once it is true the root is never
a slice again. -/
theorem reach_inv {T : Type} [Inhabited T] {l : GoList T} {c : Bool} (h : ReachH l c) :
    listWF l ∧ (c = false → l.root.isSlice = true ∧ l.size ≤ listSliceThreshold) ∧
      (c = true → l.root.isSlice = false) := by
  induction h with
  | newR values =>
      obtain ⟨w1, w2, w3⟩ := newList_spec values
      refine ⟨w1, ?_, ?_⟩
      · intro hc
        have hlen : ¬ values.length > listSliceThreshold := by
          have h32 : listSliceThreshold = 32 := rfl
          have := of_decide_eq_false hc
          omega
        constructor
        · unfold newList
          rw [if_neg hlen]
          rfl
        · rw [w2]
          omega
      · intro hc
        have hlen : values.length > listSliceThreshold := by
          have h32 : listSliceThreshold = 32 := rfl
          have := of_decide_eq_true hc
          omega
        have heq : newList values =
            values.foldl (fun l v => l.appendGo v true)
              ⟨ListNode.leafNode (fun _ => default) 0, 0, 0⟩ := by
          unfold newList
          rw [if_pos hlen]
        rw [heq]
        exact foldl_appendGo_isSlice values _ true emptyTrie_listWF rfl
  | @setR l c l2 i v hr hset ih =>
      obtain ⟨ih1, ih2, ih3⟩ := ih
      obtain ⟨l2', he', hw', hs', ho', hsl', hd'⟩ :=
        listSet_spec l i v false ih1 (setGo_bounds hset)
      rw [hset] at he'
      injection he' with hh
      subst hh
      refine ⟨hw', ?_, ?_⟩
      · intro hc
        obtain ⟨ha, hb⟩ := ih2 hc
        exact ⟨by rw [hsl']; exact ha, by rw [hs']; exact hb⟩
      · intro hc
        rw [hsl']
        exact ih3 hc
  | @appendR l c v hr ih =>
      obtain ⟨ih1, ih2, ih3⟩ := ih
      obtain ⟨a1, a2, a3, a4, a5⟩ := appendGo_spec l v false ih1
      refine ⟨a1, ?_, ?_⟩
      · intro hc
        have hc1 : c = false := by
          cases c
          · rfl
          · simp at hc
        rw [hc1, Bool.false_or] at hc
        obtain ⟨hsl, hsz⟩ := ih2 hc1
        rw [hsl, Bool.true_and] at hc
        have h32 : listSliceThreshold = 32 := rfl
        have hlt : l.size < listSliceThreshold := by
          have := of_decide_eq_false hc
          omega
        constructor
        · rw [a3, hsl]
          simp [hlt]
        · rw [a2]
          omega
      · intro hc
        rw [a3]
        by_cases hcc : c = true
        · rw [ih3 hcc]
          rfl
        · have hc1 : c = false := by
            cases c
            · rfl
            · exact absurd rfl hcc
          rw [hc1, Bool.false_or] at hc
          simp only [Bool.and_eq_true, decide_eq_true_eq] at hc
          obtain ⟨hslt, hge⟩ := hc
          have h32 : listSliceThreshold = 32 := rfl
          have hnlt : ¬ l.size < listSliceThreshold := by omega
          simp [hnlt]
  | @prependR l c v hr ih =>
      obtain ⟨ih1, ih2, ih3⟩ := ih
      obtain ⟨a1, a2, a3, a4, a5⟩ := prependGo_spec l v false ih1
      refine ⟨a1, ?_, ?_⟩
      · intro hc
        have hc1 : c = false := by
          cases c
          · rfl
          · simp at hc
        rw [hc1, Bool.false_or] at hc
        obtain ⟨hsl, hsz⟩ := ih2 hc1
        rw [hsl, Bool.true_and] at hc
        have h32 : listSliceThreshold = 32 := rfl
        have hlt : l.size < listSliceThreshold := by
          have := of_decide_eq_false hc
          omega
        constructor
        · rw [a3, hsl]
          simp [hlt]
        · rw [a2]
          omega
      · intro hc
        rw [a3]
        by_cases hcc : c = true
        · rw [ih3 hcc]
          rfl
        · have hc1 : c = false := by
            cases c
            · rfl
            · exact absurd rfl hcc
          rw [hc1, Bool.false_or] at hc
          simp only [Bool.and_eq_true, decide_eq_true_eq] at hc
          obtain ⟨hslt, hge⟩ := hc
          have h32 : listSliceThreshold = 32 := rfl
          have hnlt : ¬ l.size < listSliceThreshold := by omega
          simp [hnlt]
  | @sliceR l c l2 a b hr hslice ih =>
      obtain ⟨ih1, ih2, ih3⟩ := ih
      obtain ⟨hab, hbs⟩ := sliceGo_bounds hslice
      obtain ⟨l2', he', hw', hs', hsl', hget'⟩ := sliceGo_spec l a b false ih1 hab hbs
      rw [hslice] at he'
      injection he' with hh
      subst hh
      refine ⟨hw', ?_, ?_⟩
      · intro hc
        obtain ⟨ha, hb⟩ := ih2 hc
        refine ⟨by rw [hsl']; exact ha, ?_⟩
        rw [hs']
        omega
      · intro hc
        rw [hsl']
        exact ih3 hc

/-- C6 (amended): for every `List` reachable through the public immutable
API (`NewList`, `Set`, `Append`, `Prepend`, `Slice`), the slice
representation is used iff the size is at most the 32-element threshold and
the root has never been converted to the trie; in particular such
slice-backed lists have size at most 32, and a converted list never reverts
to a slice.  The batch list builder must be excluded: its `Flush` slice
fast path has no threshold check (`C6_builder_slice_over_threshold`). -/
theorem C6_slice_iff {T : Type} [Inhabited T] (l : GoList T) (c : Bool) (h : ReachH l c) :
    l.root.isSlice = true ↔ (l.size ≤ listSliceThreshold ∧ c = false) := by
  obtain ⟨h1, h2, h3⟩ := reach_inv h
  constructor
  · intro hsl
    cases hc : c
    · exact ⟨(h2 hc).2, rfl⟩
    · rw [h3 hc] at hsl
      exact absurd hsl (by simp)
  · intro hand
    exact (h2 hand.2).1

theorem C6_slice_iff_witness :
    (newList ([0] : List Nat)).root.isSlice = true
      ↔ ((newList ([0] : List Nat)).size ≤ listSliceThreshold ∧ false = false) :=
  C6_slice_iff (newList [0]) _ (ReachH.newR [0])

/-- C6 counterexample: `BatchListBuilder` with batch size 64, 40 appended
values and a `List()` publish produces a slice-backed list of size 40 — the
`Flush` slice fast path extends the backing slice with no threshold check,
so "slice representation implies size ≤ 32" fails for builder-produced
lists. -/
theorem C6_builder_slice_over_threshold :
    ∃ b2 l, blbAppendSlice (newBatchListBuilder Nat 64) (List.range 40) = some b2 ∧
      blbListGo b2 = some (some l) ∧ l.root.isSlice = true ∧ l.size = 40 := by
  refine ⟨_, _, rfl, rfl, rfl, rfl⟩

/-- C7 (amended): reachable trie-backed lists satisfy the addressability
bound `origin + size ≤ 32 ^ (depth + 1)` — one level more than the claimed
`32 ^ depth ≥ origin + size`, which fails in reachable states
(`C7_cap_not_bounding`). -/
theorem C7_invariant_A {T : Type} [Inhabited T] (l : GoList T) (c : Bool) (h : ReachH l c)
    (hs : l.root.isSlice = false) : l.origin + l.size ≤ 32 ^ (l.root.depth + 1) :=
  ((reach_inv h).1.2 hs).2.2.1

theorem C7_invariant_A_witness :
    (newList (List.range 33)).root.isSlice = false ∧
    (newList (List.range 33)).origin + (newList (List.range 33)).size
      ≤ 32 ^ ((newList (List.range 33)).root.depth + 1) :=
  ⟨by decide, C7_invariant_A (newList (List.range 33)) _ (ReachH.newR _) (by decide)⟩

/-- C7 counterexample: `Prepend` on `NewList` of 33 values triggers the
top expansion, which places the new origin near the top of the enlarged
capacity — the resulting reachable trie-backed list has
`origin + size > 32 ^ depth`, so the claimed bound `32 ^ depth ≥
origin + size` fails in reachable states (only the one-level-looser
`32 ^ (depth + 1)` bound of `C7_invariant_A` holds). -/
theorem C7_cap_not_bounding :
    ∃ (l2 : GoList Nat) (c : Bool), ReachH l2 c ∧ l2.root.isSlice = false ∧
      32 ^ l2.root.depth < l2.origin + l2.size := by
  refine ⟨(newList (List.range 33)).prependGo 0 false, _,
    ReachH.prependR 0 (ReachH.newR (List.range 33)), by decide, by decide⟩

/-- C7, the minimality half: slicing one element out of `NewList` of 33
values gives a reachable trie-backed list whose root keeps depth 1 although
`32 ^ 0 = 1 ≥ origin + size` already: the root depth is also not the
minimum `d` with `32 ^ d ≥ origin + size`. -/
theorem C7_depth_not_minimal :
    ∃ l2, (newList (List.range 33)).sliceGo 0 1 false = some l2 ∧
      l2.root.isSlice = false ∧ l2.origin + l2.size ≤ 32 ^ 0 ∧ l2.root.depth = 1 := by
  refine ⟨_, rfl, rfl, by decide, rfl⟩

/-- C9 (amended): on every non-empty list, `ContainsFunc` with a nil
equality function reaches the `assert(equal != nil, …)` and terminates the
caller (a panic, modelled as `none`); it returns no boolean.  The empty
list is the exception the original claim missed
(`C9_empty_list_returns_false`). -/
theorem C9_nil_equal_panics {T : Type} [Inhabited T] (l : GoList T) (v : T)
    (hsz : l.size ≠ 0) : containsFuncGo l v none = none := by
  unfold containsFuncGo
  rw [if_neg hsz]

theorem C9_nil_equal_panics_witness :
    (newList ([5] : List Nat)).size ≠ 0 ∧
    containsFuncGo (newList ([5] : List Nat)) 0 none = none :=
  ⟨by decide, C9_nil_equal_panics (newList [5]) 0 (by decide)⟩

/-- C9 counterexample: on the empty list, `ContainsFunc` returns `false`
before the nil-equality assert is ever evaluated — with a nil equality
function it does return a boolean, not a panic. -/
theorem C9_empty_list_returns_false :
    containsFuncGo (newList ([] : List Nat)) 0 none = some false := rfl

theorem keepFirsts_nil {K V : Type} [DecidableEq K] (s : List K) :
    keepFirsts (V := V) s [] = [] := rfl

theorem keepFirsts_cons {K V : Type} [DecidableEq K] (s : List K) (e : MapEntry K V)
    (rest : List (MapEntry K V)) :
    keepFirsts s (e :: rest)
      = if e.key ∈ s then keepFirsts s rest else e :: keepFirsts (e.key :: s) rest := rfl

theorem lastWins_cons {K V : Type} [DecidableEq K] (e : MapEntry K V)
    (rest : List (MapEntry K V)) :
    lastWins (e :: rest)
      = if e.key ∈ rest.map MapEntry.key then lastWins rest else e :: lastWins rest := rfl

theorem keepFirsts_congr {K V : Type} [DecidableEq K] (l : List (MapEntry K V)) :
    ∀ s1 s2 : List K, (∀ k, k ∈ s1 ↔ k ∈ s2) → keepFirsts s1 l = keepFirsts s2 l := by
  induction l with
  | nil => intro s1 s2 h; rfl
  | cons e rest ih =>
      intro s1 s2 h
      rw [keepFirsts_cons, keepFirsts_cons]
      by_cases hm : e.key ∈ s2
      · rw [if_pos ((h e.key).mpr hm), if_pos hm]
        exact ih s1 s2 h
      · rw [if_neg (fun hc => hm ((h e.key).mp hc)), if_neg hm]
        rw [ih (e.key :: s1) (e.key :: s2) ?_]
        intro k
        simp only [List.mem_cons]
        rw [h k]

theorem keepFirsts_append {K V : Type} [DecidableEq K] (xs ys : List (MapEntry K V)) :
    ∀ s : List K, keepFirsts s (xs ++ ys)
      = keepFirsts s xs ++ keepFirsts (xs.map MapEntry.key ++ s) ys := by
  induction xs with
  | nil =>
      intro s
      simp [keepFirsts_nil]
  | cons x xs ih =>
      intro s
      rw [List.cons_append, keepFirsts_cons, keepFirsts_cons]
      by_cases hm : x.key ∈ s
      · rw [if_pos hm, if_pos hm, ih s]
        congr 1
        apply keepFirsts_congr
        intro k
        simp only [List.map_cons, List.cons_append, List.mem_cons, List.mem_append]
        constructor
        · rintro (h | h)
          · exact Or.inr (Or.inl h)
          · exact Or.inr (Or.inr h)
        · rintro (h | h | h)
          · subst h
            exact Or.inr hm
          · exact Or.inl h
          · exact Or.inr h
      · rw [if_neg hm, if_neg hm, ih (x.key :: s), List.cons_append]
        congr 2
        apply keepFirsts_congr
        intro k
        simp only [List.map_cons, List.cons_append, List.mem_cons, List.mem_append]
        constructor
        · rintro (h | h | h)
          · exact Or.inr (Or.inl h)
          · exact Or.inl h
          · exact Or.inr (Or.inr h)
        · rintro (h | h | h)
          · exact Or.inr (Or.inl h)
          · exact Or.inl h
          · exact Or.inr (Or.inr h)

theorem keepFirsts_reverse_eq_lastWins {K V : Type} [DecidableEq K]
    (l : List (MapEntry K V)) : (keepFirsts [] l.reverse).reverse = lastWins l := by
  induction l with
  | nil => rfl
  | cons e rest ih =>
      rw [List.reverse_cons, keepFirsts_append rest.reverse [e] [], lastWins_cons]
      have hsingle : ∀ s : List K, keepFirsts (V := V) s [e]
          = if e.key ∈ s then [] else [e] := by
        intro s
        rw [keepFirsts_cons, keepFirsts_nil, keepFirsts_nil]
      rw [hsingle, List.reverse_append, ih]
      have hmem : (e.key ∈ rest.reverse.map MapEntry.key ++ ([] : List K))
          ↔ e.key ∈ rest.map MapEntry.key := by
        simp
      by_cases hm : e.key ∈ rest.map MapEntry.key
      · rw [if_pos (hmem.mpr hm), if_pos hm]
        rfl
      · rw [if_neg (fun hc => hm (hmem.mp hc)), if_neg hm]
        rfl

theorem dedupTiny_eq_lastWins {K V : Type} [DecidableEq K] (buffer : List (MapEntry K V)) :
    dedupTiny none buffer = lastWins buffer := by
  have hfold : ∀ (l acc : List (MapEntry K V)),
      l.foldl (fun dedup e => if dedup.any (fun e2 => keyEq none e2.key e.key) then dedup
                              else dedup ++ [e]) acc
        = acc ++ keepFirsts (acc.map MapEntry.key) l := by
    intro l
    induction l with
    | nil => intro acc; simp [keepFirsts_nil]
    | cons e rest ih =>
        intro acc
        rw [List.foldl_cons, keepFirsts_cons]
        have hbridge : ((acc.any fun e2 => keyEq none e2.key e.key)
            = true) ↔ e.key ∈ acc.map MapEntry.key := by
          simp only [List.any_eq_true, keyEq, decide_eq_true_eq, List.mem_map]
        by_cases hm : e.key ∈ acc.map MapEntry.key
        · rw [if_pos (hbridge.mpr hm), if_pos hm, ih acc]
        · rw [if_neg (fun hc => hm (hbridge.mp hc)), if_neg hm, ih (acc ++ [e]),
            List.append_assoc, List.singleton_append]
          congr 2
          apply keepFirsts_congr
          intro k
          simp only [List.map_append, List.map_cons, List.map_nil, List.mem_append,
            List.mem_cons, List.not_mem_nil, or_false]
          constructor
          · rintro (h | h)
            · exact Or.inr h
            · exact Or.inl h
          · rintro (h | h)
            · exact Or.inr h
            · exact Or.inl h
  unfold dedupTiny
  rw [hfold buffer.reverse []]
  show (keepFirsts ([] : List K) buffer.reverse).reverse = _
  exact keepFirsts_reverse_eq_lastWins buffer

theorem dedupLarge_eq_lastWins {K V : Type} [DecidableEq K] (buffer : List (MapEntry K V)) :
    dedupLarge buffer = lastWins buffer := by
  have hfold : ∀ (l : List (MapEntry K V)) (s : List K) (out : List (MapEntry K V)),
      (l.foldl (fun (p : List K × List (MapEntry K V)) e =>
          if p.1.contains e.key then p else (e.key :: p.1, p.2 ++ [e])) (s, out)).2
        = out ++ keepFirsts s l := by
    intro l
    induction l with
    | nil => intro s out; simp [keepFirsts_nil]
    | cons e rest ih =>
        intro s out
        rw [List.foldl_cons, keepFirsts_cons]
        have hbridge : ((s, out).1.contains e.key = true) ↔ e.key ∈ s := List.elem_iff
        by_cases hm : e.key ∈ s
        · rw [if_pos (hbridge.mpr hm), if_pos hm]
          exact ih s out
        · rw [if_neg (fun hc => hm (hbridge.mp hc)), if_neg hm]
          show (rest.foldl _ (e.key :: s, out ++ [e])).2 = _
          rw [ih (e.key :: s) (out ++ [e]), List.append_assoc, List.singleton_append]
  unfold dedupLarge
  rw [hfold buffer.reverse [] []]
  show (keepFirsts ([] : List K) buffer.reverse).reverse = _
  exact keepFirsts_reverse_eq_lastWins buffer

theorem lastWins_ne_nil {K V : Type} [DecidableEq K] (l : List (MapEntry K V))
    (h : l ≠ []) : lastWins l ≠ [] := by
  induction l with
  | nil => exact absurd rfl h
  | cons e rest ih =>
      rw [lastWins_cons]
      by_cases hm : e.key ∈ rest.map MapEntry.key
      · rw [if_pos hm]
        apply ih
        intro hr
        rw [hr] at hm
        simp at hm
      · rw [if_neg hm]
        exact List.cons_ne_nil e _

theorem lastWins_keys {K V : Type} [DecidableEq K] (l : List (MapEntry K V)) :
    (lastWins l).map MapEntry.key = (l.map MapEntry.key).dedup := by
  induction l with
  | nil => rfl
  | cons e rest ih =>
      rw [lastWins_cons]
      by_cases hm : e.key ∈ rest.map MapEntry.key
      · rw [if_pos hm, ih, List.map_cons, List.dedup_cons_of_mem hm]
      · rw [if_neg hm, List.map_cons, List.map_cons, List.dedup_cons_of_not_mem hm, ih]

theorem find?_append_or {α : Type} (l1 l2 : List α) (p : α → Bool) :
    (l1 ++ l2).find? p = (l1.find? p).or (l2.find? p) := by
  induction l1 with
  | nil => rfl
  | cons a l1 ih =>
      by_cases hp : p a = true
      · rw [List.cons_append, List.find?_cons_of_pos _ hp, List.find?_cons_of_pos _ hp]
        rfl
      · rw [List.cons_append, List.find?_cons_of_neg _ (by simpa using hp),
          List.find?_cons_of_neg _ (by simpa using hp), ih]

theorem lastWins_find {K V : Type} [DecidableEq K] (l : List (MapEntry K V)) (k : K) :
    (lastWins l).find? (fun e => decide (e.key = k))
      = l.reverse.find? (fun e => decide (e.key = k)) := by
  induction l with
  | nil => rfl
  | cons e rest ih =>
      rw [List.reverse_cons, find?_append_or, lastWins_cons]
      by_cases hm : e.key ∈ rest.map MapEntry.key
      · rw [if_pos hm, ih]
        by_cases hp : e.key = k
        · have hsome : (rest.reverse.find? (fun e => decide (e.key = k))).isSome = true := by
            rw [List.find?_isSome]
            obtain ⟨x, hx, hkx⟩ := List.mem_map.mp hm
            exact ⟨x, List.mem_reverse.mpr hx, by simp [hkx, hp]⟩
          cases hfind : rest.reverse.find? (fun e => decide (e.key = k)) with
          | none => rw [hfind] at hsome; simp at hsome
          | some x => rfl
        · have h1 : ([e].find? fun e => decide (e.key = k)) = none := by
            simp [List.find?, hp]
          rw [h1]
          cases rest.reverse.find? (fun e => decide (e.key = k)) <;> rfl
      · by_cases hp : e.key = k
        · have hnone : (rest.reverse.find? (fun e => decide (e.key = k))) = none := by
            rw [List.find?_eq_none]
            intro x hx
            simp only [decide_eq_true_eq]
            intro hkx
            exact hm (List.mem_map.mpr ⟨x, List.mem_reverse.mp hx, by rw [hkx, hp]⟩)
          rw [if_neg hm, hnone, List.find?_cons_of_pos _ (by simpa using hp)]
          have h1 : ([e].find? fun e => decide (e.key = k)) = some e := by
            simp [List.find?, hp]
          rw [h1]
          rfl
        · rw [if_neg hm, List.find?_cons_of_neg _ (by simpa using hp), ih]
          have h1 : ([e].find? fun e => decide (e.key = k)) = none := by
            simp [List.find?, hp]
          rw [h1]
          cases rest.reverse.find? (fun e => decide (e.key = k)) <;> rfl

theorem mapGet_array_fst {K V : Type} [DecidableEq K] (hasher : Option (HasherF K))
    (entries : List (MapEntry K V)) (sz : Nat) (k : K) :
    (mapGet { root := some (.mapArrayNode entries), size := sz, hasher := hasher } k).1
      = (entries.find? (fun e => keyEq hasher e.key k)).map MapEntry.value := by
  unfold mapGet
  cases hf : entries.find? (fun e => keyEq hasher e.key k) <;> simp [hf]

/-- C4 (amended): `Flush` with a non-empty buffer over an empty map (no
custom hasher) installs the array node `lastWins buffer`: for each distinct
buffered key its last written value, the retained entries in order of their
last occurrence (not first-seen order — `C4_not_first_seen_order`), the
size the number of distinct keys, and a get of any key returning the last
value buffered for it. -/
theorem C4_flush_empty_root {K V : Type} [DecidableEq K] (b : BatchMapBuilder K V)
    (hroot : b.m.root = none) (hne : b.buffer ≠ []) (hhasher : b.m.hasher = none) :
    (bmbFlush b).m.root = some (MapNode.mapArrayNode (lastWins b.buffer)) ∧
    (lastWins b.buffer).map MapEntry.key = (b.buffer.map MapEntry.key).dedup ∧
    (bmbFlush b).m.size = (b.buffer.map MapEntry.key).dedup.length ∧
    (∀ k, (mapGet (bmbFlush b).m k).1
        = (b.buffer.reverse.find? (fun e => decide (e.key = k))).map MapEntry.value) := by
  have hlen0 : ¬ b.buffer.length = 0 := by
    intro h
    exact hne (List.length_eq_zero.mp h)
  have hD : (if b.buffer.length ≤ maxArrayMapSize then dedupTiny b.m.hasher b.buffer
      else dedupLarge b.buffer) = lastWins b.buffer := by
    rw [hhasher]
    split
    · exact dedupTiny_eq_lastWins b.buffer
    · exact dedupLarge_eq_lastWins b.buffer
  obtain ⟨e0, tl, he0⟩ : ∃ e0 tl, lastWins b.buffer = e0 :: tl := by
    cases hlw : lastWins b.buffer with
    | nil => exact absurd hlw (lastWins_ne_nil b.buffer hne)
    | cons e0 tl => exact ⟨e0, tl, rfl⟩
  have hflush : bmbFlush b
      = { b with
          buffer := ([] : List (MapEntry K V)),
          m := { root := some (.mapArrayNode (lastWins b.buffer)),
                 size := (lastWins b.buffer).length,
                 hasher := some (newHasher e0.key) } } := by
    unfold bmbFlush
    rw [if_neg hlen0]
    rw [hroot]
    show ({ b with
            buffer := ([] : List (MapEntry K V)),
            m := { root := some (.mapArrayNode (if b.buffer.length ≤ maxArrayMapSize
                     then dedupTiny b.m.hasher b.buffer else dedupLarge b.buffer)),
                   size := (if b.buffer.length ≤ maxArrayMapSize
                     then dedupTiny b.m.hasher b.buffer else dedupLarge b.buffer).length,
                   hasher := match b.m.hasher, (if b.buffer.length ≤ maxArrayMapSize
                     then dedupTiny b.m.hasher b.buffer else dedupLarge b.buffer) with
                     | none, e :: _ => some (newHasher e.key)
                     | h, _ => h } } : BatchMapBuilder K V) = _
    rw [hD, hhasher, he0]
  rw [hflush]
  refine ⟨by rw [he0], lastWins_keys b.buffer, ?_, ?_⟩
  · show (lastWins b.buffer).length = (b.buffer.map MapEntry.key).dedup.length
    rw [← lastWins_keys b.buffer, List.length_map]
  · intro k
    rw [show ({ b with
          buffer := ([] : List (MapEntry K V)),
          m := { root := some (.mapArrayNode (lastWins b.buffer)),
                 size := (lastWins b.buffer).length,
                 hasher := some (newHasher e0.key) } } : BatchMapBuilder K V).m
      = { root := some (.mapArrayNode (lastWins b.buffer)),
          size := (lastWins b.buffer).length,
          hasher := some (newHasher e0.key) } from rfl]
    rw [mapGet_array_fst]
    rw [show (fun e : MapEntry K V => keyEq (some (newHasher e0.key)) e.key k)
      = (fun e : MapEntry K V => decide (e.key = k)) from rfl]
    rw [lastWins_find]

theorem C4_flush_empty_root_witness :
    ((bmbSet (bmbSet (bmbSet (newBatchMapBuilder none 32 : BatchMapBuilder Nat String)
        1 "a") 2 "b") 1 "c").m.root = none ∧
     (bmbSet (bmbSet (bmbSet (newBatchMapBuilder none 32 : BatchMapBuilder Nat String)
        1 "a") 2 "b") 1 "c").buffer ≠ [] ∧
     (bmbSet (bmbSet (bmbSet (newBatchMapBuilder none 32 : BatchMapBuilder Nat String)
        1 "a") 2 "b") 1 "c").m.hasher = none) ∧
    ((bmbFlush (bmbSet (bmbSet (bmbSet
        (newBatchMapBuilder none 32 : BatchMapBuilder Nat String) 1 "a") 2 "b") 1 "c")).m.size
      = ((bmbSet (bmbSet (bmbSet (newBatchMapBuilder none 32 : BatchMapBuilder Nat String)
        1 "a") 2 "b") 1 "c").buffer.map MapEntry.key).dedup.length) :=
  ⟨⟨rfl, by intro h; exact absurd (congrArg List.length h) (by decide), rfl⟩,
    (C4_flush_empty_root _ rfl
      (by intro h; exact absurd (congrArg List.length h) (by decide)) rfl).2.2.1⟩

/-- C4 counterexample: flushing the buffer `[(1,"a"), (2,"b"), (1,"c")]`
into an empty map installs the entries with keys `[2, 1]` — the order of
the keys' last occurrences — while the first-seen order of the retained
keys, which the claim asserts, is `[1, 2]`. -/
theorem C4_not_first_seen_order :
    ∃ entries, (bmbFlush (bmbSet (bmbSet (bmbSet
        (newBatchMapBuilder none 32 : BatchMapBuilder Nat String) 1 "a") 2 "b") 1 "c")).m.root
      = some (MapNode.mapArrayNode entries) ∧
    entries.map MapEntry.key = [2, 1] ∧
    firstSeenKeys [1, 2, 1] = [1, 2] :=
  ⟨_, rfl, rfl, rfl⟩

/-- C5: `Flush` of nine distinct buffered keys into an empty map installs
an array node holding nine entries — above `maxArrayMapSize = 8` — with no
fall back to the per-entry set path: the ≤ 8 array-node invariant is
violated by the empty-root fast path. -/
theorem C5_flush_overfull_array :
    ∃ entries, (bmbFlush ((List.range 9).foldl (fun b i => bmbSet b i i)
        (newBatchMapBuilder none 32 : BatchMapBuilder Nat Nat))).m.root
      = some (MapNode.mapArrayNode entries) ∧
    entries.length = 9 ∧ maxArrayMapSize < entries.length :=
  ⟨_, rfl, rfl, by decide⟩

/-- C10: for every stored list, `Slice(0, Len(l))` takes the whole-range
shortcut: it returns the identical store and the identical list reference —
the same instance, not a copy. -/
theorem C10_slice_full_identity {T : Type} [Inhabited T] (st : Store T) (lref : Nat)
    (l : ListR) (h : st.lists[lref]? = some l) (mb : Bool) :
    listSliceS st lref 0 l.size mb = some (st, lref) := by
  unfold listSliceS
  rw [h]
  simp only []
  rw [if_neg (by omega), if_neg (by omega), if_neg (by omega), if_pos ⟨trivial, trivial⟩]

theorem C10_slice_full_identity_witness :
    ((Store.mk [NodeD.sliceD [7]] [ListR.mk 0 0 1] : Store Nat).lists[0]?
        = some (ListR.mk 0 0 1)) ∧
    listSliceS (Store.mk [NodeD.sliceD [7]] [ListR.mk 0 0 1] : Store Nat) 0 0 1 false
      = some (Store.mk [NodeD.sliceD [7]] [ListR.mk 0 0 1], 0) :=
  ⟨rfl, C10_slice_full_identity (Store.mk [NodeD.sliceD [7]] [ListR.mk 0 0 1]) 0
    (ListR.mk 0 0 1) rfl false⟩

theorem WFd_leaf_inv {T : Type} {d : Nat} {ch : Nat → T} {occ : Nat}
    (h : WFd d (ListNode.leafNode ch occ)) : d = 0 := by
  cases h
  rfl

theorem WFd_branch_inv {T : Type} {d d2 : Nat} {children : Nat → ListNode T}
    (h : WFd d (ListNode.branchNode d2 children)) :
    d2 = d ∧ 1 ≤ d ∧ (∀ j, j < 32 → WFd (d - 1) (children j)) := by
  cases h with
  | branchW _ _ hd hch => exact ⟨rfl, hd, hch⟩

/-- Along a live index, the descent path consists of branch nodes of the
expected depths down to a leaf at the bottom, each alive for `x`. -/
theorem path_struct {T : Type} [Inhabited T] {D : Nat} {root : ListNode T} (hwf : WFd D root)
    (x : Nat) (hs : (root.get x).isSome = true) :
    ∀ k, k ≤ D → WFd (D - k) (pathNode root x k) ∧
      ((pathNode root x k).get x).isSome = true ∧
      (k < D → ∃ ch2, pathNode root x k = ListNode.branchNode (D - k) ch2) ∧
      (k = D → ∃ ch occ, pathNode root x k = ListNode.leafNode ch occ) := by
  intro k
  induction k with
  | zero =>
      intro _
      refine ⟨by simpa using hwf, hs, ?_, ?_⟩
      · intro hlt
        cases hc : root with
        | nilNode => rw [hc] at hs; simp [ListNode.get] at hs
        | sliceNode es =>
            rw [hc] at hwf
            have := WFd.not_slice hwf
            simp [ListNode.isSlice] at this
        | leafNode ch occ =>
            rw [hc] at hwf
            have := WFd_leaf_inv hwf
            omega
        | branchNode d children =>
            rw [hc] at hwf
            obtain ⟨hde, _, _⟩ := WFd_branch_inv hwf
            exact ⟨children, by rw [hde]; rfl⟩
      · intro h0
        cases hc : root with
        | nilNode => rw [hc] at hs; simp [ListNode.get] at hs
        | sliceNode es =>
            rw [hc] at hwf
            have := WFd.not_slice hwf
            simp [ListNode.isSlice] at this
        | leafNode ch occ => exact ⟨ch, occ, rfl⟩
        | branchNode d children =>
            rw [hc] at hwf
            obtain ⟨hde, hd1, _⟩ := WFd_branch_inv hwf
            omega
  | succ k ih =>
      intro hk1
      obtain ⟨hwfk, hsk, hbr, _⟩ := ih (by omega)
      obtain ⟨ch2, hch2⟩ := hbr (by omega)
      rw [hch2] at hwfk hsk
      obtain ⟨_, _, hch⟩ := WFd_branch_inv hwfk
      have hpath : pathNode root x (k + 1) = ch2 (digit (D - k) x) := by
        show (match pathNode root x k with
          | .branchNode d children => children (digit d x)
          | n => n) = ch2 (digit (D - k) x)
        rw [hch2]
      have hsk2 : ((ch2 (digit (D - k) x)).get x).isSome = true := hsk
      have hwfc : WFd (D - (k + 1)) (ch2 (digit (D - k) x)) := by
        have h2 := hch (digit (D - k) x) (digit_lt _ x)
        have he : D - k - 1 = D - (k + 1) := by omega
        rw [he] at h2
        exact h2
      refine ⟨hpath ▸ hwfc, hpath ▸ hsk2, ?_, ?_⟩
      · intro hlt
        rw [hpath]
        cases hc : ch2 (digit (D - k) x) with
        | nilNode => rw [hc] at hsk2; simp [ListNode.get] at hsk2
        | sliceNode es =>
            rw [hc] at hwfc
            have := WFd.not_slice hwfc
            simp [ListNode.isSlice] at this
        | leafNode ch occ =>
            rw [hc] at hwfc
            have := WFd_leaf_inv hwfc
            omega
        | branchNode d children =>
            rw [hc] at hwfc
            obtain ⟨hde, _, _⟩ := WFd_branch_inv hwfc
            exact ⟨children, by rw [hde]⟩
      · intro heq
        rw [hpath]
        cases hc : ch2 (digit (D - k) x) with
        | nilNode => rw [hc] at hsk2; simp [ListNode.get] at hsk2
        | sliceNode es =>
            rw [hc] at hwfc
            have := WFd.not_slice hwfc
            simp [ListNode.isSlice] at this
        | leafNode ch occ => exact ⟨ch, occ, rfl⟩
        | branchNode d children =>
            rw [hc] at hwfc
            obtain ⟨hde, hd1, _⟩ := WFd_branch_inv hwfc
            omega

/-- `get` reads through the descent path: the value at `x` read from the
root equals the read from any node on `x`'s path. -/
theorem get_eq_path {T : Type} [Inhabited T] {D : Nat} {root : ListNode T} (hwf : WFd D root)
    (x : Nat) (hs : (root.get x).isSome = true) :
    ∀ k, k ≤ D → root.get x = (pathNode root x k).get x := by
  intro k
  induction k with
  | zero => intro _; rfl
  | succ k ih =>
      intro hk1
      obtain ⟨hwfk, hsk, hbr, _⟩ := path_struct hwf x hs k (by omega)
      obtain ⟨ch2, hch2⟩ := hbr (by omega)
      have hpath : pathNode root x (k + 1) = ch2 (digit (D - k) x) := by
        show (match pathNode root x k with
          | .branchNode d children => children (digit d x)
          | n => n) = ch2 (digit (D - k) x)
        rw [hch2]
      rw [ih (by omega), hch2, hpath]
      rfl


theorem seekLow_succ {T : Type} [Inhabited T] (fuel : Nat) (itr : ListIter T) :
    ListIter.seekLow (fuel + 1) itr = (if itr.list.root.isSlice = true then some itr else match (itr.stack itr.depth).1 with | .branchNode _ children => ListIter.seekLow fuel (seekDescend itr children) | .leafNode _ _ => some { itr with stack := seekStack2 itr } | _ => none) := rfl

theorem seekStack2_eq {T : Type} (itr : ListIter T) (k : Nat) :
    seekStack2 itr k = if k = itr.depth
      then ((itr.stack itr.depth).1,
        digit (itr.stack itr.depth).1.depth (itr.list.origin + itr.index))
      else itr.stack k := rfl

theorem seekDescend_stack {T : Type} (itr : ListIter T) (children : Nat → ListNode T)
    (k : Nat) :
    (seekDescend itr children).stack k = if k = itr.depth + 1
      then (children (digit (itr.stack itr.depth).1.depth (itr.list.origin + itr.index)), 0)
      else seekStack2 itr k := rfl

/-- The lowercase `seek` loop: from a stack whose prefix already follows
`x`'s path, it descends to the leaf, recording each level's node and digit
of `x`, given one fuel unit per remaining level. -/
theorem seekLow_spec {T : Type} [Inhabited T] (l : GoList T) (D : Nat) (x : Nat)
    (hns : l.root.isSlice = false) (hwf : WFd D l.root)
    (hs : (l.root.get x).isSome = true) :
    ∀ fuel itr, itr.list = l → x = l.origin + itr.index →
      itr.depth ≤ D →
      ((itr.stack itr.depth).1 = pathNode l.root x itr.depth) →
      (∀ k, k < itr.depth → (itr.stack k).1 = pathNode l.root x k ∧
        (itr.stack k).2 = digit (D - k) x) →
      D - itr.depth + 1 ≤ fuel →
      ∃ itr2, ListIter.seekLow fuel itr = some itr2 ∧ itr2.list = l ∧
        itr2.index = itr.index ∧ itr2.depth = D ∧
        (∀ k, k ≤ D → (itr2.stack k).1 = pathNode l.root x k ∧
          (itr2.stack k).2 = digit (D - k) x) := by
  intro fuel
  induction fuel with
  | zero =>
      intro itr _ _ hdep _ _ hfuel
      omega
  | succ fuel ih =>
      intro itr hlist hx hdep hnode hpref hfuel
      have hcond : ¬ itr.list.root.isSlice = true := by
        rw [hlist, hns]
        simp
      rw [seekLow_succ, if_neg hcond]
      by_cases hde : itr.depth = D
      · obtain ⟨_, _, _, hleaf⟩ := path_struct hwf x hs itr.depth (by omega)
        obtain ⟨ch, occ, hch⟩ := hleaf hde
        have hnd : (itr.stack itr.depth).1 = ListNode.leafNode ch occ := by
          rw [hnode, hch]
        rw [hnd]
        refine ⟨_, rfl, hlist, rfl, by simpa using hde, ?_⟩
        intro k hk
        rw [show ({ itr with stack := seekStack2 itr } : ListIter T).stack k
          = seekStack2 itr k from rfl, seekStack2_eq]
        by_cases hkd : k = itr.depth
        · rw [if_pos hkd]
          constructor
          · rw [hkd]
            exact hnode
          · show digit (itr.stack itr.depth).1.depth (itr.list.origin + itr.index)
              = digit (D - k) x
            rw [hnd, hlist, ← hx, hkd, hde]
            show digit 0 x = digit (D - D) x
            rw [Nat.sub_self]
        · rw [if_neg hkd]
          exact hpref k (by omega)
      · have hlt : itr.depth < D := by omega
        obtain ⟨_, _, hbr, _⟩ := path_struct hwf x hs itr.depth (by omega)
        obtain ⟨ch2, hch2⟩ := hbr hlt
        have hnd : (itr.stack itr.depth).1 = ListNode.branchNode (D - itr.depth) ch2 := by
          rw [hnode, hch2]
        rw [hnd]
        have hdig : digit (itr.stack itr.depth).1.depth (itr.list.origin + itr.index)
            = digit (D - itr.depth) x := by
          rw [hnd, hlist, ← hx]
          rfl
        have hpath1 : pathNode l.root x (itr.depth + 1) = ch2 (digit (D - itr.depth) x) := by
          show (match pathNode l.root x itr.depth with
            | .branchNode d children => children (digit d x)
            | n => n) = ch2 (digit (D - itr.depth) x)
          rw [hch2]
        have hn2 : ((seekDescend itr ch2).stack (seekDescend itr ch2).depth).1
            = pathNode l.root x (itr.depth + 1) := by
          rw [show (seekDescend itr ch2).depth = itr.depth + 1 from rfl,
            seekDescend_stack, if_pos rfl]
          show ch2 (digit (itr.stack itr.depth).1.depth (itr.list.origin + itr.index))
            = pathNode l.root x (itr.depth + 1)
          rw [hdig, hpath1]
        have hp2 : ∀ k, k < itr.depth + 1 →
            ((seekDescend itr ch2).stack k).1 = pathNode l.root x k ∧
            ((seekDescend itr ch2).stack k).2 = digit (D - k) x := by
          intro k hk
          rw [seekDescend_stack, if_neg (by omega : ¬ k = itr.depth + 1), seekStack2_eq]
          by_cases hkd : k = itr.depth
          · rw [if_pos hkd]
            constructor
            · rw [hkd]
              exact hnode
            · show digit (itr.stack itr.depth).1.depth (itr.list.origin + itr.index)
                = digit (D - k) x
              rw [hdig, hkd]
          · rw [if_neg hkd]
            exact hpref k (by omega)
        obtain ⟨itr2, he, h1, h2, h3, h4⟩ := ih (seekDescend itr ch2)
          hlist hx (by show itr.depth + 1 ≤ D; omega) hn2 hp2
          (by show D - (itr.depth + 1) + 1 ≤ fuel; omega)
        exact ⟨itr2, he, h1, h2, h3, h4⟩

/-- Below a digit position where every digit is 31, the remainder is
saturated. -/
theorem mod_all31 {x m : Nat} (h31 : ∀ t, t < m → digit t x = 31) :
    x % 32 ^ m = 32 ^ m - 1 := by
  induction m with
  | zero => exact Nat.mod_one x
  | succ m ih =>
      have hdec := mod_decomp m x
      have hm := ih (fun t ht => h31 t (by omega))
      have h31m := h31 m (by omega)
      have hp : (32 : Nat) ^ (m + 1) = 32 ^ m * 32 := pow_succ 32 m
      have hpos : (0 : Nat) < 32 ^ m := pow32_pos m
      rw [hdec, hm, h31m]
      omega

/-- Incrementing a number whose digits below position `m` are all 31 and
whose digit at `m` is below 31: the low digits reset, the digit at `m`
steps up, everything above is untouched. -/
theorem succ_digits {x m : Nat} (h31 : ∀ t, t < m → digit t x = 31)
    (hm : digit m x < 31) :
    (x + 1) % 32 ^ m = 0 ∧
    (x + 1) / 32 ^ m = x / 32 ^ m + 1 ∧
    digit m (x + 1) = digit m x + 1 ∧
    (∀ t, m < t → digit t (x + 1) = digit t x) := by
  have hpos : (0 : Nat) < 32 ^ m := pow32_pos m
  have hmod := mod_all31 h31
  have hdm := Nat.div_add_mod x (32 ^ m)
  have hx1 : x + 1 = 32 ^ m * (x / 32 ^ m + 1) := by
    rw [Nat.mul_add, Nat.mul_one]
    omega
  have c1 : (x + 1) % 32 ^ m = 0 := by
    rw [hx1]
    exact Nat.mul_mod_right _ _
  have c2 : (x + 1) / 32 ^ m = x / 32 ^ m + 1 := by
    rw [hx1]
    exact Nat.mul_div_cancel_left _ hpos
  have hq : x / 32 ^ m % 32 < 31 := hm
  have key1 : ∀ q : Nat, q % 32 < 31 → (q + 1) / 32 = q / 32 := by
    intro q hqlt
    omega
  have key2 : ∀ q : Nat, q % 32 < 31 → (q + 1) % 32 = q % 32 + 1 := by
    intro q hqlt
    omega
  have c25 : (x / 32 ^ m + 1) / 32 = x / 32 ^ m / 32 := key1 _ hq
  have c3 : digit m (x + 1) = digit m x + 1 := by
    unfold digit
    rw [c2, key2 _ hq]
  have cdiv : (x + 1) / 32 ^ (m + 1) = x / 32 ^ (m + 1) := by
    have hsplit : (32 : Nat) ^ (m + 1) = 32 ^ m * 32 := pow_succ 32 m
    rw [hsplit, ← Nat.div_div_eq_div_mul, ← Nat.div_div_eq_div_mul, c2, c25]
  refine ⟨c1, c2, c3, ?_⟩
  intro t ht
  unfold digit
  have hsplit : (32 : Nat) ^ t = 32 ^ (m + 1) * 32 ^ (t - (m + 1)) := by
    rw [← pow_add]
    congr 1
    omega
  rw [hsplit, ← Nat.div_div_eq_div_mul, ← Nat.div_div_eq_div_mul, cdiv]

/-- `popSat` pops exactly the saturated suffix of the stack: the result is
at most the input depth, everything strictly above it (up to the input
depth) is saturated, and either it hit the bottom or it rests on an
unsaturated slot. -/
theorem popSat_spec {T : Type} (stack : Nat → ListNode T × Nat) :
    ∀ d, ListIter.popSat stack d ≤ d ∧
      (∀ k, ListIter.popSat stack d < k → k ≤ d → (stack k).2 ≥ 31) ∧
      (ListIter.popSat stack d = 0 ∨ (stack (ListIter.popSat stack d)).2 < 31) := by
  intro d
  induction d with
  | zero => exact ⟨le_rfl, fun k h1 h2 => by omega, Or.inl rfl⟩
  | succ d ih =>
      by_cases hsat : (stack (d + 1)).2 ≥ 31
      · have hstep : ListIter.popSat stack (d + 1) = ListIter.popSat stack d := by
          show (if (stack (d + 1)).2 ≥ 31 then ListIter.popSat stack d else d + 1)
            = ListIter.popSat stack d
          rw [if_pos hsat]
        rw [hstep]
        obtain ⟨i1, i2, i3⟩ := ih
        refine ⟨by omega, ?_, i3⟩
        intro k h1 h2
        by_cases hk : k = d + 1
        · rw [hk]
          exact hsat
        · exact i2 k h1 (by omega)
      · have hstep : ListIter.popSat stack (d + 1) = d + 1 := by
          show (if (stack (d + 1)).2 ≥ 31 then ListIter.popSat stack d else d + 1) = d + 1
          rw [if_neg hsat]
        rw [hstep]
        exact ⟨le_rfl, fun k h1 h2 => by omega, Or.inr (by omega)⟩

/-- Two addresses whose digits agree at every level read by the first `k0`
descent steps share the descent path down to step `k0`. -/
theorem pathNode_congr {T : Type} [Inhabited T] {D : Nat} {root : ListNode T} {x x2 : Nat}
    (hwf : WFd D root) (hs : (root.get x).isSome = true) (k0 : Nat)
    (heq : ∀ j, j < k0 → digit (D - j) x2 = digit (D - j) x) :
    ∀ k, k ≤ k0 → k ≤ D → pathNode root x2 k = pathNode root x k := by
  intro k
  induction k with
  | zero => intro _ _; rfl
  | succ k ih =>
      intro hk0 hkD
      obtain ⟨_, _, hbr, _⟩ := path_struct hwf x hs k (by omega)
      obtain ⟨ch2, hch2⟩ := hbr (by omega)
      show (match pathNode root x2 k with
        | .branchNode d children => children (digit d x2)
        | n => n)
        = (match pathNode root x k with
        | .branchNode d children => children (digit d x)
        | n => n)
      rw [ih (by omega) (by omega), hch2]
      show ch2 (digit (D - k) x2) = ch2 (digit (D - k) x)
      rw [heq k (by omega)]

/-- One `Next` step on a fully seeked trie iterator inside the window:
it yields the element at the current index, advances the index, and — when
more elements remain — leaves the iterator fully seeked at the next
index. -/
theorem next_spec {T : Type} [Inhabited T] {l : GoList T} {i : Nat} {itr : ListIter T}
    (hwf : listWF l) (hns : l.root.isSlice = false) (hD : l.root.depth ≤ 32)
    (hsk : Seeked l i itr) (hi : i < l.size) :
    ∃ itr2 v, itr.next = some (itr2, v) ∧ l.get i = some v ∧
      itr2.list = l ∧ itr2.index = i + 1 ∧
      (i + 1 < l.size → Seeked l (i + 1) itr2) := by
  obtain ⟨hsl, htr⟩ := hwf
  obtain ⟨hwfd, hnil, hA, hwin⟩ := htr hns
  obtain ⟨hlist, hidx, hdep, hstk⟩ := hsk
  have hs : (l.root.get (l.origin + i)).isSome = true := hwin _ (by omega) (by omega)
  obtain ⟨_, _, _, hleaf⟩ := path_struct hwfd (l.origin + i) hs l.root.depth le_rfl
  obtain ⟨ch, occ, hch⟩ := hleaf rfl
  obtain ⟨hA1, hA2⟩ := hstk l.root.depth le_rfl
  have hpair : itr.stack itr.depth = (ListNode.leafNode ch occ, digit 0 (l.origin + i)) := by
    rw [hdep]
    have he : itr.stack l.root.depth
        = ((itr.stack l.root.depth).1, (itr.stack l.root.depth).2) := rfl
    rw [he, hA1, hA2, hch, Nat.sub_self]
  have hvget : l.root.get (l.origin + i) = some (ch ((l.origin + i) % 32)) := by
    have hgp := get_eq_path hwfd (l.origin + i) hs l.root.depth le_rfl
    rw [hgp, hch]
    rfl
  have hdig0 : digit 0 (l.origin + i) = (l.origin + i) % 32 := by
    unfold digit
    rw [pow_zero, Nat.div_one]
  have hv : l.get i = some (ch ((l.origin + i) % 32)) := by
    rw [get_eq_trie hns, if_neg (by omega), hvget]
  have hdone : ¬ itr.done = true := by
    show ¬ decide (itr.index ≥ itr.list.size) = true
    rw [hlist, hidx]
    simp only [ge_iff_le, decide_eq_true_eq, not_le]
    omega
  have h32 : ¬ digit 0 (l.origin + i) ≥ 32 := by
    have := digit_lt 0 (l.origin + i)
    omega
  have hmatch : ListIter.next itr =
      (match itr.stack itr.depth with
       | (.leafNode children _, idx) =>
           if idx ≥ 32 then none
           else
             let v := children idx
             let itr2 := { itr with index := itr.index + 1 }
             if itr2.done then some (itr2, v)
             else
               let d2 := ListIter.popSat itr2.stack itr2.depth
               (ListIter.seekLow 33 { itr2 with depth := d2 }).map (fun it => (it, v))
       | _ => none) := by
    unfold ListIter.next
    rw [if_neg hdone, hlist]
    cases hroot : l.root with
    | nilNode => simp [hroot, ListNode.isNil] at hnil
    | sliceNode es => simp [hroot, ListNode.isSlice] at hns
    | leafNode a b => rfl
    | branchNode a b => rfl
  by_cases hlast : l.size ≤ i + 1
  · refine ⟨{ itr with index := itr.index + 1 }, ch (digit 0 (l.origin + i)),
      ?_, ?_, ?_, ?_, ?_⟩
    · rw [hmatch, hpair]
      show (if digit 0 (l.origin + i) ≥ 32 then none
        else
          let v := ch (digit 0 (l.origin + i))
          let itr2 : ListIter T := { itr with index := itr.index + 1 }
          if itr2.done then some (itr2, v)
          else
            let d2 := ListIter.popSat itr2.stack itr2.depth
            (ListIter.seekLow 33 { itr2 with depth := d2 }).map (fun it => (it, v)))
        = some ({ itr with index := itr.index + 1 }, ch (digit 0 (l.origin + i)))
      rw [if_neg h32]
      have hdone2 : (({ itr with index := itr.index + 1 } : ListIter T)).done = true := by
        show decide (itr.index + 1 ≥ itr.list.size) = true
        rw [hlist, hidx]
        simp only [ge_iff_le, decide_eq_true_eq]
        omega
      show (if ({ itr with index := itr.index + 1 } : ListIter T).done
          then some (({ itr with index := itr.index + 1 } : ListIter T),
            ch (digit 0 (l.origin + i)))
          else
            (ListIter.seekLow 33
              { itr with index := itr.index + 1,
                         depth := ListIter.popSat itr.stack itr.depth }).map
              (fun it => (it, ch (digit 0 (l.origin + i)))))
        = some ({ itr with index := itr.index + 1 }, ch (digit 0 (l.origin + i)))
      rw [if_pos hdone2]
    · rw [hdig0]
      exact hv
    · exact hlist
    · show itr.index + 1 = i + 1
      rw [hidx]
    · intro hcon
      omega
  · obtain ⟨hp1, hp2, hp3⟩ := popSat_spec itr.stack l.root.depth
    have h31 : ∀ t, t < l.root.depth - ListIter.popSat itr.stack l.root.depth →
        digit t (l.origin + i) = 31 := by
      intro t ht
      have hk := hp2 (l.root.depth - t) (by omega) (by omega)
      have hk2 := (hstk (l.root.depth - t) (by omega)).2
      rw [hk2] at hk
      rw [show l.root.depth - (l.root.depth - t) = t from by omega] at hk
      have hlt := digit_lt t (l.origin + i)
      omega
    have hmlt : digit (l.root.depth - ListIter.popSat itr.stack l.root.depth)
        (l.origin + i) < 31 := by
      rcases hp3 with h0 | hlt31
      · rw [h0, Nat.sub_zero]
        by_contra hge
        have h31D : digit l.root.depth (l.origin + i) = 31 := by
          have := digit_lt l.root.depth (l.origin + i)
          omega
        rw [h0] at h31
        simp only [Nat.sub_zero] at h31
        have hall : ∀ t, t < l.root.depth + 1 → digit t (l.origin + i) = 31 := by
          intro t ht
          by_cases htD : t = l.root.depth
          · rw [htD]
            exact h31D
          · exact h31 t (by omega)
        have hmod := mod_all31 hall
        have hxlt : l.origin + i < 32 ^ (l.root.depth + 1) := by omega
        rw [Nat.mod_eq_of_lt hxlt] at hmod
        have hpos := pow32_pos (l.root.depth + 1)
        omega
      · have hk2 := (hstk (ListIter.popSat itr.stack l.root.depth) hp1).2
        rw [hk2] at hlt31
        exact hlt31
    obtain ⟨hc1, hc2, hc3, hc4⟩ := succ_digits h31 hmlt
    have hs2 : (l.root.get (l.origin + i + 1)).isSome = true := hwin _ (by omega) (by omega)
    have hcong : ∀ j, j < ListIter.popSat itr.stack l.root.depth →
        digit (l.root.depth - j) (l.origin + i + 1) = digit (l.root.depth - j) (l.origin + i) := by
      intro j hj
      exact hc4 (l.root.depth - j) (by omega)
    have hpathc := pathNode_congr hwfd hs (ListIter.popSat itr.stack l.root.depth) hcong
    obtain ⟨itr3, hse, hl3, hi3, hd3, hst3⟩ :=
      seekLow_spec l l.root.depth (l.origin + i + 1) hns hwfd hs2 33
        { itr with index := itr.index + 1,
                   depth := ListIter.popSat itr.stack l.root.depth }
        hlist
        (by show l.origin + i + 1 = l.origin + (itr.index + 1); rw [hidx]; omega)
        hp1
        (by
          show (itr.stack (ListIter.popSat itr.stack l.root.depth)).1
            = pathNode l.root (l.origin + i + 1) (ListIter.popSat itr.stack l.root.depth)
          rw [(hstk _ hp1).1, hpathc _ le_rfl hp1])
        (by
          intro k hk
          have hk2 : k < ListIter.popSat itr.stack l.root.depth := hk
          show (itr.stack k).1 = pathNode l.root (l.origin + i + 1) k ∧
            (itr.stack k).2 = digit (l.root.depth - k) (l.origin + i + 1)
          have hk1 := hstk k (by omega)
          refine ⟨?_, ?_⟩
          · rw [hk1.1, hpathc k (by omega) (by omega)]
          · rw [hk1.2, hcong k hk2])
        (by show l.root.depth - ListIter.popSat itr.stack l.root.depth + 1 ≤ 33; omega)
    refine ⟨itr3, ch (digit 0 (l.origin + i)), ?_, ?_, hl3, ?_, ?_⟩
    · rw [hmatch, hpair]
      show (if digit 0 (l.origin + i) ≥ 32 then none
        else
          let v := ch (digit 0 (l.origin + i))
          let itr2 : ListIter T := { itr with index := itr.index + 1 }
          if itr2.done then some (itr2, v)
          else
            let d2 := ListIter.popSat itr2.stack itr2.depth
            (ListIter.seekLow 33 { itr2 with depth := d2 }).map (fun it => (it, v)))
        = some (itr3, ch (digit 0 (l.origin + i)))
      rw [if_neg h32]
      have hdone2 : ¬ (({ itr with index := itr.index + 1 } : ListIter T)).done = true := by
        show ¬ decide (itr.index + 1 ≥ itr.list.size) = true
        rw [hlist, hidx]
        simp only [ge_iff_le, decide_eq_true_eq, not_le]
        omega
      show (if ({ itr with index := itr.index + 1 } : ListIter T).done
          then some (({ itr with index := itr.index + 1 } : ListIter T),
            ch (digit 0 (l.origin + i)))
          else
            (ListIter.seekLow 33
              { itr with index := itr.index + 1,
                         depth := ListIter.popSat itr.stack itr.depth }).map
              (fun it => (it, ch (digit 0 (l.origin + i)))))
        = some (itr3, ch (digit 0 (l.origin + i)))
      rw [if_neg hdone2, hdep, hse]
      rfl
    · rw [hdig0]
      exact hv
    · rw [hi3]
      show itr.index + 1 = i + 1
      rw [hidx]
    · intro _
      refine ⟨hl3, ?_, hd3, ?_⟩
      · rw [hi3]
        show itr.index + 1 = i + 1
        rw [hidx]
      · intro k hk
        exact hst3 k hk

theorem iterDrain_succ {T : Type} [Inhabited T] (n : Nat) (itr : ListIter T) :
    iterDrain (n + 1) itr = if itr.done then some []
      else itr.next.bind (fun p => (iterDrain n p.1).bind (fun rest => some (p.2 :: rest))) :=
  rfl

/-- Draining a fully seeked trie iterator with one fuel unit per remaining
element collects exactly the window reads from the current index on. -/
theorem iterDrain_trie_spec {T : Type} [Inhabited T] {l : GoList T}
    (hwf : listWF l) (hns : l.root.isSlice = false) (hD : l.root.depth ≤ 32) :
    ∀ n i itr, itr.list = l → itr.index = i → i + n = l.size →
      (i < l.size → Seeked l i itr) →
      ∃ vs : List T, iterDrain n itr = some vs ∧ vs.length = n ∧
        (∀ k, k < n → vs[k]? = l.get (i + k)) := by
  intro n
  induction n with
  | zero =>
      intro i itr hlist hidx hsz _
      have hdone : itr.done = true := by
        show decide (itr.index ≥ itr.list.size) = true
        rw [hlist, hidx]
        simp only [ge_iff_le, decide_eq_true_eq]
        omega
      refine ⟨[], ?_, rfl, by intro k hk; omega⟩
      show (if itr.done then some [] else none) = some []
      rw [if_pos hdone]
  | succ n ih =>
      intro i itr hlist hidx hsz hseek
      have hilt : i < l.size := by omega
      obtain ⟨itr2, v, hnexteq, hgv, hl2, hi2, hsk2⟩ :=
        next_spec hwf hns hD (hseek hilt) hilt
      obtain ⟨rest, hr1, hr2, hr3⟩ := ih (i + 1) itr2 hl2 hi2 (by omega) hsk2
      have hdone2 : ¬ itr.done = true := by
        show ¬ decide (itr.index ≥ itr.list.size) = true
        rw [hlist, hidx]
        simp only [ge_iff_le, decide_eq_true_eq, not_le]
        omega
      refine ⟨v :: rest, ?_, by simp [hr2], ?_⟩
      · rw [iterDrain_succ, if_neg hdone2, hnexteq]
        show Option.bind (iterDrain n itr2) (fun rest => some (v :: rest)) = some (v :: rest)
        rw [hr1]
        rfl
      · intro k hk
        match k with
        | 0 =>
            rw [List.getElem?_cons_zero, Nat.add_zero, hgv]
        | k + 1 =>
            rw [List.getElem?_cons_succ, hr3 k (by omega),
              show i + 1 + k = i + (k + 1) from by omega]

/-- Draining a slice-rooted iterator collects the buffer reads from the
current index on (no seeking is involved). -/
theorem iterDrain_slice_spec {T : Type} [Inhabited T] {l : GoList T} {es : List T}
    (hroot : l.root = .sliceNode es) (hwf : listWF l) :
    ∀ n i itr, itr.list = l → itr.index = i → i + n = l.size →
      ∃ vs : List T, iterDrain n itr = some vs ∧ vs.length = n ∧
        (∀ k, k < n → vs[k]? = l.get (i + k)) := by
  intro n
  induction n with
  | zero =>
      intro i itr hlist hidx hsz
      have hdone : itr.done = true := by
        show decide (itr.index ≥ itr.list.size) = true
        rw [hlist, hidx]
        simp only [ge_iff_le, decide_eq_true_eq]
        omega
      refine ⟨[], ?_, rfl, by intro k hk; omega⟩
      show (if itr.done then some [] else none) = some []
      rw [if_pos hdone]
  | succ n ih =>
      intro i itr hlist hidx hsz
      have hilt : i < l.size := by omega
      have hes : i < es.length := by
        have := (hwf.1 es hroot).2
        omega
      have hv : es[i]? = some es[i] := List.getElem?_eq_getElem hes
      have hdone2 : ¬ itr.done = true := by
        show ¬ decide (itr.index ≥ itr.list.size) = true
        rw [hlist, hidx]
        simp only [ge_iff_le, decide_eq_true_eq, not_le]
        omega
      have hnexteq : itr.next = some ({ itr with index := itr.index + 1 }, es[i]) := by
        unfold ListIter.next
        rw [if_neg hdone2, show itr.list.root = ListNode.sliceNode es from by rw [hlist, hroot]]
        show (match es[itr.index]? with
          | none => none
          | some v => some ({ itr with index := itr.index + 1 }, v))
          = some ({ itr with index := itr.index + 1 }, es[i])
        rw [hidx, hv]
      have hgv : l.get i = some es[i] := by
        unfold GoList.get
        rw [if_neg (by omega), hroot]
        exact hv
      obtain ⟨rest, hr1, hr2, hr3⟩ := ih (i + 1) ({ itr with index := itr.index + 1 })
        hlist (by show itr.index + 1 = i + 1; rw [hidx]) (by omega)
      refine ⟨es[i] :: rest, ?_, by simp [hr2], ?_⟩
      · rw [iterDrain_succ, if_neg hdone2, hnexteq]
        show Option.bind (iterDrain n { itr with index := itr.index + 1 })
          (fun rest => some (es[i] :: rest)) = some (es[i] :: rest)
        rw [hr1]
        rfl
      · intro k hk
        match k with
        | 0 =>
            rw [List.getElem?_cons_zero, Nat.add_zero, hgv]
        | k + 1 =>
            rw [List.getElem?_cons_succ, hr3 k (by omega),
              show i + 1 + k = i + (k + 1) from by omega]

/-- `First` on a fresh iterator of a non-empty list succeeds, rests at
index 0, and on a trie root is fully seeked there. -/
theorem first_spec {T : Type} [Inhabited T] {l : GoList T}
    (hwf : listWF l) (hD : l.root.depth ≤ 32) (hsz : 0 < l.size) :
    ∃ itr, (mkIter l).first = some itr ∧ itr.list = l ∧ itr.index = 0 ∧
      (l.root.isSlice = false → Seeked l 0 itr) := by
  have hcond : (mkIter l).list.size ≠ 0 := by
    show l.size ≠ 0
    omega
  have hfirst : (mkIter l).first = ListIter.seek (mkIter l) 0 := by
    unfold ListIter.first
    rw [if_pos hcond]
  have hseek : ListIter.seek (mkIter l) 0 = ListIter.seekLow 33
      (ListIter.mk (mkIter l).list 0
        (fun k => if k = 0 then ((mkIter l).list.root, 0) else (mkIter l).stack k) 0) := by
    unfold ListIter.seek
    rw [if_neg (by show ¬ 0 ≥ l.size; omega)]
  by_cases hsl : l.root.isSlice = true
  · refine ⟨ListIter.mk (mkIter l).list 0
      (fun k => if k = 0 then ((mkIter l).list.root, 0) else (mkIter l).stack k) 0,
      ?_, rfl, rfl, ?_⟩
    · rw [hfirst, hseek, seekLow_succ,
        if_pos (show (ListIter.mk (mkIter l).list 0
          (fun k => if k = 0 then ((mkIter l).list.root, 0) else (mkIter l).stack k)
          0).list.root.isSlice = true from hsl)]
    · intro hc
      simp [hc] at hsl
  · have hns : l.root.isSlice = false := by
      cases h : l.root.isSlice
      · rfl
      · exact absurd h hsl
    obtain ⟨_, htr⟩ := hwf
    obtain ⟨hwfd, hnil, hA, hwin⟩ := htr hns
    have hs : (l.root.get (l.origin + 0)).isSome = true := hwin _ (by omega) (by omega)
    obtain ⟨itr2, hse, hl2, hi2, hd2, hst2⟩ :=
      seekLow_spec l l.root.depth (l.origin + 0) hns hwfd hs 33
        (ListIter.mk (mkIter l).list 0
          (fun k => if k = 0 then ((mkIter l).list.root, 0) else (mkIter l).stack k) 0)
        rfl rfl (Nat.zero_le _) rfl
        (by intro k hk; exact absurd (show k < 0 from hk) (by omega))
        (by show l.root.depth - 0 + 1 ≤ 33; omega)
    refine ⟨itr2, ?_, hl2, hi2, ?_⟩
    · rw [hfirst, hseek, hse]
    · intro _
      exact ⟨hl2, hi2, hd2, hst2⟩

/-- `reverseList` of `queue.go` builds a fresh well-formed list holding the
receiver's elements in reverse order. -/
theorem reverseListGo_spec {T : Type} [Inhabited T] {l : GoList T}
    (hwf : listWF l) (hD : l.root.depth ≤ 32) :
    ∃ l2, reverseListGo l = some l2 ∧ listWF l2 ∧ l2.size = l.size ∧
      (∀ k, k < l.size → l2.get k = l.get (l.size - 1 - k)) := by
  by_cases hsz : l.size = 0
  · refine ⟨newList [], ?_, (newList_spec ([] : List T)).1, ?_, ?_⟩
    · unfold reverseListGo
      rw [if_pos hsz]
    · rw [(newList_spec ([] : List T)).2.1, hsz]
      rfl
    · intro k hk
      omega
  · obtain ⟨itr, hfe, hlist, hidx, hsk⟩ := first_spec hwf hD (by omega)
    have hdrain : ∃ vs : List T, iterDrain l.size itr = some vs ∧ vs.length = l.size ∧
        (∀ k, k < l.size → vs[k]? = l.get (0 + k)) := by
      by_cases hslc : l.root.isSlice = true
      · cases hroot : l.root with
        | sliceNode es =>
            exact iterDrain_slice_spec hroot hwf l.size 0 itr hlist hidx (by omega)
        | nilNode => rw [hroot] at hslc; cases hslc
        | leafNode a b => rw [hroot] at hslc; cases hslc
        | branchNode a b => rw [hroot] at hslc; cases hslc
      · have hns : l.root.isSlice = false := by
          cases h : l.root.isSlice
          · rfl
          · exact absurd h hslc
        exact iterDrain_trie_spec hwf hns hD l.size 0 itr hlist hidx (by omega)
          (fun _ => hsk hns)
    obtain ⟨vs, hd1, hd2, hd3⟩ := hdrain
    refine ⟨newList vs.reverse, ?_, (newList_spec vs.reverse).1, ?_, ?_⟩
    · unfold reverseListGo
      rw [if_neg hsz]
      show ((mkIter l).first.bind fun itr =>
        (iterDrain l.size itr).bind fun vs => some (newList vs.reverse)) = some (newList vs.reverse)
      rw [hfe]
      show ((iterDrain l.size itr).bind fun vs => some (newList vs.reverse))
        = some (newList vs.reverse)
      rw [hd1]
      rfl
    · rw [(newList_spec vs.reverse).2.1, List.length_reverse, hd2]
    · intro k hk
      have hkr : k < vs.reverse.length := by
        rw [List.length_reverse, hd2]
        exact hk
      rw [(newList_spec vs.reverse).2.2 k hkr,
        List.getElem?_reverse (by rw [hd2]; exact hk),
        hd3 (vs.length - 1 - k) (by omega),
        show 0 + (vs.length - 1 - k) = l.size - 1 - k from by omega]

/-! ## Queue back-list shape invariant -/

/-- `toTrie` on exactly 32 elements yields a single full leaf (one chunk,
no branch layers). -/
theorem sliceToTrie_32 {T : Type} [Inhabited T] (es : List T) (mb : Bool)
    (h : es.length = 32) :
    ∃ c : List T, chunks32 es = [c] ∧
      sliceToTrie es mb
        = ListNode.leafNode (fun j => c.getD j default) (2 ^ c.length - 1) := by
  have hlen : (chunks32 es).length = 1 := by
    rw [chunks32_length, h]
  obtain ⟨c, hc⟩ := List.length_eq_one.mp hlen
  refine ⟨c, hc, ?_⟩
  unfold sliceToTrie
  rw [if_neg (by omega), hc]
  show buildLayers [ListNode.leafNode (fun j => c.getD j default) (2 ^ c.length - 1)] 1 = _
  unfold buildLayers
  rw [dif_pos (by simp)]
  rfl

/-- The shape invariant of a queue's `back` list: a slice back never
exceeds the conversion threshold, and a trie back sits flush against the
top of its addressable range with at least `32 ^ depth` elements (each
top-expansion of `prepend` happens only at a full range).  Together with a
size bound this caps the trie depth. -/
def BackInv {T : Type} [Inhabited T] (b : GoList T) : Prop :=
  (b.root.isSlice = true → b.size ≤ 32) ∧
  (b.root.isSlice = false → b.origin + b.size = 32 ^ (b.root.depth + 1) ∧
    32 ^ b.root.depth ≤ b.size)

/-- The trie branch of `prepend` preserves the flush-top shape facts. -/
theorem prependTrie_back {T : Type} [Inhabited T] (l : GoList T) (v : T)
    (hns : l.root.isSlice = false)
    (hos : l.origin + l.size = 32 ^ (l.root.depth + 1))
    (hlow : 32 ^ l.root.depth ≤ l.size) :
    (l.prependTrie v false).root.isSlice = false ∧
    (l.prependTrie v false).origin + (l.prependTrie v false).size
      = 32 ^ ((l.prependTrie v false).root.depth + 1) ∧
    32 ^ (l.prependTrie v false).root.depth ≤ (l.prependTrie v false).size := by
  by_cases hexp : l.origin = 0
  · have happ : l.prependTrie v false =
        { root := (ListNode.branchNode (l.root.depth + 1)
            (fun j => if j = 31 then l.root else ListNode.nilNode)).setGo
            (31 * 32 ^ (l.root.depth + 1) - 1) v false,
          origin := 31 * 32 ^ (l.root.depth + 1) - 1, size := l.size + 1 } := by
      unfold GoList.prependTrie
      rw [if_pos hexp, hexp]
      simp only [Nat.zero_add]
      rfl
    rw [happ]
    have hd : ((ListNode.branchNode (l.root.depth + 1)
        (fun j => if j = 31 then l.root else ListNode.nilNode)).setGo
        (31 * 32 ^ (l.root.depth + 1) - 1) v false).depth = l.root.depth + 1 := by
      rw [setGo_depth]
      rfl
    have hp1 : (0 : Nat) < 32 ^ (l.root.depth + 1) := pow32_pos _
    have hsz : l.size = 32 ^ (l.root.depth + 1) := by omega
    have hp2 : (32 : Nat) ^ (l.root.depth + 1 + 1) = 32 * 32 ^ (l.root.depth + 1) := by
      rw [pow_succ]
      ring
    refine ⟨?_, ?_, ?_⟩
    · show ((ListNode.branchNode (l.root.depth + 1)
        (fun j => if j = 31 then l.root else ListNode.nilNode)).setGo
        (31 * 32 ^ (l.root.depth + 1) - 1) v false).isSlice = false
      rw [setGo_isSlice]
      rfl
    · show 31 * 32 ^ (l.root.depth + 1) - 1 + (l.size + 1) = 32 ^ (((ListNode.branchNode
        (l.root.depth + 1) (fun j => if j = 31 then l.root else ListNode.nilNode)).setGo
        (31 * 32 ^ (l.root.depth + 1) - 1) v false).depth + 1)
      rw [hd, hp2]
      omega
    · show 32 ^ ((ListNode.branchNode (l.root.depth + 1)
        (fun j => if j = 31 then l.root else ListNode.nilNode)).setGo
        (31 * 32 ^ (l.root.depth + 1) - 1) v false).depth ≤ l.size + 1
      rw [hd]
      omega
  · have happ : l.prependTrie v false =
        { root := l.root.setGo (l.origin - 1) v false,
          origin := l.origin - 1, size := l.size + 1 } := by
      unfold GoList.prependTrie
      rw [if_neg hexp]
    rw [happ]
    refine ⟨?_, ?_, ?_⟩
    · show (l.root.setGo (l.origin - 1) v false).isSlice = false
      rw [setGo_isSlice]
      exact hns
    · show l.origin - 1 + (l.size + 1) = 32 ^ ((l.root.setGo (l.origin - 1) v false).depth + 1)
      rw [setGo_depth]
      omega
    · show 32 ^ (l.root.setGo (l.origin - 1) v false).depth ≤ l.size + 1
      rw [setGo_depth]
      omega

/-- `prepend` preserves the back-list shape invariant. -/
theorem prependGo_backInv {T : Type} [Inhabited T] (b : GoList T) (v : T)
    (hwf : listWF b) (hbi : BackInv b) : BackInv (b.prependGo v false) := by
  by_cases hsl : b.root.isSlice = true
  · obtain ⟨es, hes⟩ : ∃ es, b.root = ListNode.sliceNode es := by
      cases h : b.root with
      | sliceNode es => exact ⟨es, rfl⟩
      | nilNode => rw [h] at hsl; simp [ListNode.isSlice] at hsl
      | leafNode ch occ => rw [h] at hsl; simp [ListNode.isSlice] at hsl
      | branchNode d ch => rw [h] at hsl; simp [ListNode.isSlice] at hsl
    obtain ⟨horig, hszlen⟩ := hwf.1 es hes
    by_cases hlt : b.size < listSliceThreshold
    · have happ : b.prependGo v false =
          { root := ListNode.sliceNode ((List.range (b.size + 1)).map fun j =>
              if j = 0 then v else es.getD (j - 1) default),
            origin := b.origin,
            size := b.size + 1 } := by
        unfold GoList.prependGo
        rw [hes]
        simp only [if_pos hlt]
      rw [happ]
      constructor
      · intro _
        show b.size + 1 ≤ 32
        have hth : listSliceThreshold = 32 := rfl
        omega
      · intro hc
        simp [ListNode.isSlice] at hc
    · have hth : listSliceThreshold = 32 := rfl
      have hs32 : b.size = 32 := by
        have h1 := hbi.1 hsl
        omega
      have hes32 : es.length = 32 := by omega
      obtain ⟨c, hc, hleaf⟩ := sliceToTrie_32 es true hes32
      have happ : b.prependGo v false =
          GoList.prependTrie { root := sliceToTrie es true, origin := 0, size := b.size }
            v false := by
        unfold GoList.prependGo
        rw [hes]
        simp only [if_neg hlt]
      have hns0 : (sliceToTrie es true).isSlice = false := by
        rw [hleaf]
        rfl
      have hd0 : (sliceToTrie es true).depth = 0 := by
        rw [hleaf]
        rfl
      have hos0 : (0 : Nat) + b.size = 32 ^ ((sliceToTrie es true).depth + 1) := by
        rw [hd0, hs32]
        have h32 : (32 : Nat) ^ (0 + 1) = 32 := by norm_num
        omega
      have hlow0 : 32 ^ (sliceToTrie es true).depth ≤ b.size := by
        rw [hd0, hs32]
        omega
      obtain ⟨c1, c2, c3⟩ := prependTrie_back
        { root := sliceToTrie es true, origin := 0, size := b.size } v hns0 hos0 hlow0
      rw [happ]
      constructor
      · intro hcon
        rw [c1] at hcon
        cases hcon
      · intro _
        exact ⟨c2, c3⟩
  · have hns : b.root.isSlice = false := by
      cases h : b.root.isSlice
      · rfl
      · exact absurd h hsl
    obtain ⟨hos, hlow⟩ := hbi.2 hns
    obtain ⟨c1, c2, c3⟩ := prependTrie_back b v hns hos hlow
    rw [prependGo_trie b v false hns]
    constructor
    · intro hcon
      rw [c1] at hcon
      cases hcon
    · intro _
      exact ⟨c2, c3⟩

/-- The shape invariant caps the trie depth of any back list smaller than
`32 ^ 33`: below that, `reverseList`'s 33 units of seek fuel suffice. -/
theorem backInv_depth {T : Type} [Inhabited T] (b : GoList T) (hbi : BackInv b)
    (hsz : b.size < 32 ^ 33) : b.root.depth ≤ 32 := by
  by_cases hsl : b.root.isSlice = true
  · obtain ⟨es, hes⟩ : ∃ es, b.root = ListNode.sliceNode es := by
      cases h : b.root with
      | sliceNode es => exact ⟨es, rfl⟩
      | nilNode => rw [h] at hsl; simp [ListNode.isSlice] at hsl
      | leafNode ch occ => rw [h] at hsl; simp [ListNode.isSlice] at hsl
      | branchNode d ch => rw [h] at hsl; simp [ListNode.isSlice] at hsl
    rw [hes]
    show (0 : Nat) ≤ 32
    omega
  · have hns : b.root.isSlice = false := by
      cases h : b.root.isSlice
      · rfl
      · exact absurd h hsl
    obtain ⟨_, hlow⟩ := hbi.2 hns
    by_contra hgt
    have h33 : 33 ≤ b.root.depth := by omega
    have hmono : (32 : Nat) ^ 33 ≤ 32 ^ b.root.depth :=
      Nat.pow_le_pow_right (by omega) h33
    omega

/-! ## Queue simulation invariant -/

/-- Simulation invariant tying a queue value to its abstract content
`model` (dequeue order): both lists are present, well-formed, the back
satisfies the shape invariant, the front holds a prefix of `model` and the
back the remaining suffix in reverse, and the total size is bounded so
that trie depths stay within the iterator's seek fuel. -/
def QInv {T : Type} [Inhabited T] (qq : GoQueue T) (model : List T) : Prop :=
  ∃ f b, qq.front = some f ∧ qq.back = some b ∧
    listWF f ∧ listWF b ∧ BackInv b ∧
    qq.size = model.length ∧
    f.size + b.size = model.length ∧
    (∀ i, i < f.size → f.get i = model[i]?) ∧
    (∀ i, i < b.size → b.get i = model[model.length - 1 - i]?) ∧
    model.length < 32 ^ 33

/-- The `for q.Len() > 0 { v, ok := q.Dequeue() … }` loop: dequeue until
empty, collecting the values; a failed (`ok = false`) dequeue or exhausted
fuel is `none`. -/
def qDrain {T : Type} [Inhabited T] : Nat → Option (GoQueue T) → Option (List T)
  | 0, q => if queueLen q = 0 then some [] else none
  | fuel + 1, q =>
      if queueLen q = 0 then some []
      else
        match qDequeue q with
        | some (nq, v, true) => (qDrain fuel nq).map (fun vs => v :: vs)
        | _ => none

/-- Queue states reachable through the public API from an empty queue:
`NewQueue()`, then `Enqueue` (while the total content stays below
`32 ^ 33` elements) and `Dequeue` interleaved arbitrarily.  `model` is the
sequence of still-queued values in enqueue order. -/
inductive QReach {T : Type} [Inhabited T] : Option (GoQueue T) → List T → Prop
  | newq : QReach (some (newQueue [])) []
  | enq {q : Option (GoQueue T)} {model : List T} {v : T} {q2 : GoQueue T} :
      QReach q model → model.length + 1 < 32 ^ 33 →
      qEnqueue q v = some q2 → QReach (some q2) (model ++ [v])
  | deq {q : Option (GoQueue T)} {model : List T} {q2 : Option (GoQueue T)} {v : T}
      {ok : Bool} :
      QReach q model → qDequeue q = some (q2, v, ok) → QReach q2 model.tail

theorem newListNil_eq {T : Type} [Inhabited T] :
    newList ([] : List T) = ⟨ListNode.sliceNode [], 0, 0⟩ := rfl

theorem qNormalize_some {T : Type} [Inhabited T] (q : GoQueue T) :
    qNormalize (some q) = (if q.size = 0 then some (some q)
      else if frontNonempty q then some (some q)
      else if !backNonempty q then some (some q)
      else match q.back with
        | some b => (reverseListGo b).map fun f => some ⟨some f, some (newList []), q.size⟩
        | none => some (some q)) := rfl

theorem qEnqueue_some {T : Type} [Inhabited T] (q : GoQueue T) (v : T) :
    qEnqueue (some q) v = (match q.back with
      | some b => some ⟨q.front, some (b.prependGo v false), q.size + 1⟩
      | none => none) := rfl

theorem newListNil_backInv {T : Type} [Inhabited T] : BackInv (newList ([] : List T)) := by
  constructor
  · intro _
    show (0 : Nat) ≤ 32
    omega
  · intro hc
    rw [show (newList ([] : List T)).root.isSlice = true from rfl] at hc
    cases hc

/-- `normalize` succeeds on any queue satisfying the invariant and
preserves it; when the abstract content is non-empty the resulting front
is non-empty. -/
theorem qNormalize_inv {T : Type} [Inhabited T] {qq : GoQueue T} {model : List T}
    (h : QInv qq model) :
    ∃ q2, qNormalize (some qq) = some (some q2) ∧ QInv q2 model ∧
      q2.size = qq.size ∧
      (model ≠ [] → ∃ f2, q2.front = some f2 ∧ 0 < f2.size) := by
  obtain ⟨f, b, hf, hb, hwff, hwfb, hbi, hsz, hsum, hfg, hbg, hlt⟩ := h
  by_cases h0 : qq.size = 0
  · have hme : model = [] := by
      rw [h0] at hsz
      exact (List.length_eq_zero.mp hsz.symm)
    refine ⟨qq, ?_, ⟨f, b, hf, hb, hwff, hwfb, hbi, hsz, hsum, hfg, hbg, hlt⟩, rfl, ?_⟩
    · rw [qNormalize_some, if_pos h0]
    · intro hc
      exact absurd hme hc
  · by_cases hfp : 0 < f.size
    · have hfne : frontNonempty qq = true := by
        unfold frontNonempty
        rw [hf]
        simp only [gt_iff_lt, decide_eq_true_eq]
        omega
      refine ⟨qq, ?_, ⟨f, b, hf, hb, hwff, hwfb, hbi, hsz, hsum, hfg, hbg, hlt⟩, rfl,
        fun _ => ⟨f, hf, hfp⟩⟩
      rw [qNormalize_some, if_neg h0, if_pos hfne]
    · have hbp : 0 < b.size := by omega
      have hfne : frontNonempty qq = false := by
        unfold frontNonempty
        rw [hf]
        simp only [gt_iff_lt, decide_eq_false_iff_not, not_lt]
        omega
      have hbne : backNonempty qq = true := by
        unfold backNonempty
        rw [hb]
        simp only [gt_iff_lt, decide_eq_true_eq]
        omega
      have hbD : b.root.depth ≤ 32 := backInv_depth b hbi (by omega)
      obtain ⟨f2, hrev, hf2wf, hf2sz, hf2g⟩ := reverseListGo_spec hwfb hbD
      have hstep : qNormalize (some qq)
          = some (some ⟨some f2, some (newList []), qq.size⟩) := by
        rw [qNormalize_some, if_neg h0, if_neg (by rw [hfne]; exact Bool.false_ne_true),
          if_neg (by rw [hbne]; intro hc; cases hc), hb]
        show Option.map (fun f => some (GoQueue.mk (some f) (some (newList [])) qq.size))
          (reverseListGo b)
          = some (some (GoQueue.mk (some f2) (some (newList [])) qq.size))
        rw [hrev]
        rfl
      refine ⟨_, hstep, ⟨f2, newList [], rfl, rfl, hf2wf, (newList_spec _).1,
        newListNil_backInv, hsz, ?_, ?_, ?_, hlt⟩, rfl, ?_⟩
      · show f2.size + (newList ([] : List T)).size = model.length
        rw [hf2sz, (newList_spec ([] : List T)).2.1]
        simp only [List.length_nil]
        omega
      · intro i hi
        rw [hf2sz] at hi
        rw [hf2g i (by omega), hbg (b.size - 1 - i) (by omega),
          show model.length - 1 - (b.size - 1 - i) = i from by omega]
      · intro i hi
        rw [show (newList ([] : List T)).size = 0 from rfl] at hi
        omega
      · intro _
        exact ⟨f2, rfl, by rw [hf2sz]; omega⟩

theorem qDequeue_some {T : Type} [Inhabited T] (q : GoQueue T) :
    qDequeue (some q) = (if q.size = 0 then some (none, default, false)
      else if frontNonempty q then
        match q.front with
        | none => none
        | some f =>
            (f.get 0).bind fun v =>
              (f.sliceGo 1 f.size false).bind fun nf =>
                (qNormalize (some ⟨some nf, q.back, q.size - 1⟩)).bind fun nq =>
                  some (nq, v, true)
      else if backNonempty q then
        (qNormalize (some q)).bind fun nrm =>
          match nrm with
          | none => none
          | some nq =>
              match nq.front with
              | none => none
              | some nf =>
                  (nf.get 0).bind fun v =>
                    (nf.sliceGo 1 nf.size false).bind fun nf2 =>
                      some (some ⟨some nf2, nq.back, q.size - 1⟩, v, true)
      else some (none, default, false)) := rfl

/-- Popping the head of a non-empty front: the head reads the first model
element, the tail slice succeeds, and the popped queue satisfies the
invariant for the remaining model. -/
theorem qPop_inv {T : Type} [Inhabited T] {qq : GoQueue T} {m : T} {rest : List T}
    (h : QInv qq (m :: rest)) {f : GoList T} (hfe : qq.front = some f)
    (hfp : 0 < f.size) :
    f.get 0 = some m ∧ ∃ nf, f.sliceGo 1 f.size false = some nf ∧
      QInv ⟨some nf, qq.back, qq.size - 1⟩ rest := by
  obtain ⟨f0, b, hf0, hb, hwff, hwfb, hbi, hsz, hsum, hfg, hbg, hlt⟩ := h
  rw [hf0] at hfe
  cases Option.some.inj hfe
  have hsz2 : qq.size = rest.length + 1 := hsz
  have hsum2 : f.size + b.size = rest.length + 1 := hsum
  have hlt2 : rest.length + 1 < 32 ^ 33 := hlt
  have hv0 : f.get 0 = some m := by
    rw [hfg 0 hfp]
    exact List.getElem?_cons_zero
  obtain ⟨nf, hnf, hnfwf, hnfsz, hnfsl, hnfg⟩ :=
    sliceGo_spec f 1 f.size false hwff (by omega) le_rfl
  refine ⟨hv0, nf, hnf, nf, b, rfl, hb, hnfwf, hwfb, hbi, ?_, ?_, ?_, ?_, ?_⟩
  · show qq.size - 1 = rest.length
    omega
  · show nf.size + b.size = rest.length
    omega
  · intro i hi
    rw [hnfsz] at hi
    rw [hnfg i hi, hfg (1 + i) (by omega), show 1 + i = i + 1 from by omega,
      List.getElem?_cons_succ]
  · intro i hi
    rw [hbg i hi]
    have hix : (m :: rest).length - 1 - i = (rest.length - 1 - i) + 1 := by
      simp only [List.length_cons]
      omega
    rw [hix, List.getElem?_cons_succ]
  · omega

/-- `Dequeue` on an invariant-satisfying non-empty queue succeeds with
`ok = true`, yields the model head, and the next queue satisfies the
invariant for the model tail. -/
theorem qDequeue_inv {T : Type} [Inhabited T] {qq : GoQueue T} {m : T} {rest : List T}
    (h : QInv qq (m :: rest)) :
    ∃ q2, qDequeue (some qq) = some (some q2, m, true) ∧ QInv q2 rest := by
  obtain ⟨f, b, hf, hb, hwff, hwfb, hbi, hsz, hsum, hfg, hbg, hlt⟩ := h
  have hsz2 : qq.size = rest.length + 1 := hsz
  have hsz0 : ¬ qq.size = 0 := by omega
  by_cases hfp : 0 < f.size
  · have hfne : frontNonempty qq = true := by
      unfold frontNonempty
      rw [hf]
      simp only [gt_iff_lt, decide_eq_true_eq]
      omega
    obtain ⟨hv0, nf, hnf, hinv⟩ :=
      qPop_inv ⟨f, b, hf, hb, hwff, hwfb, hbi, hsz, hsum, hfg, hbg, hlt⟩ hf hfp
    obtain ⟨q2, hnorm, hq2inv, hq2sz, _⟩ := qNormalize_inv hinv
    refine ⟨q2, ?_, hq2inv⟩
    rw [qDequeue_some, if_neg hsz0, if_pos hfne, hf]
    show (f.get 0).bind (fun v => (f.sliceGo 1 f.size false).bind fun nf =>
        (qNormalize (some ⟨some nf, qq.back, qq.size - 1⟩)).bind fun nq =>
          some (nq, v, true)) = some (some q2, m, true)
    rw [hv0]
    show (f.sliceGo 1 f.size false).bind (fun nf =>
        (qNormalize (some ⟨some nf, qq.back, qq.size - 1⟩)).bind fun nq =>
          some (nq, m, true)) = some (some q2, m, true)
    rw [hnf]
    show (qNormalize (some ⟨some nf, qq.back, qq.size - 1⟩)).bind (fun nq =>
        some (nq, m, true)) = some (some q2, m, true)
    rw [hnorm]
    rfl
  · have hfne : frontNonempty qq = false := by
      unfold frontNonempty
      rw [hf]
      simp only [gt_iff_lt, decide_eq_false_iff_not, not_lt]
      omega
    have hsum2 : f.size + b.size = rest.length + 1 := hsum
    have hbp : 0 < b.size := by omega
    have hbne : backNonempty qq = true := by
      unfold backNonempty
      rw [hb]
      simp only [gt_iff_lt, decide_eq_true_eq]
      omega
    obtain ⟨q1, hnorm, hq1inv, hq1sz, hfront⟩ :=
      qNormalize_inv ⟨f, b, hf, hb, hwff, hwfb, hbi, hsz, hsum, hfg, hbg, hlt⟩
    obtain ⟨f2, hf2, hf2p⟩ := hfront (List.cons_ne_nil m rest)
    obtain ⟨hv0, nf2, hnf2, hinv2⟩ := qPop_inv hq1inv hf2 hf2p
    have hrw : (⟨some nf2, q1.back, q1.size - 1⟩ : GoQueue T)
        = ⟨some nf2, q1.back, qq.size - 1⟩ := by
      rw [hq1sz]
    rw [hrw] at hinv2
    refine ⟨⟨some nf2, q1.back, qq.size - 1⟩, ?_, hinv2⟩
    rw [qDequeue_some, if_neg hsz0, if_neg (by rw [hfne]; exact Bool.false_ne_true),
      if_pos hbne, hnorm]
    show (match q1.front with
      | none => none
      | some nf =>
          (nf.get 0).bind fun v =>
            (nf.sliceGo 1 nf.size false).bind fun w =>
              some (some (GoQueue.mk (some w) q1.back (qq.size - 1)), v, true))
      = some (some (GoQueue.mk (some nf2) q1.back (qq.size - 1)), m, true)
    rw [hf2]
    show (f2.get 0).bind (fun v =>
        (f2.sliceGo 1 f2.size false).bind fun w =>
          some (some (GoQueue.mk (some w) q1.back (qq.size - 1)), v, true))
      = some (some (GoQueue.mk (some nf2) q1.back (qq.size - 1)), m, true)
    rw [hv0]
    show (f2.sliceGo 1 f2.size false).bind (fun w =>
        some (some (GoQueue.mk (some w) q1.back (qq.size - 1)), m, true))
      = some (some (GoQueue.mk (some nf2) q1.back (qq.size - 1)), m, true)
    rw [hnf2]
    rfl

theorem newQueue_inv {T : Type} [Inhabited T] : QInv (newQueue ([] : List T)) [] := by
  refine ⟨newList [], newList [], rfl, rfl, (newList_spec _).1, (newList_spec _).1,
    newListNil_backInv, rfl, rfl, ?_, ?_, ?_⟩
  · intro i hi
    rw [show (newList ([] : List T)).size = 0 from rfl] at hi
    omega
  · intro i hi
    rw [show (newList ([] : List T)).size = 0 from rfl] at hi
    omega
  · show (0 : Nat) < 32 ^ 33
    exact pow32_pos 33

/-- `Enqueue` on a nil queue builds a fresh singleton queue satisfying the
invariant. -/
theorem qEnqueue_none_inv {T : Type} [Inhabited T] (v : T) :
    ∃ q2, qEnqueue (none : Option (GoQueue T)) v = some q2 ∧ QInv q2 [v] := by
  refine ⟨⟨some (newList []), some (newList [v]), 1⟩, rfl, newList [], newList [v],
    rfl, rfl, (newList_spec _).1, (newList_spec _).1, ?_, rfl, rfl, ?_, ?_, ?_⟩
  · constructor
    · intro _
      show (1 : Nat) ≤ 32
      omega
    · intro hc
      rw [show (newList [v]).root.isSlice = true from rfl] at hc
      cases hc
  · intro i hi
    rw [show (newList ([] : List T)).size = 0 from rfl] at hi
    omega
  · intro i hi
    rw [show (newList [v]).size = 1 from rfl] at hi
    have hi0 : i = 0 := by omega
    rw [hi0, (newList_spec [v]).2.2 0 (show 0 < ([v] : List T).length from by
      show (0 : Nat) < 1; omega)]
    rfl
  · show (1 : Nat) < 32 ^ 33
    exact Nat.one_lt_pow (by omega) (by omega)

/-- `Enqueue` preserves the invariant, appending the value to the model. -/
theorem qEnqueue_inv {T : Type} [Inhabited T] {qq : GoQueue T} {model : List T} (v : T)
    (h : QInv qq model) (hlen : model.length + 1 < 32 ^ 33) :
    ∃ q2, qEnqueue (some qq) v = some q2 ∧ QInv q2 (model ++ [v]) := by
  obtain ⟨f, b, hf, hb, hwff, hwfb, hbi, hsz, hsum, hfg, hbg, hlt⟩ := h
  obtain ⟨pwf, psz, psl, pg0, pgi⟩ := prependGo_spec b v false hwfb
  have hstep : qEnqueue (some qq) v
      = some ⟨qq.front, some (b.prependGo v false), qq.size + 1⟩ := by
    rw [qEnqueue_some, hb]
  refine ⟨_, hstep, f, b.prependGo v false, hf, rfl, hwff, pwf,
    prependGo_backInv b v hwfb hbi, ?_, ?_, ?_, ?_, ?_⟩
  · show qq.size + 1 = (model ++ [v]).length
    rw [List.length_append, hsz]
    rfl
  · show f.size + (b.prependGo v false).size = (model ++ [v]).length
    rw [psz, List.length_append]
    show f.size + (b.size + 1) = model.length + 1
    omega
  · intro i hi
    rw [hfg i hi, List.getElem?_append_left (show i < model.length from by omega)]
  · intro i hi
    rw [psz] at hi
    cases i with
    | zero =>
        rw [pg0]
        have hix : (model ++ [v]).length - 1 - 0 = model.length := by
          rw [List.length_append]
          show model.length + 1 - 1 - 0 = model.length
          omega
        rw [hix, List.getElem?_concat_length]
    | succ i =>
        have hib : i < b.size := by omega
        rw [pgi i hib, hbg i hib]
        have hix : (model ++ [v]).length - 1 - (i + 1) = model.length - 1 - i := by
          rw [List.length_append]
          show model.length + 1 - 1 - (i + 1) = model.length - 1 - i
          omega
        rw [hix,
          List.getElem?_append_left (show model.length - 1 - i < model.length from by omega)]
  · show (model ++ [v]).length < 32 ^ 33
    rw [List.length_append]
    exact hlen

/-- Every reachable queue state is a live (non-nil) queue satisfying the
simulation invariant, or the nil queue with empty content. -/
theorem qreach_inv {T : Type} [Inhabited T] {q : Option (GoQueue T)} {model : List T}
    (h : QReach q model) :
    (q = none ∧ model = []) ∨ ∃ qq, q = some qq ∧ QInv qq model := by
  induction h with
  | newq => exact Or.inr ⟨newQueue [], rfl, newQueue_inv⟩
  | @enq q model v q2 hr hlen heq ih =>
      rcases ih with ⟨hq, hm⟩ | ⟨qq, hq, hinv⟩
      · subst hq
        subst hm
        obtain ⟨q2', heq', hinv'⟩ := qEnqueue_none_inv v
        rw [heq'] at heq
        cases Option.some.inj heq
        exact Or.inr ⟨_, rfl, hinv'⟩
      · subst hq
        obtain ⟨q2', heq', hinv'⟩ := qEnqueue_inv v hinv hlen
        rw [heq'] at heq
        cases Option.some.inj heq
        exact Or.inr ⟨_, rfl, hinv'⟩
  | @deq q model q2 v ok hr heq ih =>
      rcases ih with ⟨hq, hm⟩ | ⟨qq, hq, hinv⟩
      · subst hq
        subst hm
        have hc : qDequeue (none : Option (GoQueue T)) = some (none, default, false) := rfl
        rw [hc] at heq
        cases Option.some.inj heq
        exact Or.inl ⟨rfl, rfl⟩
      · subst hq
        cases model with
        | nil =>
            obtain ⟨f, b, hf, hb, _, _, _, hsz, _, _, _, _⟩ := hinv
            have hs0 : qq.size = 0 := by
              rw [hsz]
              rfl
            have hcomp : qDequeue (some qq) = some (none, default, false) := by
              rw [qDequeue_some, if_pos hs0]
            rw [hcomp] at heq
            cases Option.some.inj heq
            exact Or.inl ⟨rfl, rfl⟩
        | cons m rest =>
            obtain ⟨q2', heq', hinv'⟩ := qDequeue_inv hinv
            rw [heq'] at heq
            cases Option.some.inj heq
            exact Or.inr ⟨q2', rfl, hinv'⟩

/-- Draining an invariant-satisfying queue with one fuel unit per element
returns exactly the model. -/
theorem qDrain_inv {T : Type} [Inhabited T] :
    ∀ (model : List T) (qq : GoQueue T), QInv qq model →
      qDrain model.length (some qq) = some model := by
  intro model
  induction model with
  | nil =>
      intro qq hinv
      obtain ⟨f, b, hf, hb, _, _, _, hsz, _, _, _, _⟩ := hinv
      have hq0 : queueLen (some qq) = 0 := by
        show qq.size = 0
        rw [hsz]
        rfl
      show (if queueLen (some qq) = 0 then some [] else none) = some []
      rw [if_pos hq0]
  | cons m rest ih =>
      intro qq hinv
      obtain ⟨q2, heq, hinv2⟩ := qDequeue_inv hinv
      have hlen0 : queueLen (some qq) ≠ 0 := by
        obtain ⟨f, b, hf, hb, _, _, _, hsz, _, _, _, _⟩ := hinv
        show qq.size ≠ 0
        have hsz2 : qq.size = rest.length + 1 := hsz
        omega
      show (if queueLen (some qq) = 0 then some []
        else match qDequeue (some qq) with
          | some (nq, v, true) => (qDrain rest.length nq).map (fun vs => v :: vs)
          | _ => none) = some (m :: rest)
      rw [if_neg hlen0, heq]
      show (qDrain rest.length (some q2)).map (fun vs => m :: vs) = some (m :: rest)
      rw [ih q2 hinv2]
      rfl

/-- C3: FIFO order.  For every queue state reachable from the empty queue
by enqueuing values in order with dequeues interleaved arbitrarily (the
still-queued values, in enqueue order, being `model`): `Len` equals the
number of queued values; dequeuing all of them succeeds, every `Dequeue`
reporting `ok = true`, and returns them in exactly enqueue order; and on a
non-empty queue a single `Dequeue` yields the oldest value with
`ok = true` and a queue whose `Len` is one smaller. -/
theorem C3_queue_fifo {T : Type} [Inhabited T] {q : Option (GoQueue T)} {model : List T}
    (h : QReach q model) :
    queueLen q = model.length ∧
    qDrain model.length q = some model ∧
    (∀ m rest, model = m :: rest →
      ∃ q2, qDequeue q = some (some q2, m, true) ∧
        queueLen (some q2) = model.length - 1) := by
  rcases qreach_inv h with ⟨hq, hm⟩ | ⟨qq, hq, hinv⟩
  · subst hq
    subst hm
    refine ⟨rfl, rfl, ?_⟩
    intro m rest hc
    cases hc
  · subst hq
    have hlen : queueLen (some qq) = model.length := by
      obtain ⟨f, b, _, _, _, _, _, hsz, _, _, _, _⟩ := hinv
      exact hsz
    refine ⟨hlen, qDrain_inv model qq hinv, ?_⟩
    intro m rest hc
    subst hc
    obtain ⟨q2, heq, hinv2⟩ := qDequeue_inv hinv
    refine ⟨q2, heq, ?_⟩
    obtain ⟨f, b, _, _, _, _, _, hsz2, _, _, _, _⟩ := hinv2
    exact hsz2

theorem C3_queue_fifo_witness :
    QReach (some (GoQueue.mk (some ⟨ListNode.sliceNode [], 0, 0⟩)
        (some ⟨ListNode.sliceNode [20, 10], 0, 2⟩) 2)) [10, 20] ∧
    queueLen (some (GoQueue.mk (some (⟨ListNode.sliceNode [], 0, 0⟩ : GoList Nat))
        (some ⟨ListNode.sliceNode [20, 10], 0, 2⟩) 2)) = 2 ∧
    qDrain 2 (some (GoQueue.mk (some (⟨ListNode.sliceNode [], 0, 0⟩ : GoList Nat))
        (some ⟨ListNode.sliceNode [20, 10], 0, 2⟩) 2)) = some [10, 20] := by
  have hr : QReach (some (GoQueue.mk (some (⟨ListNode.sliceNode [], 0, 0⟩ : GoList Nat))
      (some ⟨ListNode.sliceNode [20, 10], 0, 2⟩) 2)) [10, 20] :=
    QReach.enq (QReach.enq QReach.newq (by decide) rfl) (by decide) rfl
  exact ⟨hr, (C3_queue_fifo hr).1, (C3_queue_fifo hr).2.1⟩

/-! ## Store extension: immutable operations only allocate -/

theorem ExtendsS_refl {T : Type} (st : Store T) : ExtendsS st st :=
  ⟨le_rfl, fun _ _ => rfl, le_rfl, fun _ _ => rfl⟩

theorem ExtendsS_trans {T : Type} {s1 s2 s3 : Store T} (h12 : ExtendsS s1 s2)
    (h23 : ExtendsS s2 s3) : ExtendsS s1 s3 := by
  obtain ⟨a1, a2, a3, a4⟩ := h12
  obtain ⟨b1, b2, b3, b4⟩ := h23
  exact ⟨le_trans a1 b1, fun a ha => (b2 a (by omega)).trans (a2 a ha),
    le_trans a3 b3, fun r hr => (b4 r (by omega)).trans (a4 r hr)⟩

theorem allocN_extends {T : Type} (st : Store T) (nd : NodeD T) :
    ExtendsS st (allocN st nd).1 := by
  refine ⟨?_, ?_, le_rfl, fun _ _ => rfl⟩
  · show st.nodes.length ≤ (st.nodes ++ [nd]).length
    simp
  · intro a ha
    show (st.nodes ++ [nd])[a]? = st.nodes[a]?
    exact List.getElem?_append_left ha

theorem allocL_extends {T : Type} (st : Store T) (l : ListR) :
    ExtendsS st (allocL st l).1 := by
  refine ⟨le_rfl, fun _ _ => rfl, ?_, ?_⟩
  · show st.lists.length ≤ (st.lists ++ [l]).length
    simp
  · intro r hr
    show (st.lists ++ [l])[r]? = st.lists[r]?
    exact List.getElem?_append_left hr

theorem newNodeS_extends {T : Type} [Inhabited T] (st : Store T) (d : Nat) :
    ExtendsS st (newNodeS st d).1 := by
  unfold newNodeS
  by_cases h : d = 0
  · rw [if_pos h]
    exact allocN_extends _ _
  · rw [if_neg h]
    exact allocN_extends _ _

theorem some_pair_fst {A B : Type} {p : A × B} {x : A} {y : B}
    (h : some p = some (x, y)) : p.1 = x := by
  cases Option.some.inj h
  rfl

theorem nodeSetS_ext {T : Type} [Inhabited T] :
    ∀ (fuel : Nat) (st : Store T) (a index : Nat) (v : T) (st2 : Store T) (a2 : Nat),
      nodeSetS fuel st a index v false = some (st2, a2) → ExtendsS st st2 := by
  intro fuel
  induction fuel with
  | zero =>
      intro st a i v st2 a2 h
      cases h
  | succ fuel ih =>
      intro st a i v st2 a2 h
      unfold nodeSetS at h
      cases hn : st.nodes[a]? with
      | none =>
          rw [hn] at h
          cases h
      | some nd =>
          rw [hn] at h
          cases nd with
          | sliceD es =>
              have h2 : (if i ≥ es.length then none
                else some (allocN st (NodeD.sliceD (es.set i v)))) = some (st2, a2) := h
              by_cases hb : i ≥ es.length
              · rw [if_pos hb] at h2
                cases h2
              · rw [if_neg hb] at h2
                rw [← some_pair_fst h2]
                exact allocN_extends _ _
          | leafD ch occ =>
              have h2 : some (allocN st (NodeD.leafD
                  (fun j => if j = i % 32 then v else ch j) (occ ||| (1 <<< (i % 32)))))
                  = some (st2, a2) := h
              rw [← some_pair_fst h2]
              exact allocN_extends _ _
          | branchD d children =>
              have h1 : (match nodeSetS fuel
                  (match children (digit d i) with
                    | some c => (st, c)
                    | none => newNodeS st (d - 1)).1
                  (match children (digit d i) with
                    | some c => ((st, c) : Store T × Nat)
                    | none => newNodeS st (d - 1)).2 i v false with
                | none => none
                | some (st3, newChild) => some (allocN st3 (NodeD.branchD d
                    (fun j => if j = digit d i then some newChild else children j))))
                  = some (st2, a2) := h
              cases hch : children (digit d i) with
              | some c =>
                  rw [hch] at h1
                  have h2 : (match nodeSetS fuel st c i v false with
                    | none => none
                    | some (st3, newChild) => some (allocN st3 (NodeD.branchD d
                        (fun j => if j = digit d i then some newChild else children j))))
                      = some (st2, a2) := h1
                  cases hrec : nodeSetS fuel st c i v false with
                  | none =>
                      rw [hrec] at h2
                      cases h2
                  | some p =>
                      obtain ⟨st3, nc⟩ := p
                      rw [hrec] at h2
                      have h3 : some (allocN st3 (NodeD.branchD d
                          (fun j => if j = digit d i then some nc else children j)))
                          = some (st2, a2) := h2
                      rw [← some_pair_fst h3]
                      exact ExtendsS_trans (ih st c i v st3 nc hrec) (allocN_extends _ _)
              | none =>
                  rw [hch] at h1
                  have h2 : (match nodeSetS fuel (newNodeS st (d - 1)).1 (newNodeS st (d - 1)).2
                      i v false with
                    | none => none
                    | some (st3, newChild) => some (allocN st3 (NodeD.branchD d
                        (fun j => if j = digit d i then some newChild else children j))))
                      = some (st2, a2) := h1
                  cases hrec : nodeSetS fuel (newNodeS st (d - 1)).1 (newNodeS st (d - 1)).2
                      i v false with
                  | none =>
                      rw [hrec] at h2
                      cases h2
                  | some p =>
                      obtain ⟨st3, nc⟩ := p
                      rw [hrec] at h2
                      have h3 : some (allocN st3 (NodeD.branchD d
                          (fun j => if j = digit d i then some nc else children j)))
                          = some (st2, a2) := h2
                      rw [← some_pair_fst h3]
                      exact ExtendsS_trans (newNodeS_extends st (d - 1))
                        (ExtendsS_trans (ih _ _ i v st3 nc hrec) (allocN_extends _ _))

theorem allocAll_extends {T : Type} (nds : List (NodeD T)) (st : Store T) :
    ExtendsS st (allocAll st nds).1 := by
  suffices h : ∀ (st : Store T) (acc : List Nat),
      ExtendsS st (nds.foldl (fun (p : Store T × List Nat) nd =>
        let (st2, a) := allocN p.1 nd
        (st2, p.2 ++ [a])) (st, acc)).1 by
    exact h st []
  induction nds with
  | nil =>
      intro st acc
      exact ExtendsS_refl st
  | cons x xs ih =>
      intro st acc
      simp only [List.foldl_cons]
      exact ExtendsS_trans (allocN_extends st x) (ih (allocN st x).1 (acc ++ [(allocN st x).2]))

theorem buildLayersS_extends {T : Type} :
    ∀ (n : Nat) (nodes : List Nat) (st : Store T) (depth : Nat), nodes.length ≤ n →
      ExtendsS st (buildLayersS st nodes depth).1 := by
  intro n
  induction n with
  | zero =>
      intro nodes st depth hlen
      have hnil : nodes = [] := List.length_eq_zero.mp (by omega)
      subst hnil
      unfold buildLayersS
      rw [dif_pos (by simp)]
      exact ExtendsS_refl st
  | succ n ih =>
      intro nodes st depth hlen
      by_cases h1 : nodes.length ≤ 1
      · unfold buildLayersS
        rw [dif_pos h1]
        exact ExtendsS_refl st
      · unfold buildLayersS
        rw [dif_neg h1]
        refine ExtendsS_trans (allocAll_extends _ st) (ih _ _ _ ?_)
        rw [allocAll_snd_length, List.length_map, chunks32_length]
        omega

theorem sliceToTrieS_extends {T : Type} [Inhabited T] (st : Store T) (es : List T) :
    ExtendsS st (sliceToTrieS st es).1 := by
  unfold sliceToTrieS
  by_cases h : es.length = 0
  · rw [if_pos h]
    exact allocN_extends _ _
  · rw [if_neg h]
    exact ExtendsS_trans (allocAll_extends _ st) (buildLayersS_extends _ _ _ _ le_rfl)

theorem deleteBeforeS_ext {T : Type} [Inhabited T] :
    ∀ (fuel : Nat) (st : Store T) (a index : Nat) (st2 : Store T) (a2 : Nat),
      deleteBeforeS fuel st a index false = some (st2, a2) → ExtendsS st st2 := by
  intro fuel
  induction fuel with
  | zero =>
      intro st a i st2 a2 h
      cases h
  | succ fuel ih =>
      intro st a i st2 a2 h
      unfold deleteBeforeS at h
      cases hcb : containsBeforeS (fuel + 1) st a i with
      | none =>
          rw [hcb] at h
          cases h
      | some cb =>
          rw [hcb] at h
          cases cb with
          | false =>
              have h2 : some ((st, a) : Store T × Nat) = some (st2, a2) := h
              rw [← some_pair_fst h2]
              exact ExtendsS_refl st
          | true =>
              cases hn : st.nodes[a]? with
              | none =>
                  rw [hn] at h
                  cases h
              | some nd =>
                  rw [hn] at h
                  cases nd with
                  | sliceD es =>
                      have h2 : some ((st, a) : Store T × Nat) = some (st2, a2) := h
                      rw [← some_pair_fst h2]
                      exact ExtendsS_refl st
                  | leafD ch occ =>
                      have h2 : some (allocN st (NodeD.leafD
                          (fun j => if i % 32 ≤ j ∧ j < 32 then ch j else default)
                          (occ &&& ((2 ^ 32 - 1) ^^^ ((1 <<< (i % 32)) - 1)))))
                          = some (st2, a2) := h
                      rw [← some_pair_fst h2]
                      exact allocN_extends _ _
                  | branchD d children =>
                      have h1 : (match children (digit d i) with
                        | none => some (allocN st (NodeD.branchD d
                            (fun j => if digit d i ≤ j ∧ j < 32 then children j else none)))
                        | some c =>
                            match deleteBeforeS fuel st c i false with
                            | none => none
                            | some (st3, nc) => some (allocN st3 (NodeD.branchD d (fun j =>
                                if j = digit d i then some nc
                                else if digit d i ≤ j ∧ j < 32 then children j else none))))
                          = some (st2, a2) := h
                      cases hch : children (digit d i) with
                      | none =>
                          rw [hch] at h1
                          have h2 : some (allocN st (NodeD.branchD d
                              (fun j => if digit d i ≤ j ∧ j < 32 then children j else none)))
                              = some (st2, a2) := h1
                          rw [← some_pair_fst h2]
                          exact allocN_extends _ _
                      | some c =>
                          rw [hch] at h1
                          have h2 : (match deleteBeforeS fuel st c i false with
                            | none => none
                            | some (st3, nc) => some (allocN st3 (NodeD.branchD d (fun j =>
                                if j = digit d i then some nc
                                else if digit d i ≤ j ∧ j < 32 then children j else none))))
                              = some (st2, a2) := h1
                          cases hrec : deleteBeforeS fuel st c i false with
                          | none =>
                              rw [hrec] at h2
                              cases h2
                          | some p =>
                              obtain ⟨st3, nc⟩ := p
                              rw [hrec] at h2
                              have h3 : some (allocN st3 (NodeD.branchD d (fun j =>
                                  if j = digit d i then some nc
                                  else if digit d i ≤ j ∧ j < 32 then children j else none)))
                                  = some (st2, a2) := h2
                              rw [← some_pair_fst h3]
                              exact ExtendsS_trans (ih st c i st3 nc hrec) (allocN_extends _ _)

theorem deleteAfterS_ext {T : Type} [Inhabited T] :
    ∀ (fuel : Nat) (st : Store T) (a index : Nat) (st2 : Store T) (a2 : Nat),
      deleteAfterS fuel st a index false = some (st2, a2) → ExtendsS st st2 := by
  intro fuel
  induction fuel with
  | zero =>
      intro st a i st2 a2 h
      cases h
  | succ fuel ih =>
      intro st a i st2 a2 h
      unfold deleteAfterS at h
      cases hcb : containsAfterS (fuel + 1) st a i with
      | none =>
          rw [hcb] at h
          cases h
      | some cb =>
          rw [hcb] at h
          cases cb with
          | false =>
              have h2 : some ((st, a) : Store T × Nat) = some (st2, a2) := h
              rw [← some_pair_fst h2]
              exact ExtendsS_refl st
          | true =>
              cases hn : st.nodes[a]? with
              | none =>
                  rw [hn] at h
                  cases h
              | some nd =>
                  rw [hn] at h
                  cases nd with
                  | sliceD es =>
                      have h2 : some ((st, a) : Store T × Nat) = some (st2, a2) := h
                      rw [← some_pair_fst h2]
                      exact ExtendsS_refl st
                  | leafD ch occ =>
                      have h2 : some (allocN st (NodeD.leafD
                          (fun j => if j ≤ i % 32 then ch j else default)
                          (occ &&& ((1 <<< (i % 32 + 1)) - 1))))
                          = some (st2, a2) := h
                      rw [← some_pair_fst h2]
                      exact allocN_extends _ _
                  | branchD d children =>
                      have h1 : (match children (digit d i) with
                        | none => some (allocN st (NodeD.branchD d
                            (fun j => if j ≤ digit d i then children j else none)))
                        | some c =>
                            match deleteAfterS fuel st c i false with
                            | none => none
                            | some (st3, nc) => some (allocN st3 (NodeD.branchD d (fun j =>
                                if j = digit d i then some nc
                                else if j ≤ digit d i then children j else none))))
                          = some (st2, a2) := h
                      cases hch : children (digit d i) with
                      | none =>
                          rw [hch] at h1
                          have h2 : some (allocN st (NodeD.branchD d
                              (fun j => if j ≤ digit d i then children j else none)))
                              = some (st2, a2) := h1
                          rw [← some_pair_fst h2]
                          exact allocN_extends _ _
                      | some c =>
                          rw [hch] at h1
                          have h2 : (match deleteAfterS fuel st c i false with
                            | none => none
                            | some (st3, nc) => some (allocN st3 (NodeD.branchD d (fun j =>
                                if j = digit d i then some nc
                                else if j ≤ digit d i then children j else none))))
                              = some (st2, a2) := h1
                          cases hrec : deleteAfterS fuel st c i false with
                          | none =>
                              rw [hrec] at h2
                              cases h2
                          | some p =>
                              obtain ⟨st3, nc⟩ := p
                              rw [hrec] at h2
                              have h3 : some (allocN st3 (NodeD.branchD d (fun j =>
                                  if j = digit d i then some nc
                                  else if j ≤ digit d i then children j else none)))
                                  = some (st2, a2) := h2
                              rw [← some_pair_fst h3]
                              exact ExtendsS_trans (ih st c i st3 nc hrec) (allocN_extends _ _)

theorem setS_tail_ext {T : Type} [Inhabited T] (st : Store T) (l : ListR) (dd tgt : Nat)
    (v : T) {st2 : Store T} {r2 : Nat}
    (h : (match nodeSetS dd st l.root tgt v false with
      | none => none
      | some (st3, newRoot) => some (allocL st3 { l with root := newRoot }))
      = some (st2, r2)) :
    ExtendsS st st2 := by
  cases hrec : nodeSetS dd st l.root tgt v false with
  | none =>
      rw [hrec] at h
      cases h
  | some p =>
      obtain ⟨st3, newRoot⟩ := p
      rw [hrec] at h
      have h3 : some (allocL st3 { l with root := newRoot }) = some (st2, r2) := h
      rw [← some_pair_fst h3]
      exact ExtendsS_trans (nodeSetS_ext _ _ _ _ _ _ _ hrec) (allocL_extends _ _)

theorem listSetS_ext {T : Type} [Inhabited T] (st : Store T) (lref index : Nat) (v : T)
    {st2 : Store T} {r2 : Nat} (h : listSetS st lref index v false = some (st2, r2)) :
    ExtendsS st st2 := by
  unfold listSetS at h
  cases hl : st.lists[lref]? with
  | none =>
      rw [hl] at h
      cases h
  | some l =>
      rw [hl] at h
      have h0 : (if index ≥ l.size then none
        else match st.nodes[l.root]? with
          | none => none
          | some nd =>
              match nodeSetS (nd.depthD + 1) st l.root
                  (match nd with | .sliceD _ => index | _ => l.origin + index) v false with
              | none => none
              | some (st3, newRoot) => some (allocL st3 { l with root := newRoot }))
          = some (st2, r2) := h
      by_cases hb : index ≥ l.size
      · rw [if_pos hb] at h0
        cases h0
      · rw [if_neg hb] at h0
        cases hn : st.nodes[l.root]? with
        | none =>
            rw [hn] at h0
            cases h0
        | some nd =>
            rw [hn] at h0
            cases nd with
            | sliceD es =>
                exact setS_tail_ext st l ((NodeD.sliceD es).depthD + 1) index v h0
            | leafD ch occ =>
                exact setS_tail_ext st l ((NodeD.leafD ch occ).depthD + 1)
                  (l.origin + index) v h0
            | branchD d ch =>
                exact setS_tail_ext st l ((NodeD.branchD d ch).depthD + 1)
                  (l.origin + index) v h0

theorem listAppendTrieS_ext {T : Type} [Inhabited T] (st : Store T) (lref : Nat) (v : T)
    {st2 : Store T} {r2 : Nat} (h : listAppendTrieS st lref v false = some (st2, r2)) :
    ExtendsS st st2 := by
  unfold listAppendTrieS at h
  cases hl : st.lists[lref]? with
  | none =>
      rw [hl] at h
      cases h
  | some l =>
      rw [hl] at h
      have h0 : (match st.nodes[l.root]? with
        | none => none
        | some nd =>
            match nodeSetS ((if l.size + l.origin ≥ 32 ^ nd.depthD
                  then nd.depthD + 1 else nd.depthD) + 1)
                (if l.size + l.origin ≥ 32 ^ nd.depthD
                  then allocN st (NodeD.branchD (nd.depthD + 1)
                    (fun j => if j = 0 then some l.root else none))
                  else (st, l.root)).1
                (if l.size + l.origin ≥ 32 ^ nd.depthD
                  then allocN st (NodeD.branchD (nd.depthD + 1)
                    (fun j => if j = 0 then some l.root else none))
                  else (st, l.root)).2
                (l.origin + l.size) v false with
            | none => none
            | some (st3, newRoot) => some (allocL st3
                { root := newRoot, origin := l.origin, size := l.size + 1 }))
          = some (st2, r2) := h
      cases hn : st.nodes[l.root]? with
      | none =>
          rw [hn] at h0
          cases h0
      | some nd =>
          rw [hn] at h0
          have h2 : (match nodeSetS ((if l.size + l.origin ≥ 32 ^ nd.depthD
                then nd.depthD + 1 else nd.depthD) + 1)
              (if l.size + l.origin ≥ 32 ^ nd.depthD
                then allocN st (NodeD.branchD (nd.depthD + 1)
                  (fun j => if j = 0 then some l.root else none))
                else (st, l.root)).1
              (if l.size + l.origin ≥ 32 ^ nd.depthD
                then allocN st (NodeD.branchD (nd.depthD + 1)
                  (fun j => if j = 0 then some l.root else none))
                else (st, l.root)).2
              (l.origin + l.size) v false with
            | none => none
            | some (st3, newRoot) => some (allocL st3
                { root := newRoot, origin := l.origin, size := l.size + 1 }))
              = some (st2, r2) := h0
          by_cases hE : l.size + l.origin ≥ 32 ^ nd.depthD
          · simp only [if_pos hE] at h2
            cases hrec : nodeSetS (nd.depthD + 1 + 1)
                (allocN st (NodeD.branchD (nd.depthD + 1)
                  (fun j => if j = 0 then some l.root else none))).1
                (allocN st (NodeD.branchD (nd.depthD + 1)
                  (fun j => if j = 0 then some l.root else none))).2
                (l.origin + l.size) v false with
            | none =>
                rw [hrec] at h2
                cases h2
            | some p =>
                obtain ⟨st3, newRoot⟩ := p
                rw [hrec] at h2
                have h3 : some (allocL st3
                    { root := newRoot, origin := l.origin, size := l.size + 1 })
                    = some (st2, r2) := h2
                rw [← some_pair_fst h3]
                exact ExtendsS_trans (allocN_extends _ _)
                  (ExtendsS_trans (nodeSetS_ext _ _ _ _ _ _ _ hrec) (allocL_extends _ _))
          · simp only [if_neg hE] at h2
            cases hrec : nodeSetS (nd.depthD + 1) st l.root (l.origin + l.size) v false with
            | none =>
                rw [hrec] at h2
                cases h2
            | some p =>
                obtain ⟨st3, newRoot⟩ := p
                rw [hrec] at h2
                have h3 : some (allocL st3
                    { root := newRoot, origin := l.origin, size := l.size + 1 })
                    = some (st2, r2) := h2
                rw [← some_pair_fst h3]
                exact ExtendsS_trans (nodeSetS_ext _ _ _ _ _ _ _ hrec) (allocL_extends _ _)

theorem listPrependTrieS_ext {T : Type} [Inhabited T] (st : Store T) (lref : Nat) (v : T)
    {st2 : Store T} {r2 : Nat} (h : listPrependTrieS st lref v false = some (st2, r2)) :
    ExtendsS st st2 := by
  unfold listPrependTrieS at h
  cases hl : st.lists[lref]? with
  | none =>
      rw [hl] at h
      cases h
  | some l =>
      rw [hl] at h
      have h0 : (match st.nodes[l.root]? with
        | none => none
        | some nd =>
            match nodeSetS ((if l.origin = 0 then nd.depthD + 1 else nd.depthD) + 1)
                (if l.origin = 0
                  then allocN st (NodeD.branchD (nd.depthD + 1)
                    (fun j => if j = 31 then some l.root else none))
                  else (st, l.root)).1
                (if l.origin = 0
                  then allocN st (NodeD.branchD (nd.depthD + 1)
                    (fun j => if j = 31 then some l.root else none))
                  else (st, l.root)).2
                ((if l.origin = 0 then l.origin + 31 * 32 ^ (nd.depthD + 1) else l.origin) - 1)
                v false with
            | none => none
            | some (st3, newRoot) => some (allocL st3
                { root := newRoot,
                  origin := (if l.origin = 0
                    then l.origin + 31 * 32 ^ (nd.depthD + 1) else l.origin) - 1,
                  size := l.size + 1 }))
          = some (st2, r2) := h
      cases hn : st.nodes[l.root]? with
      | none =>
          rw [hn] at h0
          cases h0
      | some nd =>
          rw [hn] at h0
          by_cases hE : l.origin = 0
          · simp only [if_pos hE] at h0
            cases hrec : nodeSetS (nd.depthD + 1 + 1)
                (allocN st (NodeD.branchD (nd.depthD + 1)
                  (fun j => if j = 31 then some l.root else none))).1
                (allocN st (NodeD.branchD (nd.depthD + 1)
                  (fun j => if j = 31 then some l.root else none))).2
                (l.origin + 31 * 32 ^ (nd.depthD + 1) - 1) v false with
            | none =>
                rw [hrec] at h0
                cases h0
            | some p =>
                obtain ⟨st3, newRoot⟩ := p
                rw [hrec] at h0
                have h3 : some (allocL st3
                    { root := newRoot, origin := l.origin + 31 * 32 ^ (nd.depthD + 1) - 1,
                      size := l.size + 1 })
                    = some (st2, r2) := h0
                rw [← some_pair_fst h3]
                exact ExtendsS_trans (allocN_extends _ _)
                  (ExtendsS_trans (nodeSetS_ext _ _ _ _ _ _ _ hrec) (allocL_extends _ _))
          · simp only [if_neg hE] at h0
            cases hrec : nodeSetS (nd.depthD + 1) st l.root (l.origin - 1) v false with
            | none =>
                rw [hrec] at h0
                cases h0
            | some p =>
                obtain ⟨st3, newRoot⟩ := p
                rw [hrec] at h0
                have h3 : some (allocL st3
                    { root := newRoot, origin := l.origin - 1, size := l.size + 1 })
                    = some (st2, r2) := h0
                rw [← some_pair_fst h3]
                exact ExtendsS_trans (nodeSetS_ext _ _ _ _ _ _ _ hrec) (allocL_extends _ _)

theorem listAppendS_ext {T : Type} [Inhabited T] (st : Store T) (lref : Nat) (v : T)
    {st2 : Store T} {r2 : Nat} (h : listAppendS st lref v false = some (st2, r2)) :
    ExtendsS st st2 := by
  unfold listAppendS at h
  cases hl : st.lists[lref]? with
  | none =>
      rw [hl] at h
      cases h
  | some l =>
      rw [hl] at h
      have h0 : (match st.nodes[l.root]? with
        | none => none
        | some (.sliceD elements) =>
            if l.size < listSliceThreshold then
              some (allocL (allocN st (NodeD.sliceD ((List.range (l.size + 1)).map fun j =>
                  if j = l.size then v else elements.getD j default))).1
                (ListR.mk (allocN st (NodeD.sliceD ((List.range (l.size + 1)).map
                    fun j => if j = l.size then v else elements.getD j default))).2 l.origin (l.size + 1)))
            else
              listAppendTrieS (allocL (sliceToTrieS st elements).1
                  { root := (sliceToTrieS st elements).2, origin := 0, size := l.size }).1
                (allocL (sliceToTrieS st elements).1
                  { root := (sliceToTrieS st elements).2, origin := 0, size := l.size }).2
                v false
        | some _ => listAppendTrieS st lref v false)
          = some (st2, r2) := h
      cases hn : st.nodes[l.root]? with
      | none =>
          rw [hn] at h0
          cases h0
      | some nd =>
          rw [hn] at h0
          cases nd with
          | sliceD es =>
              have h1 : (if l.size < listSliceThreshold then
                  some (allocL (allocN st (NodeD.sliceD ((List.range (l.size + 1)).map fun j =>
                      if j = l.size then v else es.getD j default))).1
                    (ListR.mk (allocN st (NodeD.sliceD ((List.range (l.size + 1)).map
                        fun j => if j = l.size then v else es.getD j default))).2 l.origin (l.size + 1)))
                else
                  listAppendTrieS (allocL (sliceToTrieS st es).1
                      { root := (sliceToTrieS st es).2, origin := 0, size := l.size }).1
                    (allocL (sliceToTrieS st es).1
                      { root := (sliceToTrieS st es).2, origin := 0, size := l.size }).2
                    v false)
                  = some (st2, r2) := h0
              by_cases hth : l.size < listSliceThreshold
              · rw [if_pos hth] at h1
                rw [← some_pair_fst h1]
                exact ExtendsS_trans (allocN_extends _ _) (allocL_extends _ _)
              · rw [if_neg hth] at h1
                exact ExtendsS_trans
                  (ExtendsS_trans (sliceToTrieS_extends st es) (allocL_extends _ _))
                  (listAppendTrieS_ext _ _ _ h1)
          | leafD ch occ =>
              have h1 : listAppendTrieS st lref v false = some (st2, r2) := h0
              exact listAppendTrieS_ext _ _ _ h1
          | branchD d ch =>
              have h1 : listAppendTrieS st lref v false = some (st2, r2) := h0
              exact listAppendTrieS_ext _ _ _ h1

theorem listPrependS_ext {T : Type} [Inhabited T] (st : Store T) (lref : Nat) (v : T)
    {st2 : Store T} {r2 : Nat} (h : listPrependS st lref v false = some (st2, r2)) :
    ExtendsS st st2 := by
  unfold listPrependS at h
  cases hl : st.lists[lref]? with
  | none =>
      rw [hl] at h
      cases h
  | some l =>
      rw [hl] at h
      have h0 : (match st.nodes[l.root]? with
        | none => none
        | some (.sliceD elements) =>
            if l.size < listSliceThreshold then
              some (allocL (allocN st (NodeD.sliceD ((List.range (l.size + 1)).map fun j =>
                  if j = 0 then v else elements.getD (j - 1) default))).1
                (ListR.mk (allocN st (NodeD.sliceD ((List.range (l.size + 1)).map
                    fun j => if j = 0 then v else elements.getD (j - 1) default))).2 l.origin (l.size + 1)))
            else
              listPrependTrieS (allocL (sliceToTrieS st elements).1
                  { root := (sliceToTrieS st elements).2, origin := 0, size := l.size }).1
                (allocL (sliceToTrieS st elements).1
                  { root := (sliceToTrieS st elements).2, origin := 0, size := l.size }).2
                v false
        | some _ => listPrependTrieS st lref v false)
          = some (st2, r2) := h
      cases hn : st.nodes[l.root]? with
      | none =>
          rw [hn] at h0
          cases h0
      | some nd =>
          rw [hn] at h0
          cases nd with
          | sliceD es =>
              have h1 : (if l.size < listSliceThreshold then
                  some (allocL (allocN st (NodeD.sliceD ((List.range (l.size + 1)).map fun j =>
                      if j = 0 then v else es.getD (j - 1) default))).1
                    (ListR.mk (allocN st (NodeD.sliceD ((List.range (l.size + 1)).map
                        fun j => if j = 0 then v else es.getD (j - 1) default))).2 l.origin (l.size + 1)))
                else
                  listPrependTrieS (allocL (sliceToTrieS st es).1
                      { root := (sliceToTrieS st es).2, origin := 0, size := l.size }).1
                    (allocL (sliceToTrieS st es).1
                      { root := (sliceToTrieS st es).2, origin := 0, size := l.size }).2
                    v false)
                  = some (st2, r2) := h0
              by_cases hth : l.size < listSliceThreshold
              · rw [if_pos hth] at h1
                rw [← some_pair_fst h1]
                exact ExtendsS_trans (allocN_extends _ _) (allocL_extends _ _)
              · rw [if_neg hth] at h1
                exact ExtendsS_trans
                  (ExtendsS_trans (sliceToTrieS_extends st es) (allocL_extends _ _))
                  (listPrependTrieS_ext _ _ _ h1)
          | leafD ch occ =>
              have h1 : listPrependTrieS st lref v false = some (st2, r2) := h0
              exact listPrependTrieS_ext _ _ _ h1
          | branchD d ch =>
              have h1 : listPrependTrieS st lref v false = some (st2, r2) := h0
              exact listPrependTrieS_ext _ _ _ h1

theorem slicePath_ext {T : Type} [Inhabited T] (st : Store T) (ra o1 s1 dd : Nat)
    {st2 : Store T} {r2 : Nat}
    (h : (match contractS (dd + 1) st ra o1 s1 with
      | none => none
      | some (rc, o2) =>
          match st.nodes[rc]? with
          | none => none
          | some nd2 =>
              match deleteBeforeS (nd2.depthD + 1) st rc o2 false with
              | none => none
              | some (st3, r3) =>
                  match (if o2 + s1 = 0 then some (st3, r3)
                    else deleteAfterS (nd2.depthD + 1) st3 r3 (o2 + s1 - 1) false) with
                  | none => none
                  | some (st4, r4) =>
                      some (allocL st4 { root := r4, origin := o2, size := s1 }))
      = some (st2, r2)) :
    ExtendsS st st2 := by
  cases hc : contractS (dd + 1) st ra o1 s1 with
  | none =>
      rw [hc] at h
      cases h
  | some p =>
      obtain ⟨rc, o2⟩ := p
      rw [hc] at h
      have h1 : (match st.nodes[rc]? with
        | none => none
        | some nd2 =>
            match deleteBeforeS (nd2.depthD + 1) st rc o2 false with
            | none => none
            | some (st3, r3) =>
                match (if o2 + s1 = 0 then some (st3, r3)
                  else deleteAfterS (nd2.depthD + 1) st3 r3 (o2 + s1 - 1) false) with
                | none => none
                | some (st4, r4) =>
                    some (allocL st4 { root := r4, origin := o2, size := s1 }))
          = some (st2, r2) := h
      cases hn2 : st.nodes[rc]? with
      | none =>
          rw [hn2] at h1
          cases h1
      | some nd2 =>
          rw [hn2] at h1
          have h2 : (match deleteBeforeS (nd2.depthD + 1) st rc o2 false with
            | none => none
            | some (st3, r3) =>
                match (if o2 + s1 = 0 then some (st3, r3)
                  else deleteAfterS (nd2.depthD + 1) st3 r3 (o2 + s1 - 1) false) with
                | none => none
                | some (st4, r4) =>
                    some (allocL st4 { root := r4, origin := o2, size := s1 }))
              = some (st2, r2) := h1
          cases hdb : deleteBeforeS (nd2.depthD + 1) st rc o2 false with
          | none =>
              rw [hdb] at h2
              cases h2
          | some p3 =>
              obtain ⟨st3, r3⟩ := p3
              rw [hdb] at h2
              have hext3 : ExtendsS st st3 := deleteBeforeS_ext _ _ _ _ _ _ hdb
              have h5 : (match (if o2 + s1 = 0 then some ((st3, r3) : Store T × Nat)
                  else deleteAfterS (nd2.depthD + 1) st3 r3 (o2 + s1 - 1) false) with
                | none => none
                | some (st4, r4) =>
                    some (allocL st4 { root := r4, origin := o2, size := s1 }))
                  = some (st2, r2) := h2
              by_cases h0 : o2 + s1 = 0
              · rw [if_pos h0] at h5
                have h4 : some (allocL st3 { root := r3, origin := o2, size := s1 })
                    = some (st2, r2) := h5
                rw [← some_pair_fst h4]
                exact ExtendsS_trans hext3 (allocL_extends _ _)
              · rw [if_neg h0] at h5
                cases hda : deleteAfterS (nd2.depthD + 1) st3 r3 (o2 + s1 - 1) false with
                | none =>
                    rw [hda] at h5
                    cases h5
                | some p4 =>
                    obtain ⟨st4, r4⟩ := p4
                    rw [hda] at h5
                    have h4 : some (allocL st4 { root := r4, origin := o2, size := s1 })
                        = some (st2, r2) := h5
                    rw [← some_pair_fst h4]
                    exact ExtendsS_trans hext3
                      (ExtendsS_trans (deleteAfterS_ext _ _ _ _ _ _ hda) (allocL_extends _ _))

theorem listSliceS_ext {T : Type} [Inhabited T] (st : Store T) (lref start finish : Nat)
    {st2 : Store T} {r2 : Nat} (h : listSliceS st lref start finish false = some (st2, r2)) :
    ExtendsS st st2 := by
  unfold listSliceS at h
  cases hl : st.lists[lref]? with
  | none =>
      rw [hl] at h
      cases h
  | some l =>
      rw [hl] at h
      have h0 : (if start > l.size then none
        else if finish > l.size then none
        else if start > finish then none
        else if start = 0 ∧ finish = l.size then some (st, lref)
        else
          match st.nodes[l.root]? with
          | none => none
          | some (.sliceD elements) =>
              some (allocL (allocN st (NodeD.sliceD ((List.range (finish - start)).map
                  fun j => elements.getD (start + j) default))).1
                (ListR.mk (allocN st (NodeD.sliceD ((List.range (finish - start)).map
                  fun j => elements.getD (start + j) default))).2 0 (finish - start)))
          | some nd =>
              match contractS (nd.depthD + 1) st l.root (l.origin + start) (finish - start) with
              | none => none
              | some (rc, o2) =>
                  match st.nodes[rc]? with
                  | none => none
                  | some nd2 =>
                      match deleteBeforeS (nd2.depthD + 1) st rc o2 false with
                      | none => none
                      | some (st3, r3) =>
                          match (if o2 + (finish - start) = 0 then some (st3, r3)
                            else deleteAfterS (nd2.depthD + 1) st3 r3
                              (o2 + (finish - start) - 1) false) with
                          | none => none
                          | some (st4, r4) =>
                              some (allocL st4
                                { root := r4, origin := o2, size := finish - start }))
          = some (st2, r2) := h
      by_cases hb1 : start > l.size
      · rw [if_pos hb1] at h0
        cases h0
      rw [if_neg hb1] at h0
      by_cases hb2 : finish > l.size
      · rw [if_pos hb2] at h0
        cases h0
      rw [if_neg hb2] at h0
      by_cases hb3 : start > finish
      · rw [if_pos hb3] at h0
        cases h0
      rw [if_neg hb3] at h0
      by_cases hb4 : start = 0 ∧ finish = l.size
      · rw [if_pos hb4] at h0
        have h4 : some ((st, lref) : Store T × Nat) = some (st2, r2) := h0
        rw [← some_pair_fst h4]
        exact ExtendsS_refl st
      rw [if_neg hb4] at h0
      cases hn : st.nodes[l.root]? with
      | none =>
          rw [hn] at h0
          cases h0
      | some nd =>
          rw [hn] at h0
          cases nd with
          | sliceD es =>
              have h4 : some (allocL (allocN st (NodeD.sliceD ((List.range (finish - start)).map
                  fun j => es.getD (start + j) default))).1
                (ListR.mk (allocN st (NodeD.sliceD ((List.range (finish - start)).map
                  fun j => es.getD (start + j) default))).2 0 (finish - start)))
                  = some (st2, r2) := h0
              rw [← some_pair_fst h4]
              exact ExtendsS_trans (allocN_extends _ _) (allocL_extends _ _)
          | leafD ch occ =>
              exact slicePath_ext st l.root (l.origin + start) (finish - start)
                (NodeD.leafD ch occ).depthD h0
          | branchD d ch =>
              exact slicePath_ext st l.root (l.origin + start) (finish - start)
                (NodeD.branchD d ch).depthD h0

/-- Whether stored node data is a slice node. -/
def isSliceD {T : Type} : NodeD T → Bool
  | .sliceD _ => true
  | _ => false

/-- All branch children of nodes at addresses `≥ N` point at addresses
`≥ N`: the fresh segment of a store is closed under children.  Mutable
operations on a tree living entirely in the fresh segment then write only
there. -/
def SegGE {T : Type} (st : Store T) (N : Nat) : Prop :=
  ∀ a d ch, N ≤ a → st.nodes[a]? = some (NodeD.branchD d ch) →
    ∀ j c, ch j = some c → N ≤ c

/-- One mutable step touches only the segment at or above `N` (nodes) and
`L` (lists): everything below is bit-for-bit preserved. -/
def MutStepL {T : Type} (st st2 : Store T) (N L : Nat) : Prop :=
  st.nodes.length ≤ st2.nodes.length ∧
  (∀ x, x < N → st2.nodes[x]? = st.nodes[x]?) ∧
  st.lists.length ≤ st2.lists.length ∧
  (∀ r, r < L → st2.lists[r]? = st.lists[r]?)

theorem MutStepL_refl {T : Type} (st : Store T) (N L : Nat) : MutStepL st st N L :=
  ⟨le_rfl, fun _ _ => rfl, le_rfl, fun _ _ => rfl⟩

theorem MutStepL_trans {T : Type} {s1 s2 s3 : Store T} {N L : Nat}
    (h12 : MutStepL s1 s2 N L) (h23 : MutStepL s2 s3 N L) : MutStepL s1 s3 N L := by
  obtain ⟨a1, a2, a3, a4⟩ := h12
  obtain ⟨b1, b2, b3, b4⟩ := h23
  exact ⟨le_trans a1 b1, fun x hx => (b2 x hx).trans (a2 x hx),
    le_trans a3 b3, fun r hr => (b4 r hr).trans (a4 r hr)⟩

theorem MutStepL_allocN {T : Type} (st : Store T) (nd : NodeD T) (N L : Nat)
    (hN : N ≤ st.nodes.length) : MutStepL st (allocN st nd).1 N L := by
  refine ⟨?_, ?_, le_rfl, fun _ _ => rfl⟩
  · show st.nodes.length ≤ (st.nodes ++ [nd]).length
    simp
  · intro x hx
    show (st.nodes ++ [nd])[x]? = st.nodes[x]?
    exact List.getElem?_append_left (by omega)

theorem MutStepL_writeN {T : Type} (st : Store T) (a : Nat) (nd : NodeD T) (N L : Nat)
    (ha : N ≤ a) : MutStepL st (writeN st a nd) N L := by
  refine ⟨?_, ?_, le_rfl, fun _ _ => rfl⟩
  · show st.nodes.length ≤ (st.nodes.set a nd).length
    rw [List.length_set]
  · intro x hx
    show (st.nodes.set a nd)[x]? = st.nodes[x]?
    exact List.getElem?_set_ne (by omega)

theorem segGE_allocN {T : Type} {st : Store T} {N : Nat} (hs : SegGE st N)
    (nd : NodeD T)
    (hnd : ∀ d ch, nd = NodeD.branchD d ch → ∀ j c, ch j = some c → N ≤ c) :
    SegGE (allocN st nd).1 N := by
  intro b d ch hb hbe
  show ∀ j c, ch j = some c → N ≤ c
  by_cases hlt : b < st.nodes.length
  · have : (st.nodes ++ [nd])[b]? = st.nodes[b]? := List.getElem?_append_left hlt
    rw [show ((allocN st nd).1.nodes[b]? : Option (NodeD T))
      = (st.nodes ++ [nd])[b]? from rfl, this] at hbe
    exact hs b d ch hb hbe
  · by_cases hbe2 : b = st.nodes.length
    · subst hbe2
      have : (st.nodes ++ [nd])[st.nodes.length]? = some nd :=
        List.getElem?_concat_length _ _
      rw [show ((allocN st nd).1.nodes[st.nodes.length]? : Option (NodeD T))
        = (st.nodes ++ [nd])[st.nodes.length]? from rfl, this] at hbe
      exact hnd d ch (Option.some.inj hbe)
    · have hnone : (st.nodes ++ [nd])[b]? = none := by
        rw [List.getElem?_eq_none]
        simp only [List.length_append, List.length_singleton]
        omega
      rw [show ((allocN st nd).1.nodes[b]? : Option (NodeD T))
        = (st.nodes ++ [nd])[b]? from rfl, hnone] at hbe
      cases hbe

theorem segGE_writeN {T : Type} {st : Store T} {N : Nat} (hs : SegGE st N)
    (a : Nat) (nd : NodeD T)
    (hnd : ∀ d ch, nd = NodeD.branchD d ch → ∀ j c, ch j = some c → N ≤ c) :
    SegGE (writeN st a nd) N := by
  intro b d ch hb hbe
  show ∀ j c, ch j = some c → N ≤ c
  by_cases hba : b = a
  · subst hba
    by_cases hlt : b < st.nodes.length
    · have : (st.nodes.set b nd)[b]? = some nd := List.getElem?_set_self hlt
      rw [show ((writeN st b nd).nodes[b]? : Option (NodeD T))
        = (st.nodes.set b nd)[b]? from rfl, this] at hbe
      exact hnd d ch (Option.some.inj hbe)
    · have : st.nodes.set b nd = st.nodes := List.set_eq_of_length_le (by omega)
      rw [show ((writeN st b nd).nodes[b]? : Option (NodeD T))
        = (st.nodes.set b nd)[b]? from rfl, this] at hbe
      exact hs b d ch hb hbe
  · have : (st.nodes.set a nd)[b]? = st.nodes[b]? := List.getElem?_set_ne (Ne.symm hba)
    rw [show ((writeN st a nd).nodes[b]? : Option (NodeD T))
      = (st.nodes.set a nd)[b]? from rfl, this] at hbe
    exact hs b d ch hb hbe

theorem some_pair_snd {A B : Type} {p : A × B} {x : A} {y : B}
    (h : some p = some (x, y)) : p.2 = y := by
  cases Option.some.inj h
  rfl

theorem newNodeS_addr {T : Type} [Inhabited T] (st : Store T) (d : Nat) :
    (newNodeS st d).2 = st.nodes.length := by
  unfold newNodeS
  by_cases h : d = 0
  · rw [if_pos h]
    rfl
  · rw [if_neg h]
    rfl

theorem newNodeS_nodes_length {T : Type} [Inhabited T] (st : Store T) (d : Nat) :
    (newNodeS st d).1.nodes.length = st.nodes.length + 1 := by
  unfold newNodeS
  by_cases h : d = 0
  · rw [if_pos h]
    show (st.nodes ++ [NodeD.leafD (fun _ => default) 0]).length = st.nodes.length + 1
    simp
  · rw [if_neg h]
    show (st.nodes ++ [NodeD.branchD d fun _ => none]).length = st.nodes.length + 1
    simp

theorem newNodeS_lists {T : Type} [Inhabited T] (st : Store T) (d : Nat) :
    (newNodeS st d).1.lists = st.lists := by
  unfold newNodeS
  by_cases h : d = 0
  · rw [if_pos h]
    rfl
  · rw [if_neg h]
    rfl

theorem segGE_newNodeS {T : Type} [Inhabited T] {st : Store T} {N : Nat} (hs : SegGE st N)
    (d : Nat) : SegGE (newNodeS st d).1 N := by
  unfold newNodeS
  by_cases h : d = 0
  · rw [if_pos h]
    refine segGE_allocN hs _ ?_
    intro d2 ch2 heq
    cases heq
  · rw [if_neg h]
    refine segGE_allocN hs _ ?_
    intro d2 ch2 heq j c hc
    cases heq
    cases hc

theorem MutStepL_newNodeS {T : Type} [Inhabited T] (st : Store T) (d N L : Nat)
    (hN : N ≤ st.nodes.length) : MutStepL st (newNodeS st d).1 N L := by
  unfold newNodeS
  by_cases h : d = 0
  · rw [if_pos h]
    exact MutStepL_allocN st _ N L hN
  · rw [if_neg h]
    exact MutStepL_allocN st _ N L hN

theorem getElem_some_lt {A : Type} {l : List A} {n : Nat} {x : A}
    (h : l[n]? = some x) : n < l.length := by
  by_contra hc
  rw [List.getElem?_eq_none (by omega)] at h
  cases h

/-- A mutable `set` on a node in the fresh segment of a segment-closed
store touches only the fresh segment: everything below `N` survives, the
segment stays closed, the returned root is in the segment, the list heap
is untouched, and a non-slice node stays non-slice. -/
theorem nodeSetS_mut_seg {T : Type} [Inhabited T] (N : Nat) :
    ∀ (fuel : Nat) (st : Store T) (a i : Nat) (v : T) (st2 : Store T) (a2 : Nat),
      N ≤ st.nodes.length → SegGE st N → N ≤ a →
      nodeSetS fuel st a i v true = some (st2, a2) →
      MutStepL st st2 N 0 ∧ SegGE st2 N ∧ N ≤ a2 ∧ N ≤ st2.nodes.length ∧
      st2.lists = st.lists ∧
      (∀ nd0, st.nodes[a]? = some nd0 →
        ∃ nd1, st2.nodes[a2]? = some nd1 ∧ isSliceD nd1 = isSliceD nd0) := by
  intro fuel
  induction fuel with
  | zero =>
      intro st a i v st2 a2 _ _ _ h
      cases h
  | succ fuel ih =>
      intro st a i v st2 a2 hN hs ha h
      unfold nodeSetS at h
      cases hn : st.nodes[a]? with
      | none =>
          rw [hn] at h
          cases h
      | some nd =>
          have halen : a < st.nodes.length := getElem_some_lt hn
          rw [hn] at h
          cases nd with
          | sliceD es =>
              have h2 : (if i ≥ es.length then none
                else some (writeN st a (NodeD.sliceD (es.set i v)), a)) = some (st2, a2) := h
              by_cases hb : i ≥ es.length
              · rw [if_pos hb] at h2
                cases h2
              · rw [if_neg hb] at h2
                have hst : (writeN st a (NodeD.sliceD (es.set i v)), a).1 = st2 :=
                  some_pair_fst h2
                have haa : (writeN st a (NodeD.sliceD (es.set i v)), a).2 = a2 :=
                  some_pair_snd h2
                rw [← hst, ← haa]
                refine ⟨MutStepL_writeN st a _ N 0 ha,
                  segGE_writeN hs a _ (by intro d ch heq; cases heq), ha, ?_, rfl, ?_⟩
                · show N ≤ (st.nodes.set a _).length
                  rw [List.length_set]
                  exact hN
                · intro nd0 h0
                  cases Option.some.inj h0
                  refine ⟨NodeD.sliceD (es.set i v), ?_, rfl⟩
                  show (st.nodes.set a (NodeD.sliceD (es.set i v)))[a]? = _
                  exact List.getElem?_set_self halen
          | leafD ch occ =>
              have h2 : some (writeN st a (NodeD.leafD
                  (fun j => if j = i % 32 then v else ch j) (occ ||| (1 <<< (i % 32)))), a)
                  = some (st2, a2) := h
              have hst := some_pair_fst h2
              have haa := some_pair_snd h2
              rw [← hst, ← haa]
              refine ⟨MutStepL_writeN st a _ N 0 ha,
                segGE_writeN hs a _ (by intro d ch2 heq; cases heq), ha, ?_, rfl, ?_⟩
              · show N ≤ (st.nodes.set a _).length
                rw [List.length_set]
                exact hN
              · intro nd0 h0
                cases Option.some.inj h0
                refine ⟨NodeD.leafD (fun j => if j = i % 32 then v else ch j)
                  (occ ||| (1 <<< (i % 32))), ?_, rfl⟩
                show (st.nodes.set a (NodeD.leafD
                  (fun j => if j = i % 32 then v else ch j) (occ ||| (1 <<< (i % 32)))))[a]? = _
                exact List.getElem?_set_self halen
          | branchD d children =>
              have h1 : (match nodeSetS fuel
                  (match children (digit d i) with
                    | some c => (st, c)
                    | none => newNodeS st (d - 1)).1
                  (match children (digit d i) with
                    | some c => ((st, c) : Store T × Nat)
                    | none => newNodeS st (d - 1)).2 i v true with
                | none => none
                | some (st3, newChild) =>
                    match st3.nodes[a]? with
                    | some (.branchD d2 ch2) =>
                        some (writeN st3 a
                          (NodeD.branchD d2
                            (fun j => if j = digit d i then some newChild else ch2 j)), a)
                    | _ => none)
                  = some (st2, a2) := h
              have hstep : MutStepL st
                    (match children (digit d i) with
                      | some c => ((st, c) : Store T × Nat)
                      | none => newNodeS st (d - 1)).1 N 0 ∧
                  SegGE (match children (digit d i) with
                      | some c => ((st, c) : Store T × Nat)
                      | none => newNodeS st (d - 1)).1 N ∧
                  N ≤ (match children (digit d i) with
                      | some c => ((st, c) : Store T × Nat)
                      | none => newNodeS st (d - 1)).2 ∧
                  N ≤ (match children (digit d i) with
                      | some c => ((st, c) : Store T × Nat)
                      | none => newNodeS st (d - 1)).1.nodes.length ∧
                  (match children (digit d i) with
                      | some c => ((st, c) : Store T × Nat)
                      | none => newNodeS st (d - 1)).1.lists = st.lists := by
                cases hch : children (digit d i) with
                | some c =>
                    exact ⟨MutStepL_refl st N 0, hs, hs a d children ha hn _ c hch, hN, rfl⟩
                | none =>
                    refine ⟨MutStepL_newNodeS st (d - 1) N 0 hN, segGE_newNodeS hs (d - 1),
                      ?_, ?_, newNodeS_lists st (d - 1)⟩
                    · rw [newNodeS_addr]
                      exact hN
                    · rw [newNodeS_nodes_length]
                      omega
              obtain ⟨hm1, hs1, hc1, hn1, hl1⟩ := hstep
              cases hrec : nodeSetS fuel
                  (match children (digit d i) with
                    | some c => ((st, c) : Store T × Nat)
                    | none => newNodeS st (d - 1)).1
                  (match children (digit d i) with
                    | some c => ((st, c) : Store T × Nat)
                    | none => newNodeS st (d - 1)).2 i v true with
              | none =>
                  rw [hrec] at h1
                  cases h1
              | some p =>
                  obtain ⟨st3, newChild⟩ := p
                  rw [hrec] at h1
                  obtain ⟨hm2, hs2, hc2, hn2, hl2, _⟩ := ih _ _ i v st3 newChild hn1 hs1 hc1 hrec
                  have h3 : (match st3.nodes[a]? with
                    | some (.branchD d2 ch2) =>
                        some (writeN st3 a
                          (NodeD.branchD d2
                            (fun j => if j = digit d i then some newChild else ch2 j)), a)
                    | _ => none) = some (st2, a2) := h1
                  cases hn3 : st3.nodes[a]? with
                  | none =>
                      rw [hn3] at h3
                      cases h3
                  | some nd3 =>
                      rw [hn3] at h3
                      cases nd3 with
                      | sliceD es3 =>
                          cases h3
                      | leafD ch3 occ3 =>
                          cases h3
                      | branchD d2 ch2 =>
                          have hst := some_pair_fst h3
                          have haa := some_pair_snd h3
                          rw [← hst, ← haa]
                          have hmw : MutStepL st3 (writeN st3 a (NodeD.branchD d2
                              (fun j => if j = digit d i then some newChild else ch2 j))) N 0 :=
                            MutStepL_writeN st3 a _ N 0 ha
                          have hsw : SegGE (writeN st3 a (NodeD.branchD d2
                              (fun j => if j = digit d i then some newChild else ch2 j))) N := by
                            refine segGE_writeN hs2 a _ ?_
                            intro d3 ch3 heq j c hc
                            cases heq
                            have hc5 : (if j = digit d i then some newChild else ch2 j)
                                = some c := hc
                            by_cases hj : j = digit d i
                            · rw [if_pos hj] at hc5
                              cases Option.some.inj hc5
                              exact hc2
                            · rw [if_neg hj] at hc5
                              exact hs2 a d2 ch2 ha hn3 j c hc5
                          refine ⟨MutStepL_trans hm1 (MutStepL_trans hm2 hmw), hsw, ha, ?_, ?_, ?_⟩
                          · show N ≤ (st3.nodes.set a _).length
                            rw [List.length_set]
                            exact hn2
                          · show st3.lists = st.lists
                            rw [hl2, hl1]
                          · intro nd0 h0
                            cases Option.some.inj h0
                            have halen3 : a < st3.nodes.length := getElem_some_lt hn3
                            refine ⟨NodeD.branchD d2
                              (fun j => if j = digit d i then some newChild else ch2 j), ?_, rfl⟩
                            show (st3.nodes.set a (NodeD.branchD d2
                              (fun j => if j = digit d i then some newChild else ch2 j)))[a]? = _
                            exact List.getElem?_set_self halen3

theorem MutStepL_of_listsEq {T : Type} {s1 s2 : Store T} {N L : Nat}
    (h : MutStepL s1 s2 N 0) (hl : s2.lists = s1.lists) : MutStepL s1 s2 N L := by
  obtain ⟨a1, a2, _, _⟩ := h
  refine ⟨a1, a2, ?_, ?_⟩
  · rw [hl]
  · intro r _
    rw [hl]

theorem MutStepL_writeL {T : Type} (st : Store T) (lref : Nat) (x : ListR) (N L : Nat)
    (hlref : L ≤ lref) : MutStepL st (writeL st lref x) N L := by
  refine ⟨le_rfl, fun _ _ => rfl, ?_, ?_⟩
  · show st.lists.length ≤ (st.lists.set lref x).length
    rw [List.length_set]
  · intro r hr
    show (st.lists.set lref x)[r]? = st.lists[r]?
    exact List.getElem?_set_ne (by omega)

/-- The write-back tail of the mutable trie `append`/`prepend`: a mutable
node set in the fresh segment followed by writing the struct in place. -/
theorem setWriteTail_mut {T : Type} [Inhabited T] (st0 stA : Store T)
    (root1 dd tgt lref : Nat) (v : T) (norig nsize : Nat) (N L : Nat)
    (hstep0 : MutStepL st0 stA N L) (hsA : SegGE stA N) (hroot1 : N ≤ root1)
    (hNA : N ≤ stA.nodes.length) (hlistsA : stA.lists = st0.lists)
    (hlt : lref < st0.lists.length) (hlref : L ≤ lref) (hL : L ≤ st0.lists.length)
    (ndA : NodeD T) (hndA : stA.nodes[root1]? = some ndA) (hndAs : isSliceD ndA = false)
    {st2 : Store T} {r2 : Nat}
    (h : (match nodeSetS dd stA root1 tgt v true with
      | none => none
      | some (st3, newRoot) =>
          some (writeL st3 lref (ListR.mk newRoot norig nsize), lref)) = some (st2, r2)) :
    MutStepL st0 st2 N L ∧ SegGE st2 N ∧ r2 = lref ∧
    (∀ l2, st2.lists[r2]? = some l2 → N ≤ l2.root ∧
      ∃ nd2, st2.nodes[l2.root]? = some nd2 ∧ isSliceD nd2 = false) ∧
    N ≤ st2.nodes.length ∧ L ≤ st2.lists.length ∧ r2 < st2.lists.length ∧
    st2.lists.length = st0.lists.length := by
  cases hrec : nodeSetS dd stA root1 tgt v true with
  | none =>
      rw [hrec] at h
      cases h
  | some p =>
      obtain ⟨st3, newRoot⟩ := p
      rw [hrec] at h
      obtain ⟨hm2, hs2, hc2, hn2, hl2, hpres⟩ :=
        nodeSetS_mut_seg N dd stA root1 tgt v st3 newRoot hNA hsA hroot1 hrec
      obtain ⟨nd1, hnd1, hnd1s⟩ := hpres ndA hndA
      have hst := some_pair_fst h
      have haa := some_pair_snd h
      rw [← hst, ← haa]
      have hlen3 : st3.lists.length = st0.lists.length := by
        rw [hl2, hlistsA]
      have hlt3 : lref < st3.lists.length := by omega
      refine ⟨?_, ?_, rfl, ?_, ?_, ?_, ?_, ?_⟩
      · exact MutStepL_trans hstep0 (MutStepL_trans
          (MutStepL_of_listsEq hm2 (by rw [hl2])) (MutStepL_writeL st3 lref _ N L hlref))
      · exact hs2
      · intro l2 hl2e
        have hself : (st3.lists.set lref (ListR.mk newRoot norig nsize))[lref]?
            = some (ListR.mk newRoot norig nsize) := List.getElem?_set_self hlt3
        rw [show ((writeL st3 lref (ListR.mk newRoot norig nsize), lref).1.lists[
              (writeL st3 lref (ListR.mk newRoot norig nsize), lref).2]? : Option ListR)
            = (st3.lists.set lref (ListR.mk newRoot norig nsize))[lref]? from rfl,
          hself] at hl2e
        cases Option.some.inj hl2e
        rw [hndAs] at hnd1s
        exact ⟨hc2, nd1, hnd1, hnd1s⟩
      · show N ≤ st3.nodes.length
        exact hn2
      · show L ≤ (st3.lists.set lref _).length
        rw [List.length_set]
        omega
      · show lref < (st3.lists.set lref _).length
        rw [List.length_set]
        omega
      · show (st3.lists.set lref _).length = st0.lists.length
        rw [List.length_set]
        omega

theorem listAppendTrieS_mut {T : Type} [Inhabited T] (st : Store T) (lref : Nat) (v : T)
    (N L : Nat) (hN : N ≤ st.nodes.length) (hL : L ≤ st.lists.length) (hs : SegGE st N)
    (hlref : L ≤ lref) (hlt : lref < st.lists.length)
    (hroot : ∀ l, st.lists[lref]? = some l → N ≤ l.root ∧
      ∃ nd, st.nodes[l.root]? = some nd ∧ isSliceD nd = false)
    {st2 : Store T} {r2 : Nat} (h : listAppendTrieS st lref v true = some (st2, r2)) :
    MutStepL st st2 N L ∧ SegGE st2 N ∧ r2 = lref ∧
    (∀ l2, st2.lists[r2]? = some l2 → N ≤ l2.root ∧
      ∃ nd2, st2.nodes[l2.root]? = some nd2 ∧ isSliceD nd2 = false) ∧
    N ≤ st2.nodes.length ∧ L ≤ st2.lists.length ∧ r2 < st2.lists.length ∧
    st2.lists.length = st.lists.length := by
  unfold listAppendTrieS at h
  cases hl : st.lists[lref]? with
  | none =>
      rw [hl] at h
      cases h
  | some l =>
      rw [hl] at h
      obtain ⟨hrge, nd0, hnd0, hnd0s⟩ := hroot l hl
      have h0 : (match st.nodes[l.root]? with
        | none => none
        | some nd =>
            match nodeSetS ((if l.size + l.origin ≥ 32 ^ nd.depthD
                  then nd.depthD + 1 else nd.depthD) + 1)
                (if l.size + l.origin ≥ 32 ^ nd.depthD
                  then allocN st (NodeD.branchD (nd.depthD + 1)
                    (fun j => if j = 0 then some l.root else none))
                  else (st, l.root)).1
                (if l.size + l.origin ≥ 32 ^ nd.depthD
                  then allocN st (NodeD.branchD (nd.depthD + 1)
                    (fun j => if j = 0 then some l.root else none))
                  else (st, l.root)).2
                (l.origin + l.size) v true with
            | none => none
            | some (st3, newRoot) =>
                some (writeL st3 lref (ListR.mk newRoot l.origin (l.size + 1)), lref))
          = some (st2, r2) := h
      rw [hnd0] at h0
      have h2 : (match nodeSetS ((if l.size + l.origin ≥ 32 ^ nd0.depthD
              then nd0.depthD + 1 else nd0.depthD) + 1)
            (if l.size + l.origin ≥ 32 ^ nd0.depthD
              then allocN st (NodeD.branchD (nd0.depthD + 1)
                (fun j => if j = 0 then some l.root else none))
              else (st, l.root)).1
            (if l.size + l.origin ≥ 32 ^ nd0.depthD
              then allocN st (NodeD.branchD (nd0.depthD + 1)
                (fun j => if j = 0 then some l.root else none))
              else (st, l.root)).2
            (l.origin + l.size) v true with
        | none => none
        | some (st3, newRoot) =>
            some (writeL st3 lref (ListR.mk newRoot l.origin (l.size + 1)), lref))
          = some (st2, r2) := h0
      by_cases hE : l.size + l.origin ≥ 32 ^ nd0.depthD
      · simp only [if_pos hE] at h2
        have hsegB : SegGE (allocN st (NodeD.branchD (nd0.depthD + 1)
            (fun j => if j = 0 then some l.root else none))).1 N := by
          refine segGE_allocN hs _ ?_
          intro d2 ch2 heq j c hc
          cases heq
          have hc2 : (if j = 0 then some l.root else none) = some c := hc
          by_cases hj : j = 0
          · rw [if_pos hj] at hc2
            cases Option.some.inj hc2
            exact hrge
          · rw [if_neg hj] at hc2
            cases hc2
        exact setWriteTail_mut st _ _ _ _ _ v l.origin (l.size + 1) N L
          (MutStepL_allocN st _ N L hN) hsegB
          (show N ≤ st.nodes.length from hN)
          (by show N ≤ (st.nodes ++ [_]).length; simp; omega)
          rfl hlt hlref hL _
          (show ((st.nodes ++ [NodeD.branchD (nd0.depthD + 1)
            (fun j => if j = 0 then some l.root else none)])[st.nodes.length]?
              : Option (NodeD T))
            = some (NodeD.branchD (nd0.depthD + 1)
              (fun j => if j = 0 then some l.root else none))
            from List.getElem?_concat_length _ _)
          rfl h2
      · simp only [if_neg hE] at h2
        exact setWriteTail_mut st st l.root (nd0.depthD + 1) (l.origin + l.size) lref
          v l.origin (l.size + 1) N L (MutStepL_refl st N L) hs hrge hN rfl hlt hlref hL
          nd0 hnd0 hnd0s h2

theorem listAppendS_mut {T : Type} [Inhabited T] (st : Store T) (lref : Nat) (v : T)
    (N L : Nat) (hN : N ≤ st.nodes.length) (hL : L ≤ st.lists.length) (hs : SegGE st N)
    (hlref : L ≤ lref) (hlt : lref < st.lists.length)
    (hroot : ∀ l, st.lists[lref]? = some l → N ≤ l.root ∧
      ∃ nd, st.nodes[l.root]? = some nd ∧ isSliceD nd = false)
    {st2 : Store T} {r2 : Nat} (h : listAppendS st lref v true = some (st2, r2)) :
    MutStepL st st2 N L ∧ SegGE st2 N ∧ r2 = lref ∧
    (∀ l2, st2.lists[r2]? = some l2 → N ≤ l2.root ∧
      ∃ nd2, st2.nodes[l2.root]? = some nd2 ∧ isSliceD nd2 = false) ∧
    N ≤ st2.nodes.length ∧ L ≤ st2.lists.length ∧ r2 < st2.lists.length ∧
    st2.lists.length = st.lists.length := by
  unfold listAppendS at h
  cases hl : st.lists[lref]? with
  | none =>
      rw [hl] at h
      cases h
  | some l =>
      rw [hl] at h
      obtain ⟨hrge, nd0, hnd0, hnd0s⟩ := hroot l hl
      have h0 : (match st.nodes[l.root]? with
        | none => none
        | some (.sliceD elements) =>
            if l.size < listSliceThreshold then
              some (writeL (allocN st (NodeD.sliceD ((List.range (l.size + 1)).map fun j =>
                  if j = l.size then v else elements.getD j default))).1 lref
                (ListR.mk (allocN st (NodeD.sliceD ((List.range (l.size + 1)).map
                    fun j => if j = l.size then v else elements.getD j default))).2
                  l.origin (l.size + 1)), lref)
            else
              listAppendTrieS (allocL (sliceToTrieS st elements).1
                  { root := (sliceToTrieS st elements).2, origin := 0, size := l.size }).1
                (allocL (sliceToTrieS st elements).1
                  { root := (sliceToTrieS st elements).2, origin := 0, size := l.size }).2
                v true
        | some _ => listAppendTrieS st lref v true)
          = some (st2, r2) := h
      rw [hnd0] at h0
      cases nd0 with
      | sliceD es =>
          rw [show isSliceD (NodeD.sliceD es) = true from rfl] at hnd0s
          cases hnd0s
      | leafD ch occ =>
          have h1 : listAppendTrieS st lref v true = some (st2, r2) := h0
          exact listAppendTrieS_mut st lref v N L hN hL hs hlref hlt
            (fun l2 hl2 => hroot l2 hl2) h1
      | branchD d chn =>
          have h1 : listAppendTrieS st lref v true = some (st2, r2) := h0
          exact listAppendTrieS_mut st lref v N L hN hL hs hlref hlt
            (fun l2 hl2 => hroot l2 hl2) h1

theorem segGE_top {T : Type} (st : Store T) : SegGE st st.nodes.length := by
  intro a d ch ha he
  rw [List.getElem?_eq_none (by omega)] at he
  cases he

theorem foldl_appendS_mut {T : Type} [Inhabited T] (values : List T) :
    ∀ (st : Store T) (lref N L : Nat), N ≤ st.nodes.length → L ≤ st.lists.length →
      SegGE st N → L ≤ lref → lref < st.lists.length →
      (∀ l, st.lists[lref]? = some l → N ≤ l.root ∧
        ∃ nd, st.nodes[l.root]? = some nd ∧ isSliceD nd = false) →
      ∀ {st2 : Store T} {r2 : Nat}, values.foldlM (fun (p : Store T × Nat) v =>
          listAppendS p.1 p.2 v true) (st, lref) = some (st2, r2) →
      MutStepL st st2 N L := by
  induction values with
  | nil =>
      intro st lref N L _ _ _ _ _ _ st2 r2 h
      rw [List.foldlM_nil] at h
      have hp : (st, lref).1 = st2 := some_pair_fst h
      rw [← hp]
      exact MutStepL_refl st N L
  | cons x xs ih =>
      intro st lref N L hN hL hs hlref hlt hroot st2 r2 h
      rw [List.foldlM_cons] at h
      cases happ : listAppendS st lref x true with
      | none =>
          rw [happ] at h
          cases h
      | some q =>
          obtain ⟨stM, rM⟩ := q
          rw [happ] at h
          have h2 : xs.foldlM (fun (p : Store T × Nat) v =>
              listAppendS p.1 p.2 v true) (stM, rM) = some (st2, r2) := h
          obtain ⟨hm, hsM, hrM, hrootM, hNM, hLM, hltM, _⟩ :=
            listAppendS_mut st lref x N L hN hL hs hlref hlt hroot happ
          exact MutStepL_trans hm (ih stM rM N L hNM hLM hsM
            (by rw [hrM]; exact hlref) hltM hrootM h2)

theorem newListS_ext {T : Type} [Inhabited T] (st : Store T) (values : List T)
    {st2 : Store T} {r2 : Nat} (h : newListS st values = some (st2, r2)) :
    ExtendsS st st2 := by
  unfold newListS at h
  by_cases hbig : values.length > listSliceThreshold
  · rw [if_pos hbig] at h
    have h2 : values.foldlM (fun (p : Store T × Nat) v => listAppendS p.1 p.2 v true)
        ((allocL (allocN st (NodeD.leafD (fun _ => default) 0)).1
          (ListR.mk (allocN st (NodeD.leafD (fun _ => default) 0)).2 0 0)).1,
         (allocL (allocN st (NodeD.leafD (fun _ => default) 0)).1
          (ListR.mk (allocN st (NodeD.leafD (fun _ => default) 0)).2 0 0)).2)
        = some (st2, r2) := h
    have hm2 := foldl_appendS_mut values
      (allocL (allocN st (NodeD.leafD (fun _ => default) 0)).1
        (ListR.mk (allocN st (NodeD.leafD (fun _ => default) 0)).2 0 0)).1
      (allocL (allocN st (NodeD.leafD (fun _ => default) 0)).1
        (ListR.mk (allocN st (NodeD.leafD (fun _ => default) 0)).2 0 0)).2
      st.nodes.length st.lists.length
      (by show st.nodes.length ≤ (st.nodes ++ [NodeD.leafD (fun _ => default) 0]).length
          simp)
      (by show st.lists.length
            ≤ (st.lists ++ [ListR.mk st.nodes.length 0 0]).length
          simp)
      (by
        have hseg : SegGE (allocN st (NodeD.leafD (fun _ => (default : T)) 0)).1
            st.nodes.length := by
          refine segGE_allocN (segGE_top st) _ ?_
          intro d2 ch2 heq
          cases heq
        exact hseg)
      (show st.lists.length ≤ st.lists.length from le_rfl)
      (by show st.lists.length < (st.lists ++ [ListR.mk st.nodes.length 0 0]).length
          simp)
      (by
        intro l hl
        have hself : ((st.lists ++ [ListR.mk st.nodes.length 0 0])[st.lists.length]?
            : Option ListR) = some (ListR.mk st.nodes.length 0 0) :=
          List.getElem?_concat_length _ _
        rw [show ((allocL (allocN st (NodeD.leafD (fun _ => (default : T)) 0)).1
            (ListR.mk (allocN st (NodeD.leafD (fun _ => default) 0)).2 0 0)).1.lists[
              (allocL (allocN st (NodeD.leafD (fun _ => (default : T)) 0)).1
            (ListR.mk (allocN st (NodeD.leafD (fun _ => default) 0)).2 0 0)).2]?
            : Option ListR)
          = ((st.lists ++ [ListR.mk st.nodes.length 0 0])[st.lists.length]?
            : Option ListR) from rfl, hself] at hl
        cases Option.some.inj hl
        refine ⟨le_rfl, NodeD.leafD (fun _ => default) 0, ?_, rfl⟩
        show ((st.nodes ++ [NodeD.leafD (fun _ => default) 0])[st.nodes.length]?
          : Option (NodeD T)) = _
        exact List.getElem?_concat_length _ _)
      h2
    obtain ⟨m1, m2, m3, m4⟩ := hm2
    have hn1 : (allocL (allocN st (NodeD.leafD (fun _ => (default : T)) 0)).1
        (ListR.mk (allocN st (NodeD.leafD (fun _ => default) 0)).2 0 0)).1.nodes.length
        = st.nodes.length + 1 := by
      show (st.nodes ++ [NodeD.leafD (fun _ => default) 0]).length = st.nodes.length + 1
      simp
    have hl1 : (allocL (allocN st (NodeD.leafD (fun _ => (default : T)) 0)).1
        (ListR.mk (allocN st (NodeD.leafD (fun _ => default) 0)).2 0 0)).1.lists.length
        = st.lists.length + 1 := by
      show (st.lists ++ [ListR.mk st.nodes.length 0 0]).length = st.lists.length + 1
      simp
    refine ⟨by omega, ?_, by omega, ?_⟩
    · intro a ha
      rw [m2 a ha]
      show (st.nodes ++ [NodeD.leafD (fun _ => default) 0])[a]? = st.nodes[a]?
      exact List.getElem?_append_left ha
    · intro r hr
      rw [m4 r hr]
      show (st.lists ++ [ListR.mk st.nodes.length 0 0])[r]? = st.lists[r]?
      exact List.getElem?_append_left hr
  · rw [if_neg hbig] at h
    have h2 : some (allocL (allocN st (NodeD.sliceD values)).1
        (ListR.mk (allocN st (NodeD.sliceD values)).2 0 values.length)) = some (st2, r2) := h
    rw [← some_pair_fst h2]
    exact ExtendsS_trans (allocN_extends _ _) (allocL_extends _ _)

theorem reverseListS_ext {T : Type} [Inhabited T] (st : Store T) (lref : Nat)
    {st2 : Store T} {r2 : Nat} (h : reverseListS st lref = some (st2, r2)) :
    ExtendsS st st2 := by
  unfold reverseListS at h
  cases hl : st.lists[lref]? with
  | none =>
      rw [hl] at h
      cases h
  | some l =>
      rw [hl] at h
      have h0 : (if l.size = 0 then newListS st []
        else match iterFirstS st
            { lref := lref, index := 0, stack := fun _ => (none, 0), depth := 0 } with
          | none => none
          | some it =>
              match iterDrainS l.size st it with
              | none => none
              | some vs => newListS st vs.reverse)
          = some (st2, r2) := h
      by_cases hz : l.size = 0
      · rw [if_pos hz] at h0
        exact newListS_ext st [] h0
      · rw [if_neg hz] at h0
        cases hf : iterFirstS st
            { lref := lref, index := 0, stack := fun _ => (none, 0), depth := 0 } with
        | none =>
            rw [hf] at h0
            cases h0
        | some it =>
            rw [hf] at h0
            have h1 : (match iterDrainS l.size st it with
              | none => none
              | some vs => newListS st vs.reverse) = some (st2, r2) := h0
            cases hd : iterDrainS l.size st it with
            | none =>
                rw [hd] at h1
                cases h1
            | some vs =>
                rw [hd] at h1
                exact newListS_ext st vs.reverse h1

theorem qNormalizeS_ext {T : Type} [Inhabited T] (st : Store T) (q : Option QueueR)
    {st2 : Store T} {nq : Option QueueR} (h : qNormalizeS st q = some (st2, nq)) :
    ExtendsS st st2 := by
  unfold qNormalizeS at h
  cases q with
  | none =>
      have hp : ((st, (none : Option QueueR)) : Store T × Option QueueR).1 = st2 :=
        some_pair_fst h
      rw [← hp]
      exact ExtendsS_refl st
  | some q =>
      have h0 : (if q.size = 0 then some (st, some q)
        else if frontNonemptyS st q then some (st, some q)
        else if !backNonemptyS st q then some (st, some q)
        else
          match q.back with
          | some b =>
              match reverseListS st b with
              | none => none
              | some (st1, f) =>
                  match newListS st1 [] with
                  | none => none
                  | some (st3, nb) => some (st3, some ⟨some f, some nb, q.size⟩)
          | none => some (st, some q))
          = some (st2, nq) := h
      by_cases h1 : q.size = 0
      · rw [if_pos h1] at h0
        rw [← some_pair_fst h0]
        exact ExtendsS_refl st
      rw [if_neg h1] at h0
      by_cases h2 : frontNonemptyS st q
      · rw [if_pos h2] at h0
        rw [← some_pair_fst h0]
        exact ExtendsS_refl st
      rw [if_neg h2] at h0
      by_cases h3 : (!backNonemptyS st q) = true
      · rw [if_pos h3] at h0
        rw [← some_pair_fst h0]
        exact ExtendsS_refl st
      rw [if_neg h3] at h0
      cases hb : q.back with
      | none =>
          rw [hb] at h0
          rw [← some_pair_fst h0]
          exact ExtendsS_refl st
      | some b =>
          rw [hb] at h0
          have h5 : (match reverseListS st b with
            | none => none
            | some (st1, f) =>
                match newListS st1 [] with
                | none => none
                | some (st3, nb) => some (st3, some (⟨some f, some nb, q.size⟩ : QueueR)))
              = some (st2, nq) := h0
          cases hr : reverseListS st b with
          | none =>
              rw [hr] at h5
              cases h5
          | some p =>
              obtain ⟨st1, f⟩ := p
              rw [hr] at h5
              have h4 : (match newListS st1 [] with
                | none => none
                | some (st3, nb) => some (st3, some (⟨some f, some nb, q.size⟩ : QueueR)))
                  = some (st2, nq) := h5
              cases hn : newListS st1 ([] : List T) with
              | none =>
                  rw [hn] at h4
                  cases h4
              | some p2 =>
                  obtain ⟨st3, nb⟩ := p2
                  rw [hn] at h4
                  have hp : ((st3, some (⟨some f, some nb, q.size⟩ : QueueR))
                      : Store T × Option QueueR).1 = st2 := some_pair_fst h4
                  rw [← hp]
                  exact ExtendsS_trans (reverseListS_ext st b hr) (newListS_ext st1 [] hn)

theorem qEnqueueS_ext {T : Type} [Inhabited T] (st : Store T) (q : Option QueueR) (v : T)
    {st2 : Store T} {q2 : QueueR} (h : qEnqueueS st q v = some (st2, q2)) :
    ExtendsS st st2 := by
  unfold qEnqueueS at h
  cases q with
  | none =>
      cases hf : newListS st ([] : List T) with
      | none =>
          rw [hf] at h
          cases h
      | some p =>
          obtain ⟨st1, f⟩ := p
          rw [hf] at h
          have h0 : (match newListS st1 [v] with
            | none => none
            | some (st3, b) => some (st3, (⟨some f, some b, 1⟩ : QueueR)))
              = some (st2, q2) := h
          cases hb : newListS st1 [v] with
          | none =>
              rw [hb] at h0
              cases h0
          | some p2 =>
              obtain ⟨st3, b⟩ := p2
              rw [hb] at h0
              have hp : ((st3, (⟨some f, some b, 1⟩ : QueueR)) : Store T × QueueR).1 = st2 :=
                some_pair_fst h0
              rw [← hp]
              exact ExtendsS_trans (newListS_ext st [] hf) (newListS_ext st1 [v] hb)
  | some q =>
      have h0 : (match q.back with
        | none => none
        | some b =>
            match listPrependS st b v false with
            | none => none
            | some (st1, nb) => some (st1, (⟨q.front, some nb, q.size + 1⟩ : QueueR)))
          = some (st2, q2) := h
      cases hb : q.back with
      | none =>
          rw [hb] at h0
          cases h0
      | some b =>
          rw [hb] at h0
          have h5 : (match listPrependS st b v false with
            | none => none
            | some (st1, nb) => some (st1, (⟨q.front, some nb, q.size + 1⟩ : QueueR)))
              = some (st2, q2) := h0
          cases hp : listPrependS st b v false with
          | none =>
              rw [hp] at h5
              cases h5
          | some p2 =>
              obtain ⟨st1, nb⟩ := p2
              rw [hp] at h5
              have hq : ((st1, (⟨q.front, some nb, q.size + 1⟩ : QueueR))
                  : Store T × QueueR).1 = st2 := some_pair_fst h5
              rw [← hq]
              exact listPrependS_ext st b v hp

theorem qDequeueS_ext {T : Type} [Inhabited T] (st : Store T) (q : Option QueueR)
    {st2 : Store T} {out : Option QueueR × T × Bool}
    (h : qDequeueS st q = some (st2, out)) : ExtendsS st st2 := by
  unfold qDequeueS at h
  cases q with
  | none =>
      have hp : ((st, (none : Option QueueR), (default : T), false)
          : Store T × Option QueueR × T × Bool).1 = st2 := some_pair_fst h
      rw [← hp]
      exact ExtendsS_refl st
  | some q =>
      have h0 : (if q.size = 0 then some (st, none, default, false)
        else if frontNonemptyS st q then
          match q.front with
          | none => none
          | some f =>
              match listGetS st f 0 with
              | none => none
              | some v =>
                  match st.lists[f]? with
                  | none => none
                  | some fl =>
                      match listSliceS st f 1 fl.size false with
                      | none => none
                      | some (st1, nf) =>
                          match qNormalizeS st1 (some ⟨some nf, q.back, q.size - 1⟩) with
                          | none => none
                          | some (st3, nq) => some (st3, nq, v, true)
        else if backNonemptyS st q then
          match qNormalizeS st (some q) with
          | none => none
          | some (st1, nrm) =>
              match nrm with
              | none => none
              | some nq =>
                  match nq.front with
                  | none => none
                  | some nf =>
                      match listGetS st1 nf 0 with
                      | none => none
                      | some v =>
                          match st1.lists[nf]? with
                          | none => none
                          | some nfl =>
                              match listSliceS st1 nf 1 nfl.size false with
                              | none => none
                              | some (st3, nf2) =>
                                  some (st3, some ⟨some nf2, nq.back, q.size - 1⟩, v, true)
        else some (st, none, default, false)) = some (st2, out) := h
      by_cases h1 : q.size = 0
      · rw [if_pos h1] at h0
        rw [← some_pair_fst h0]
        exact ExtendsS_refl st
      rw [if_neg h1] at h0
      by_cases h2 : frontNonemptyS st q
      · rw [if_pos h2] at h0
        cases hf : q.front with
        | none =>
            rw [hf] at h0
            cases h0
        | some f =>
            rw [hf] at h0
            have hA : (match listGetS st f 0 with
              | none => none
              | some v =>
                  match st.lists[f]? with
                  | none => none
                  | some fl =>
                      match listSliceS st f 1 fl.size false with
                      | none => none
                      | some (st1, nf) =>
                          match qNormalizeS st1
                              (some (⟨some nf, q.back, q.size - 1⟩ : QueueR)) with
                          | none => none
                          | some (st3, nq) => some (st3, nq, v, true))
                = some (st2, out) := h0
            cases hg : listGetS st f 0 with
            | none =>
                rw [hg] at hA
                cases hA
            | some v =>
                rw [hg] at hA
                have hB : (match st.lists[f]? with
                  | none => none
                  | some fl =>
                      match listSliceS st f 1 fl.size false with
                      | none => none
                      | some (st1, nf) =>
                          match qNormalizeS st1
                              (some (⟨some nf, q.back, q.size - 1⟩ : QueueR)) with
                          | none => none
                          | some (st3, nq) => some (st3, nq, v, true))
                    = some (st2, out) := hA
                cases hfl : st.lists[f]? with
                | none =>
                    rw [hfl] at hB
                    cases hB
                | some fl =>
                    rw [hfl] at hB
                    have hC : (match listSliceS st f 1 fl.size false with
                      | none => none
                      | some (st1, nf) =>
                          match qNormalizeS st1
                              (some (⟨some nf, q.back, q.size - 1⟩ : QueueR)) with
                          | none => none
                          | some (st3, nq) => some (st3, nq, v, true))
                        = some (st2, out) := hB
                    cases hsl : listSliceS st f 1 fl.size false with
                    | none =>
                        rw [hsl] at hC
                        cases hC
                    | some p2 =>
                        obtain ⟨st1, nf⟩ := p2
                        rw [hsl] at hC
                        have h3 : (match qNormalizeS st1
                            (some (⟨some nf, q.back, q.size - 1⟩ : QueueR)) with
                          | none => none
                          | some (st3, nq) => some (st3, nq, v, true))
                            = some (st2, out) := hC
                        cases hnm : qNormalizeS st1
                            (some (⟨some nf, q.back, q.size - 1⟩ : QueueR)) with
                        | none =>
                            rw [hnm] at h3
                            cases h3
                        | some p3 =>
                            obtain ⟨st3, nq⟩ := p3
                            rw [hnm] at h3
                            have hp : ((st3, nq, v, true)
                                : Store T × Option QueueR × T × Bool).1 = st2 :=
                              some_pair_fst h3
                            rw [← hp]
                            exact ExtendsS_trans (listSliceS_ext st f 1 fl.size hsl)
                              (qNormalizeS_ext st1 _ hnm)
      rw [if_neg h2] at h0
      by_cases h3 : backNonemptyS st q
      · rw [if_pos h3] at h0
        cases hnm : qNormalizeS st (some q) with
        | none =>
            rw [hnm] at h0
            cases h0
        | some p1 =>
            obtain ⟨st1, nrm⟩ := p1
            rw [hnm] at h0
            have hext1 : ExtendsS st st1 := qNormalizeS_ext st _ hnm
            cases nrm with
            | none =>
                cases h0
            | some nq =>
                have h4 : (match nq.front with
                  | none => none
                  | some nf =>
                      match listGetS st1 nf 0 with
                      | none => none
                      | some v =>
                          match st1.lists[nf]? with
                          | none => none
                          | some nfl =>
                              match listSliceS st1 nf 1 nfl.size false with
                              | none => none
                              | some (st3, nf2) =>
                                  some (st3, some (⟨some nf2, nq.back, q.size - 1⟩
                                    : QueueR), v, true))
                    = some (st2, out) := h0
                cases hnf : nq.front with
                | none =>
                    rw [hnf] at h4
                    cases h4
                | some nf =>
                    rw [hnf] at h4
                    have hA : (match listGetS st1 nf 0 with
                      | none => none
                      | some v =>
                          match st1.lists[nf]? with
                          | none => none
                          | some nfl =>
                              match listSliceS st1 nf 1 nfl.size false with
                              | none => none
                              | some (st3, nf2) =>
                                  some (st3, some (⟨some nf2, nq.back, q.size - 1⟩
                                    : QueueR), v, true))
                        = some (st2, out) := h4
                    cases hg : listGetS st1 nf 0 with
                    | none =>
                        rw [hg] at hA
                        cases hA
                    | some v =>
                        rw [hg] at hA
                        have hB : (match st1.lists[nf]? with
                          | none => none
                          | some nfl =>
                              match listSliceS st1 nf 1 nfl.size false with
                              | none => none
                              | some (st3, nf2) =>
                                  some (st3, some (⟨some nf2, nq.back, q.size - 1⟩
                                    : QueueR), v, true))
                            = some (st2, out) := hA
                        cases hfl : st1.lists[nf]? with
                        | none =>
                            rw [hfl] at hB
                            cases hB
                        | some nfl =>
                            rw [hfl] at hB
                            have hC : (match listSliceS st1 nf 1 nfl.size false with
                              | none => none
                              | some (st3, nf2) =>
                                  some (st3, some (⟨some nf2, nq.back, q.size - 1⟩
                                    : QueueR), v, true))
                                = some (st2, out) := hB
                            cases hsl : listSliceS st1 nf 1 nfl.size false with
                            | none =>
                                rw [hsl] at hC
                                cases hC
                            | some p2 =>
                                obtain ⟨st3, nf2⟩ := p2
                                rw [hsl] at hC
                                have hp : ((st3, some (⟨some nf2, nq.back, q.size - 1⟩
                                    : QueueR), v, true)
                                    : Store T × Option QueueR × T × Bool).1 = st2 :=
                                  some_pair_fst hC
                                rw [← hp]
                                exact ExtendsS_trans hext1
                                  (listSliceS_ext st1 nf 1 nfl.size hsl)
      rw [if_neg h3] at h0
      rw [← some_pair_fst h0]
      exact ExtendsS_refl st

/-- Reads of pre-existing nodes in a closed store are unchanged by store
extension: every address the walk visits is in range, and those cells are
preserved. -/
theorem nodeGetS_ext {T : Type} {st st2 : Store T} (hext : ExtendsS st st2)
    (hcl : ClosedS st) :
    ∀ (fuel : Nat) (a i : Nat), a < st.nodes.length →
      nodeGetS fuel st2 a i = nodeGetS fuel st a i := by
  intro fuel
  induction fuel with
  | zero =>
      intro a i _
      rfl
  | succ fuel ih =>
      intro a i ha
      show (match st2.nodes[a]? with
        | none => none
        | some (.sliceD elements) => elements[i]?
        | some (.leafD children _) => some (children (i % 32))
        | some (.branchD d children) =>
            match children (digit d i) with
            | none => none
            | some c => nodeGetS fuel st2 c i) =
        (match st.nodes[a]? with
        | none => none
        | some (.sliceD elements) => elements[i]?
        | some (.leafD children _) => some (children (i % 32))
        | some (.branchD d children) =>
            match children (digit d i) with
            | none => none
            | some c => nodeGetS fuel st c i)
      rw [hext.2.1 a ha]
      cases hn : st.nodes[a]? with
      | none => rfl
      | some nd =>
          cases nd with
          | sliceD es => rfl
          | leafD ch occ => rfl
          | branchD d children =>
              show (match children (digit d i) with
                | none => none
                | some c => nodeGetS fuel st2 c i)
                = (match children (digit d i) with
                | none => none
                | some c => nodeGetS fuel st c i)
              cases hch : children (digit d i) with
              | none => rfl
              | some c =>
                  show nodeGetS fuel st2 c i = nodeGetS fuel st c i
                  have hrange := hcl.1 a ha
                  have hgetd : st.nodes.getD a (NodeD.sliceD [])
                      = NodeD.branchD d children := by
                    rw [List.getD_eq_getElem?_getD, hn]
                    rfl
                  rw [hgetd] at hrange
                  have hall := (List.all_eq_true.mp hrange) (digit d i)
                    (List.mem_range.mpr (digit_lt d i))
                  have hall2 : (match children (digit d i) with
                    | some c2 => decide (c2 < st.nodes.length)
                    | none => true) = true := hall
                  rw [hch] at hall2
                  have hclt : c < st.nodes.length := of_decide_eq_true hall2
                  exact ih c i hclt

theorem listGetS_ext {T : Type} {st st2 : Store T} (hext : ExtendsS st st2)
    (hcl : ClosedS st) (lref : Nat) (hlref : lref < st.lists.length) (i : Nat) :
    listGetS st2 lref i = listGetS st lref i := by
  unfold listGetS
  rw [hext.2.2.2 lref hlref]
  cases hl : st.lists[lref]? with
  | none => rfl
  | some l =>
      have hroot : l.root < st.nodes.length := by
        have h2 := hcl.2 lref hlref
        have hgetd : st.lists.getD lref ⟨0, 0, 0⟩ = l := by
          rw [List.getD_eq_getElem?_getD, hl]
          rfl
        rw [hgetd] at h2
        exact h2
      show (if i ≥ l.size then none
        else match st2.nodes[l.root]? with
          | none => none
          | some (.sliceD elements) => elements[i]?
          | some nd => nodeGetS (nd.depthD + 1) st2 l.root (l.origin + i))
        = (if i ≥ l.size then none
        else match st.nodes[l.root]? with
          | none => none
          | some (.sliceD elements) => elements[i]?
          | some nd => nodeGetS (nd.depthD + 1) st l.root (l.origin + i))
      by_cases hge : i ≥ l.size
      · rw [if_pos hge, if_pos hge]
      · rw [if_neg hge, if_neg hge, hext.2.1 l.root hroot]
        cases hn : st.nodes[l.root]? with
        | none => rfl
        | some nd =>
            cases nd with
            | sliceD es => rfl
            | leafD ch occ =>
                exact nodeGetS_ext hext hcl _ l.root (l.origin + i) hroot
            | branchD d children =>
                exact nodeGetS_ext hext hcl _ l.root (l.origin + i) hroot

/-- The public observations of a published list survive any store
extension. -/
theorem listObs_ext {T : Type} {st st2 : Store T} (hext : ExtendsS st st2)
    (hcl : ClosedS st) (lref : Nat) (hlref : lref < st.lists.length) :
    listObs st2 lref = listObs st lref := by
  unfold listObs
  rw [hext.2.2.2 lref hlref]
  cases hl : st.lists[lref]? with
  | none => rfl
  | some l =>
      show (l.size, (List.range l.size).map fun i => listGetS st2 lref i)
        = (l.size, (List.range l.size).map fun i => listGetS st lref i)
      rw [List.map_congr_left (fun i _ => listGetS_ext hext hcl lref hlref i)]

/-- The public observations of a published queue (length and dequeue
order) survive any store extension. -/
theorem queueObs_ext {T : Type} {st st2 : Store T} (hext : ExtendsS st st2)
    (hcl : ClosedS st) (q : QueueR)
    (hf : ∀ f, q.front = some f → f < st.lists.length)
    (hb : ∀ b, q.back = some b → b < st.lists.length) :
    queueObs st2 (some q) = queueObs st (some q) := by
  unfold queueObs
  show (q.size, sideObs st2 q.front ++ (sideObs st2 q.back).reverse)
    = (q.size, sideObs st q.front ++ (sideObs st q.back).reverse)
  have hside : ∀ (side : Option Nat), (∀ r, side = some r → r < st.lists.length) →
      sideObs st2 side = sideObs st side := by
    intro side hr
    cases hs : side with
    | none => rfl
    | some r =>
        show (listObs st2 r).2 = (listObs st r).2
        rw [listObs_ext hext hcl r (hr r hs)]
  rw [hside q.front hf, hside q.back hb]

/-- C1: Persistence.  In a closed store, every public operation that
produces a new collection — `Set`, `Append`, `Prepend`, `Slice` with the
mutable flag false, `Enqueue` and `Dequeue` — only extends the store
(writes through no pointer that existed before it ran), and therefore
leaves all public observations of every previously published `List`
(length and the value at every index) and `Queue` (length and dequeue
order) identical. -/
theorem C1_persistence {T : Type} [Inhabited T] {st st2 : Store T}
    (hcl : ClosedS st)
    (hop :
      (∃ lref index v r2, listSetS st lref index v false = some (st2, r2)) ∨
      (∃ lref v r2, listAppendS st lref v false = some (st2, r2)) ∨
      (∃ lref v r2, listPrependS st lref v false = some (st2, r2)) ∨
      (∃ lref a b r2, listSliceS st lref a b false = some (st2, r2)) ∨
      (∃ q v q2, qEnqueueS st q v = some (st2, q2)) ∨
      (∃ q out, qDequeueS st q = some (st2, out))) :
    ExtendsS st st2 ∧
    (∀ lref, lref < st.lists.length → listObs st2 lref = listObs st lref) ∧
    (∀ q : QueueR,
      (∀ f, q.front = some f → f < st.lists.length) →
      (∀ b, q.back = some b → b < st.lists.length) →
      queueObs st2 (some q) = queueObs st (some q)) := by
  have hext : ExtendsS st st2 := by
    rcases hop with ⟨lref, index, v, r2, h⟩ | ⟨lref, v, r2, h⟩ | ⟨lref, v, r2, h⟩ |
      ⟨lref, a, b, r2, h⟩ | ⟨q, v, q2, h⟩ | ⟨q, out, h⟩
    · exact listSetS_ext st lref index v h
    · exact listAppendS_ext st lref v h
    · exact listPrependS_ext st lref v h
    · exact listSliceS_ext st lref a b h
    · exact qEnqueueS_ext st q v h
    · exact qDequeueS_ext st q h
  exact ⟨hext, fun lref hl => listObs_ext hext hcl lref hl,
    fun q hf hb => queueObs_ext hext hcl q hf hb⟩

theorem C1_persistence_witness :
    ClosedS (⟨[NodeD.sliceD [5, 6]], [⟨0, 0, 2⟩]⟩ : Store Nat) ∧
    listAppendS (⟨[NodeD.sliceD [5, 6]], [⟨0, 0, 2⟩]⟩ : Store Nat) 0 7 false
      = some (⟨[NodeD.sliceD [5, 6], NodeD.sliceD [5, 6, 7]],
          [⟨0, 0, 2⟩, ⟨1, 0, 3⟩]⟩, 1) ∧
    ExtendsS (⟨[NodeD.sliceD [5, 6]], [⟨0, 0, 2⟩]⟩ : Store Nat)
      ⟨[NodeD.sliceD [5, 6], NodeD.sliceD [5, 6, 7]], [⟨0, 0, 2⟩, ⟨1, 0, 3⟩]⟩ ∧
    listObs (⟨[NodeD.sliceD [5, 6], NodeD.sliceD [5, 6, 7]],
        [⟨0, 0, 2⟩, ⟨1, 0, 3⟩]⟩ : Store Nat) 0
      = listObs (⟨[NodeD.sliceD [5, 6]], [⟨0, 0, 2⟩]⟩ : Store Nat) 0 := by
  have hcl : ClosedS (⟨[NodeD.sliceD [5, 6]], [⟨0, 0, 2⟩]⟩ : Store Nat) :=
    ⟨fun a ha => by
        have ha1 : a < 1 := ha
        have ha0 : a = 0 := by omega
        subst ha0
        rfl,
      fun r hr => by
        have hr1 : r < 1 := hr
        have hr0 : r = 0 := by omega
        subst hr0
        exact Nat.zero_lt_one⟩
  have hop : listAppendS (⟨[NodeD.sliceD [5, 6]], [⟨0, 0, 2⟩]⟩ : Store Nat) 0 7 false
      = some (⟨[NodeD.sliceD [5, 6], NodeD.sliceD [5, 6, 7]],
          [⟨0, 0, 2⟩, ⟨1, 0, 3⟩]⟩, 1) := rfl
  have h := C1_persistence hcl (Or.inr (Or.inl ⟨0, 7, 1, hop⟩))
  exact ⟨hcl, hop, h.1, h.2.1 0 Nat.zero_lt_one⟩
